import Mathlib

/-!
# A verification development for the fault-tolerant JSON parser

This file gives a shallow embedding, in Lean 4, of the recursive-descent
fault-tolerant JSON parser of `src/parser.js`, together with theorems that
settle the behavioural claims made about it.

Modelling conventions, applied uniformly:

* JavaScript strings are modelled as `List Char`; the cursor `this.pos` is a
  `Nat` index into that list.  `this.input[this.pos]` (a one-character string,
  or `undefined` past the end) is modelled as `Option Char`.
* The JS number value `Number(slice)` (a double) is modelled by the *lexeme*
  that produced it: two values built from the same lexeme are the same
  double, so this model is sound for all equalities proved here.  The
  `isNaN` test on such lexemes is computed from the lexeme (`numLexemeNaN`).
* `String.fromCharCode(n)` is modelled by `Char.ofNat n`; lone UTF-16
  surrogate code units (which Lean's `Char` cannot represent) are idealised
  to `'\x00'`.  No claim in this development touches that corner.
* A JS exception (thrown by `error` in strict mode) is modelled by a
  `fatal` flag in the parser state: once set, every remaining operation is
  skipped, exactly as the stack unwinds in JS, and `parseSmart`'s `catch`
  branch inspects the flag.
* The mutually recursive parser methods are modelled by one fuel-indexed
  step function over a request type (`Req`), so that the definition is
  structurally recursive and computable by the kernel.  Running out of fuel
  yields `none`; the termination theorem shows the canonical fuel used by
  the entry point never runs out.
-/

namespace FtParse

/-- The character class of JavaScript's `/\s/` (and of `String.trim`):
WhiteSpace plus LineTerminator.  Used by `skipWS`, the string-closing
lookahead, key sanitation and the empty-input test. -/
def isJsWs (c : Char) : Bool :=
  c.toNat = 0x20 || c.toNat = 0x09 || c.toNat = 0x0a || c.toNat = 0x0d ||
  c.toNat = 0x0b || c.toNat = 0x0c || c.toNat = 0xa0 || c.toNat = 0x1680 ||
  (0x2000 <= c.toNat && c.toNat <= 0x200a) || c.toNat = 0x2028 ||
  c.toNat = 0x2029 || c.toNat = 0x202f || c.toNat = 0x205f ||
  c.toNat = 0x3000 || c.toNat = 0xfeff

/-- ASCII decimal digit (`c >= "0" && c <= "9"` in the source). -/
def isDigit (c : Char) : Bool := '0' ≤ c && c ≤ '9'

/-- The class `/[a-zA-Z_$]/` used for the first character of an unquoted
object key. -/
def isIdentStart (c : Char) : Bool :=
  ('a' ≤ c && c ≤ 'z') || ('A' ≤ c && c ≤ 'Z') || c = '_' || c = '$'

/-- The class `/[\w$]/` used for the body of an unquoted identifier. -/
def isWordChar (c : Char) : Bool :=
  ('a' ≤ c && c ≤ 'z') || ('A' ≤ c && c ≤ 'Z') || isDigit c || c = '_' || c = '$'

/-- The class `/[0-9a-fA-F]/` of hexadecimal digits in a `\u` escape. -/
def isHexDigit (c : Char) : Bool :=
  isDigit c || ('a' ≤ c && c ≤ 'f') || ('A' ≤ c && c ≤ 'F')

/-- Numeric value of one hex digit. -/
def hexDigitVal (c : Char) : Nat :=
  if isDigit c then c.toNat - '0'.toNat
  else if 'a' ≤ c && c ≤ 'f' then c.toNat - 'a'.toNat + 10
  else if 'A' ≤ c && c ≤ 'F' then c.toNat - 'A'.toNat + 10
  else 0

/-- `parseInt(hex, 16)` on a list of hex digits. -/
def hexVal (l : List Char) : Nat := l.foldl (fun a c => 16 * a + hexDigitVal c) 0

/-- The options record of the parser (`DEFAULT_OPTIONS` merged with the
caller's overrides). -/
structure Options where
  strict : Bool
  maxDepth : Nat
  allowComments : Bool
  allowTrailingComma : Bool
  convertPythonTokens : Bool
  convertUndefined : Bool
deriving Repr, DecidableEq

/-- `DEFAULT_OPTIONS` of the source. -/
def defaultOptions : Options := ⟨false, 100, true, true, true, true⟩

/-- The JSON value tree built by the parser.  `num` carries the numeric
lexeme (see the header comment).  `absent` models the JS `undefined`
returned by the dispatcher when it refuses to consume a container-closing
byte; `null` models JS `null`.  Object fields are kept in creation
(first-insertion) order. -/
inductive Value where
  | null : Value
  | bool (b : Bool) : Value
  | num (lexeme : List Char) : Value
  | str (s : List Char) : Value
  | arr (elems : List Value) : Value
  | obj (fields : List (List Char × Value)) : Value
  | absent : Value
deriving Repr

/-- One diagnostic: position and message, as pushed by `error`. -/
abbrev Diag := Nat × String

/-- The mutable state of a `FaultTolerantParser` instance: cursor, log,
dispatcher retry counter (`_depth`), container depth (`_nestDepth`), and
the exception flag of strict mode. -/
structure St where
  pos : Nat
  errors : List Diag
  depth : Nat
  nestDepth : Nat
  fatal : Bool
deriving Repr, DecidableEq

namespace St

/-- Move the cursor. -/
def withPos (s : St) (p : Nat) : St := ⟨p, s.errors, s.depth, s.nestDepth, s.fatal⟩

/-- Set the retry counter. -/
def withDepth (s : St) (d : Nat) : St := ⟨s.pos, s.errors, d, s.nestDepth, s.fatal⟩

/-- Set the container depth. -/
def withNest (s : St) (n : Nat) : St := ⟨s.pos, s.errors, s.depth, n, s.fatal⟩

/-- `this.error(msg)`: push a diagnostic at the current cursor; in strict
mode also raise the fatal condition (the JS `throw`). -/
def push (opts : Options) (s : St) (m : String) : St :=
  ⟨s.pos, s.errors ++ [(s.pos, m)], s.depth, s.nestDepth, s.fatal || opts.strict⟩

end St

/-- `this.ch()`: the character under the cursor, `none` at or past EOF. -/
def chAt (inp : List Char) (p : Nat) : Option Char := inp.get? p

/-- `this.eof()`. -/
def isEof (inp : List Char) (p : Nat) : Bool := inp.length ≤ p

/-- `this.input.startsWith(w, p)` (`matchWord`). -/
def matchWord (inp : List Char) (p : Nat) (w : List Char) : Bool :=
  w.isPrefixOf (inp.drop p)

/-- The character `{` (kept out of string literals by convention). -/
def lbrace : Char := Char.ofNat 0x7b

/-- The character `}`. -/
def rbrace : Char := Char.ofNat 0x7d

/-!
Each of the scan loops below is written with a structural fuel argument so
that the kernel can evaluate it.  Every call site passes fuel that is at
least `inp.length - p`; since every iteration advances the position by at
least one, fuel `0` is reached only with the position at or past EOF, where
the `0` case returns exactly what the loop's EOF exit returns.  The scans
therefore compute the same positions as the unbounded JS loops.
-/

/-- The inner loop of the line-comment branch of `skipWS`:
`while (pos < len && input[pos] !== '\n') pos++`. -/
def lineEnd (inp : List Char) : Nat → Nat → Nat
  | 0, p => p
  | fuel+1, p =>
    match chAt inp p with
    | none => p
    | some c => if c = '\n' then p else lineEnd inp fuel (p+1)

/-- The inner loop of the block-comment branch of `skipWS`:
`while (pos < len && !(input[pos]==='*' && input[pos+1]==='/')) pos++`.
The caller adds the trailing `pos += 2`. -/
def blockEnd (inp : List Char) : Nat → Nat → Nat
  | 0, p => p
  | fuel+1, p =>
    match chAt inp p with
    | none => p
    | some c =>
      if c = '*' && chAt inp (p+1) = some '/' then p else blockEnd inp fuel (p+1)

/-- The body of `skipWS`: interleaved whitespace and (optional) comment
skipping. -/
def skipWSAux (inp : List Char) (opts : Options) : Nat → Nat → Nat
  | 0, p => p
  | fuel+1, p =>
    match chAt inp p with
    | none => p
    | some c =>
      if isJsWs c then skipWSAux inp opts fuel (p+1)
      else if opts.allowComments && c = '/' && chAt inp (p+1) = some '/' then
        skipWSAux inp opts fuel (lineEnd inp inp.length (p+2))
      else if opts.allowComments && c = '/' && chAt inp (p+1) = some '*' then
        skipWSAux inp opts fuel (blockEnd inp inp.length (p+2) + 2)
      else p

/-- `this.skipWS()`, as a function on the cursor only (the only state it
touches). -/
def skipWSPos (inp : List Char) (opts : Options) (p : Nat) : Nat :=
  skipWSAux inp opts inp.length p

/-- `while (!eof && ch >= '0' && ch <= '9') pos++`. -/
def digitsEnd (inp : List Char) : Nat → Nat → Nat
  | 0, p => p
  | fuel+1, p =>
    match chAt inp p with
    | none => p
    | some c => if isDigit c then digitsEnd inp fuel (p+1) else p

/-- `while (la < len && /\s/.test(input[la])) la++` — the whitespace scan of
the string-closing lookahead (also reused for the array heuristic). -/
def wsScan (inp : List Char) : Nat → Nat → Nat
  | 0, p => p
  | fuel+1, p =>
    match chAt inp p with
    | none => p
    | some c => if isJsWs c then wsScan inp fuel (p+1) else p

/-- `while (!eof && /[\w$]/.test(ch)) pos++` (`parseUnquotedIdentifier` and
the identifier branch of the array heuristic). -/
def identEnd (inp : List Char) : Nat → Nat → Nat
  | 0, p => p
  | fuel+1, p =>
    match chAt inp p with
    | none => p
    | some c => if isWordChar c then identEnd inp fuel (p+1) else p

/-- The balanced-span skip of the depth-overrun branches: starting just past
the opening bracket with `bal = 1`,
`while (!eof && bal > 0) { if (ch===op) bal++; else if (ch===cl) bal--; pos++ }`. -/
def skipBalanced (inp : List Char) (op cl : Char) : Nat → Nat → Nat → Nat
  | 0, _, p => p
  | fuel+1, bal, p =>
    if bal = 0 then p
    else
      match chAt inp p with
      | none => p
      | some c =>
        skipBalanced inp op cl fuel
          (if c = op then bal + 1 else if c = cl then bal - 1 else bal) (p+1)

/-- The tentative string scan of `_looksLikeKeyValueAhead` (quoted branch):
walks from just past the opening quote, treating `\X` as two characters;
`none` models the early `return false` on a newline, `some i` the loop
exit position. -/
def tentStrScan (inp : List Char) (q : Char) : Nat → Nat → Option Nat
  | 0, i => some i
  | fuel+1, i =>
    match chAt inp i with
    | none => some i
    | some c =>
      if c = '\\' then tentStrScan inp q fuel (i+2)
      else if c = q then some (i+1)
      else if c = '\n' || c = '\r' then none
      else tentStrScan inp q fuel (i+1)

/-- `_looksLikeKeyValueAhead`: non-mutating lookahead for a `key:` shape. -/
def looksLikeKeyValueAhead (inp : List Char) (p : Nat) : Bool :=
  match chAt inp p with
  | none => false
  | some c =>
    if c = '"' || c = '\'' then
      match tentStrScan inp c (inp.length + 1) (p+1) with
      | none => false
      | some i =>
        if inp.length ≤ i then false
        else chAt inp (wsScan inp inp.length i) = some ':'
    else if isIdentStart c then
      chAt inp (wsScan inp inp.length (identEnd inp inp.length p)) = some ':'
    else false

/-- `parseUnquotedIdentifier`. -/
def parseUnquotedIdentifier (inp : List Char) (s : St) : List Char × St :=
  let e := identEnd inp inp.length s.pos
  ((inp.drop s.pos).take (e - s.pos), s.withPos e)

/-- Whether `Number(slice)` is `NaN`, computed from a lexeme of the shape
`parseNumber` consumes (optional sign, digits, optional fraction, optional
exponent): the conversion fails exactly when the mantissa has no digit at
all, or an exponent marker is present with no digit after it. -/
def numLexemeNaN (l : List Char) : Bool :=
  let mantissa := l.takeWhile fun c => !(c = 'e' || c = 'E')
  let expo := l.dropWhile fun c => !(c = 'e' || c = 'E')
  !(mantissa.any isDigit) || (!expo.isEmpty && !(expo.any isDigit))

/-- The end position of the greedy numeric lexeme scan of `parseNumber`:
optional `-`; a single `0` or a digit run; optional `.` and digit run;
optional `e`/`E`, optional sign, digit run. -/
def numEnd (inp : List Char) (start : Nat) : Nat :=
  let p1 := if chAt inp start = some '-' then start + 1 else start
  let p2 := if chAt inp p1 = some '0' then p1 + 1 else digitsEnd inp inp.length p1
  let p3 := if chAt inp p2 = some '.' then digitsEnd inp inp.length (p2 + 1) else p2
  if chAt inp p3 = some 'e' || chAt inp p3 = some 'E' then
    let q := if chAt inp (p3+1) = some '+' || chAt inp (p3+1) = some '-'
      then p3 + 2 else p3 + 1
    digitsEnd inp inp.length q
  else p3

/-- `parseNumber`: greedy lexeme consumption, then conversion; on a `NaN`
conversion, log `Invalid number` and return the double `0` (represented by
its lexeme `"0"`). -/
def parseNumber (inp : List Char) (opts : Options) (s : St) : Value × St :=
  let p4 := numEnd inp s.pos
  let lex := (inp.drop s.pos).take (p4 - s.pos)
  if numLexemeNaN lex then
    (Value.num ['0'], (s.withPos p4).push opts ("Invalid number at pos " ++ Nat.repr s.pos))
  else (Value.num lex, s.withPos p4)

/-- The `\u` hex scan of the string reader: up to four hex digits. -/
def hexScan (inp : List Char) : Nat → Nat → List Char
  | 0, _ => []
  | j+1, p =>
    match chAt inp p with
    | none => []
    | some c => if isHexDigit c then c :: hexScan inp j (p+1) else []

/-- The simple cases of the escape `switch` in `parseString`: the
translated character, or `none` for `u` and unrecognised escapes. -/
def escChar (esc : Char) : Option Char :=
  if esc = '"' then some '"'
  else if esc = '\'' then some '\''
  else if esc = '\\' then some '\\'
  else if esc = '/' then some '/'
  else if esc = 'b' then some '\x08'
  else if esc = 'f' then some '\x0c'
  else if esc = 'n' then some '\n'
  else if esc = 'r' then some '\r'
  else if esc = 't' then some '\t'
  else none

/-- The character-at-a-time loop of `parseString`, from just past the
opening quote.  `q` is the closing sentinel; `acc` the accumulated value.
Fuel as in the scan loops: the `0` case is the EOF (unterminated) exit. -/
def parseStringGo (inp : List Char) (opts : Options) (q : Char) :
    Nat → List Char → St → List Char × St
  | 0, acc, s => (acc, s.push opts ("Unterminated string at pos " ++ Nat.repr s.pos))
  | fuel+1, acc, s =>
    match chAt inp s.pos with
    | none => (acc, s.push opts ("Unterminated string at pos " ++ Nat.repr s.pos))
    | some c =>
      if c = '\\' then
        let s1 := s.withPos (s.pos + 1)
        match chAt inp s1.pos with
        | none =>
          let s2 := s1.push opts "Truncated escape at end of input"
          if s2.fatal then (acc, s2)
          else (acc, s2.push opts ("Unterminated string at pos " ++ Nat.repr s2.pos))
        | some esc =>
          let s2 := s1.withPos (s1.pos + 1)
          match escChar esc with
          | some ec => parseStringGo inp opts q fuel (acc ++ [ec]) s2
          | none =>
          if esc = 'u' then
            let hex := hexScan inp 4 s2.pos
            let s3 := s2.withPos (s2.pos + hex.length)
            if hex.length = 4 then
              parseStringGo inp opts q fuel (acc ++ [Char.ofNat (hexVal hex)]) s3
            else
              let s4 := s3.push opts
                ("Invalid \\u" ++ String.mk hex ++ " at pos " ++ Nat.repr s3.pos)
              if s4.fatal then (acc, s4)
              else parseStringGo inp opts q fuel (acc ++ '\\' :: 'u' :: hex) s4
          else
            let s3 := s2.push opts
              ("Invalid escape \\" ++ String.mk [esc] ++ " at pos " ++ Nat.repr (s2.pos - 1))
            if s3.fatal then (acc, s3)
            else parseStringGo inp opts q fuel (acc ++ [esc]) s3
      else if c = q then
        if (match chAt inp (wsScan inp inp.length (s.pos + 1)) with
            | none => true
            | some nx => nx = ',' || nx = ':' || nx = rbrace || nx = ']' ||
                nx = lbrace || nx = '[') then
          (acc, s.withPos (s.pos + 1))
        else
          let s1 := s.push opts ("Unescaped quote in string at pos " ++ Nat.repr s.pos)
          if s1.fatal then (acc, s1)
          else parseStringGo inp opts q fuel (acc ++ [c]) (s1.withPos (s1.pos + 1))
      else if c = '\n' || c = '\r' then
        (acc, s.push opts ("Newline in string at pos " ++ Nat.repr s.pos ++ ", closing string"))
      else parseStringGo inp opts q fuel (acc ++ [c]) (s.withPos (s.pos + 1))

/-- `parseString`: record the sentinel quote, step past it, run the loop. -/
def parseString (inp : List Char) (opts : Options) (s : St) : List Char × St :=
  let q := (chAt inp s.pos).getD '"'
  parseStringGo inp opts q (inp.length + 1) [] (s.withPos (s.pos + 1))

/-- `obj[key] = value` on the creation-ordered field list: overwrite in
place if the key exists, else append. -/
def setKey (l : List (List Char × Value)) (k : List Char) (v : Value) :
    List (List Char × Value) :=
  match l with
  | [] => [(k, v)]
  | (k', v') :: t => if k' = k then (k, v) :: t else (k', v') :: setKey t k v

/-- `obj[key] = value` as the JS assignment the parser performs: writing
the key `__proto__` on a plain object invokes the inherited prototype
setter and creates no own property, so the field list is unchanged; every
other key is stored by `setKey`. -/
def setKeyJs (l : List (List Char × Value)) (k : List Char) (v : Value) :
    List (List Char × Value) :=
  if k = "__proto__".data then l else setKey l k v

/-- `=== undefined` discriminator. -/
def Value.isAbsent : Value → Bool
  | .absent => true
  | _ => false

/-- `=== null` discriminator. -/
def Value.isNull : Value → Bool
  | .null => true
  | _ => false

/-- The requests of the parser's mutually recursive methods: the value
dispatcher, the two container readers, their member loops, and the tail of
an object member once its key is known (`objMember` covers source lines
185–202, `objValue` lines 204–228). -/
inductive Req where
  | value (s : St)
  | object (s : St)
  | array (s : St)
  | objLoop (fields : List (List Char × Value)) (s : St)
  | objMember (fields : List (List Char × Value)) (key : List Char) (s : St)
  | objValue (fields : List (List Char × Value)) (key : List Char) (s : St)
  | arrLoop (elems : List Value) (s : St)

/-- The stray-separator diagnostic text. -/
def strayMsg (c : Char) (p : Nat) : String :=
  "Stray '" ++ String.mk [c] ++ "' at pos " ++ Nat.repr p ++ ", skipping"

/-- The unknown-character diagnostic text. -/
def unexpectedCharMsg (c : Char) (p : Nat) : String :=
  "Unexpected char '" ++ String.mk [c] ++ "' at pos " ++ Nat.repr p ++ ", skipping"

/-- The keyword lexemes tested by `matchWord` in the dispatcher. -/
def wTrue : List Char := ['t', 'r', 'u', 'e']

/-- `false` as characters. -/
def wFalse : List Char := ['f', 'a', 'l', 's', 'e']

/-- `null` as characters. -/
def wNull : List Char := ['n', 'u', 'l', 'l']

/-- `True` as characters. -/
def wPyTrue : List Char := ['T', 'r', 'u', 'e']

/-- `False` as characters. -/
def wPyFalse : List Char := ['F', 'a', 'l', 's', 'e']

/-- `None` as characters. -/
def wPyNone : List Char := ['N', 'o', 'n', 'e']

/-- `undefined` as characters. -/
def wUndefined : List Char := ['u', 'n', 'd', 'e', 'f', 'i', 'n', 'e', 'd']

/-- `NaN` as characters. -/
def wNaN : List Char := ['N', 'a', 'N']

/-- `Infinity` as characters. -/
def wInfinity : List Char := ['I', 'n', 'f', 'i', 'n', 'i', 't', 'y']

/-- One fuel-indexed interpreter for the mutually recursive parser methods
(`parseValue`, `parseObject`, `parseArray` and their loops).  `none` means
the fuel ran out; the termination theorem shows the canonical fuel used by
`parse` never does.  A state with `fatal = true` (a pending strict-mode
exception) makes every request return immediately with the state
unchanged, modelling the unwinding JS stack.  Loop requests return their
accumulated container as the `Value`. -/
def step (inp : List Char) (opts : Options) : Nat → Req → Option (Value × St)
  | 0, _ => none
  | fuel+1, .value s =>
    if s.fatal then some (.null, s) else
    let s := s.withPos (skipWSPos inp opts s.pos)
    match chAt inp s.pos with
    | none => some (.null, s)
    | some c =>
      if c = lbrace then step inp opts fuel (.object s)
      else if c = '[' then step inp opts fuel (.array s)
      else if c = '"' || c = '\'' then
        let r := parseString inp opts s
        some (.str r.1, r.2)
      else if c = '-' || isDigit c then
        let r := parseNumber inp opts s
        some (r.1, r.2)
      else if matchWord inp s.pos wTrue then some (.bool true, s.withPos (s.pos + 4))
      else if matchWord inp s.pos wFalse then some (.bool false, s.withPos (s.pos + 5))
      else if matchWord inp s.pos wNull then some (.null, s.withPos (s.pos + 4))
      else if opts.convertPythonTokens && matchWord inp s.pos wPyTrue then
        some (.bool true, (s.withPos (s.pos + 4)).push opts "Python True → true")
      else if opts.convertPythonTokens && matchWord inp s.pos wPyFalse then
        some (.bool false, (s.withPos (s.pos + 5)).push opts "Python False → false")
      else if opts.convertPythonTokens && matchWord inp s.pos wPyNone then
        some (.null, (s.withPos (s.pos + 4)).push opts "Python None → null")
      else if opts.convertUndefined && matchWord inp s.pos wUndefined then
        some (.null, (s.withPos (s.pos + 9)).push opts "undefined → null")
      else if matchWord inp s.pos wNaN then
        some (.null, (s.withPos (s.pos + 3)).push opts "NaN → null")
      else if matchWord inp s.pos wInfinity then
        some (.null, (s.withPos (s.pos + 8)).push opts "Infinity → null")
      else if c = rbrace || c = ']' then some (.absent, s)
      else if c = ',' || c = ':' then
        let s1 := s.push opts (strayMsg c s.pos)
        if s1.fatal then some (.null, s1) else
        let s2 := (s1.withPos (s1.pos + 1)).withDepth (s1.depth + 1)
        if 10 < s2.depth then some (.null, s2.withDepth 0)
        else
          match step inp opts fuel (.value s2) with
          | none => none
          | some (r, s3) => some (r, s3.withDepth 0)
      else
        let s1 := s.push opts (unexpectedCharMsg c s.pos)
        if s1.fatal then some (.null, s1) else
        let s2 := (s1.withPos (s1.pos + 1)).withDepth (s1.depth + 1)
        if 10 < s2.depth then some (.null, s2.withDepth 0)
        else
          match step inp opts fuel (.value s2) with
          | none => none
          | some (r, s3) => some (r, s3.withDepth 0)
  | fuel+1, .object s =>
    if s.fatal then some (.null, s) else
    let s := s.withNest (s.nestDepth + 1)
    if opts.maxDepth < s.nestDepth then
      let s1 := s.push opts ("Max depth " ++ Nat.repr opts.maxDepth ++ " exceeded")
      if s1.fatal then some (.null, s1) else
      let s2 := s1.withNest (s1.nestDepth - 1)
      some (.null, s2.withPos (skipBalanced inp lbrace rbrace (inp.length + 1) 1 (s2.pos + 1)))
    else
      let s := s.withPos (s.pos + 1)
      let s := s.withPos (skipWSPos inp opts s.pos)
      match step inp opts fuel (.objLoop [] s) with
      | none => none
      | some (v, s1) =>
        if s1.fatal then some (v, s1) else
        match v with
        | .obj fields =>
          let s2 := s1.withNest (s1.nestDepth - 1)
          if chAt inp s2.pos = some rbrace then some (.obj fields, s2.withPos (s2.pos + 1))
          else some (.obj fields, s2.push opts
            ("Unclosed object, auto-closing at pos " ++ Nat.repr s2.pos))
        | _ => none
  | fuel+1, .array s =>
    if s.fatal then some (.null, s) else
    let s := s.withNest (s.nestDepth + 1)
    if opts.maxDepth < s.nestDepth then
      let s1 := s.push opts ("Max depth " ++ Nat.repr opts.maxDepth ++ " exceeded")
      if s1.fatal then some (.null, s1) else
      let s2 := s1.withNest (s1.nestDepth - 1)
      some (.null, s2.withPos (skipBalanced inp '[' ']' (inp.length + 1) 1 (s2.pos + 1)))
    else
      let s := s.withPos (s.pos + 1)
      let s := s.withPos (skipWSPos inp opts s.pos)
      match step inp opts fuel (.arrLoop [] s) with
      | none => none
      | some (v, s1) =>
        if s1.fatal then some (v, s1) else
        match v with
        | .arr elems =>
          let s2 := s1.withNest (s1.nestDepth - 1)
          if chAt inp s2.pos = some ']' then some (.arr elems, s2.withPos (s2.pos + 1))
          else some (.arr elems, s2.push opts
            ("Unclosed array, auto-closing at pos " ++ Nat.repr s2.pos))
        | _ => none
  | fuel+1, .objLoop fields s =>
    if s.fatal then some (.obj fields, s) else
    match chAt inp s.pos with
    | none => some (.obj fields, s)
    | some c0 =>
      if c0 = rbrace then some (.obj fields, s) else
      let s := s.withPos (skipWSPos inp opts s.pos)
      match chAt inp s.pos with
      | none => some (.obj fields, s)
      | some c =>
        if c = ',' then
          step inp opts fuel (.objLoop fields (s.withPos (skipWSPos inp opts (s.pos + 1))))
        else if c = rbrace then some (.obj fields, s)
        else if c = ']' then
          let s1 := s.push opts
            ("Unexpected ']' inside object at pos " ++ Nat.repr s.pos ++ ", skipping")
          if s1.fatal then some (.obj fields, s1)
          else step inp opts fuel (.objLoop fields (s1.withPos (s1.pos + 1)))
        else if c = '"' || c = '\'' then
          let r := parseString inp opts s
          if r.2.fatal then some (.obj fields, r.2)
          else step inp opts fuel (.objMember fields r.1 r.2)
        else if isIdentStart c then
          let r := parseUnquotedIdentifier inp s
          let s1 := r.2.push opts
            ("Unquoted key \"" ++ String.mk r.1 ++ "\" at pos " ++ Nat.repr r.2.pos)
          if s1.fatal then some (.obj fields, s1)
          else step inp opts fuel (.objMember fields r.1 s1)
        else
          let s1 := s.push opts
            ("Expected key, got '" ++ String.mk [c] ++ "' at pos " ++ Nat.repr s.pos ++ ", skipping")
          if s1.fatal then some (.obj fields, s1)
          else step inp opts fuel (.objLoop fields (s1.withPos (s1.pos + 1)))
  | fuel+1, .objMember fields key s =>
    if s.fatal then some (.obj fields, s) else
    let s := s.withPos (skipWSPos inp opts s.pos)
    let t :=
      if key.head? = some ',' then
        (((key.dropWhile fun c => c = ',').dropWhile isJsWs),
         s.push opts ("Leading comma in key \"" ++ String.mk key ++ "\" at pos " ++ Nat.repr s.pos))
      else (key, s)
    let key := t.1
    let s := t.2
    if s.fatal then some (.obj fields, s) else
    if chAt inp s.pos = some ':' then
      step inp opts fuel (.objValue fields key (s.withPos (s.pos + 1)))
    else
      let s1 := s.push opts
        ("Expected ':' after key \"" ++ String.mk key ++ "\" at pos " ++ Nat.repr s.pos)
      if s1.fatal then some (.obj fields, s1) else
      if chAt inp s1.pos = some ',' || chAt inp s1.pos = some rbrace || isEof inp s1.pos then
        step inp opts fuel (.objLoop (setKeyJs fields key .null) s1)
      else
        step inp opts fuel (.objValue fields key s1)
  | fuel+1, .objValue fields key s =>
    if s.fatal then some (.obj fields, s) else
    let s := s.withPos (skipWSPos inp opts s.pos)
    if isEof inp s.pos then
      let s1 := s.push opts
        ("Truncated value for key \"" ++ String.mk key ++ "\" at pos " ++ Nat.repr s.pos)
      if s1.fatal then some (.obj fields, s1)
      else some (.obj (setKeyJs fields key .null), s1)
    else
      match step inp opts fuel (.value s) with
      | none => none
      | some (v, s1) =>
        if s1.fatal then some (.obj fields, s1) else
        let fields' := setKeyJs fields key (if v.isAbsent then .null else v)
        let s2 := s1.withPos (skipWSPos inp opts s1.pos)
        if chAt inp s2.pos = some ',' then
          step inp opts fuel (.objLoop fields' (s2.withPos (s2.pos + 1)))
        else if chAt inp s2.pos = some rbrace then
          step inp opts fuel (.objLoop fields' s2)
        else if isEof inp s2.pos then some (.obj fields', s2)
        else
          let s3 := s2.push opts
            ("Expected ',' or '\x7d' at pos " ++ Nat.repr s2.pos ++ ", continuing")
          if s3.fatal then some (.obj fields', s3)
          else step inp opts fuel (.objLoop fields' s3)
  | fuel+1, .arrLoop elems s =>
    if s.fatal then some (.arr elems, s) else
    match chAt inp s.pos with
    | none => some (.arr elems, s)
    | some c0 =>
      if c0 = ']' then some (.arr elems, s) else
      let s := s.withPos (skipWSPos inp opts s.pos)
      match chAt inp s.pos with
      | none => some (.arr elems, s)
      | some c =>
        if c = ',' then
          step inp opts fuel (.arrLoop elems (s.withPos (skipWSPos inp opts (s.pos + 1))))
        else if c = ']' then some (.arr elems, s)
        else if c = rbrace then
          let s1 := s.push opts
            ("Unexpected '\x7d' inside array at pos " ++ Nat.repr s.pos ++ ", skipping")
          if s1.fatal then some (.arr elems, s1)
          else step inp opts fuel (.arrLoop elems (s1.withPos (s1.pos + 1)))
        else if looksLikeKeyValueAhead inp s.pos then
          some (.arr elems, s.push opts
            ("Detected object key inside array at pos " ++ Nat.repr s.pos ++ ", closing array"))
        else
          match step inp opts fuel (.value s) with
          | none => none
          | some (v, s1) =>
            if s1.fatal then some (.arr elems, s1) else
            let elems' := if v.isAbsent then elems else elems ++ [v]
            let s2 := s1.withPos (skipWSPos inp opts s1.pos)
            if chAt inp s2.pos = some ',' then
              step inp opts fuel (.arrLoop elems' (s2.withPos (s2.pos + 1)))
            else if chAt inp s2.pos = some ']' then
              step inp opts fuel (.arrLoop elems' s2)
            else if isEof inp s2.pos then some (.arr elems', s2)
            else
              let s3 := s2.push opts
                ("Expected ',' or ']' at pos " ++ Nat.repr s2.pos ++ ", continuing")
              if s3.fatal then some (.arr elems', s3)
              else step inp opts fuel (.arrLoop elems' s3)

/-- The canonical fuel of a run: ample for the bound proved in the
termination theorem. -/
def canonFuel (inp : List Char) : Nat := 8 * (inp.length + 2)

/-- `FaultTolerantParser.parse()`: BOM handling, leading whitespace, empty
normalisation, then one dispatched value.  Returns the value and the final
parser state (from which `ok` and `errors` are read off). -/
def parseF (inp : List Char) (opts : Options) : Option (Value × St) :=
  let p0 : Nat := if chAt inp 0 = some (Char.ofNat 0xfeff) then 1 else 0
  let s0 : St := ⟨p0, [], 0, 0, false⟩
  let s1 := s0.withPos (skipWSPos inp opts s0.pos)
  if isEof inp s1.pos then some (.null, s1)
  else step inp opts (canonFuel inp) (.value s1)

/-- The outcome format of `parseSmart`. -/
structure Outcome where
  ok : Bool
  results : List Value
  errorCount : Nat
  errors : List String
  multiple : Bool
deriving Repr

/-- ``​`[pos ${e.pos}] ${e.message}`​``. -/
def fmtDiag (d : Diag) : String := "[pos " ++ Nat.repr d.1 ++ "] " ++ d.2

/-- `parseSmart` on a character list: empty/whitespace-only short-circuit,
the `try` branch building the outcome from the run, and the strict-mode
`catch` branch reporting the thrown (most recently pushed) diagnostic. -/
def parseSmartL (inp : List Char) (opts : Options) : Option Outcome :=
  if inp.isEmpty || inp.all isJsWs then some ⟨true, [], 0, [], false⟩
  else
    match parseF inp opts with
    | none => none
    | some (v, s) =>
      if s.fatal then some ⟨false, [], 1, [fmtDiag (s.errors.getLastD (0, ""))], false⟩
      else
        some ⟨s.errors.isEmpty,
              if v.isNull || v.isAbsent then [] else [v],
              s.errors.length, s.errors.map fmtDiag, false⟩

/-- `parseSmart` on a string. -/
def parseSmart (input : String) (opts : Options) : Option Outcome :=
  parseSmartL input.data opts

/-!
## Observable key order of a JS object

The parser stores members with `obj[key] = value` on a plain JS object, so
the key order that callers observe (`Object.keys`, `JSON.stringify`) is the
one prescribed by ECMAScript `OrdinaryOwnPropertyKeys`: keys that are array
indices first, in ascending numeric order, then the remaining string keys
in creation order.  The functions below compute that order from the
creation-ordered field list the model carries.
-/

/-- Numeric value of a digit string. -/
def natOfDigits (l : List Char) : Nat :=
  l.foldl (fun a c => 10 * a + (c.toNat - '0'.toNat)) 0

/-- Whether a key is an ECMAScript *array index*: the canonical decimal
numeral of an integer `n` with `0 ≤ n < 2^32 - 1`. -/
def isArrayIndexKey (k : List Char) : Bool :=
  !k.isEmpty && k.all isDigit && (k = ['0'] || k.head? ≠ some '0') &&
  natOfDigits k < 4294967295

/-- Insert into a list of index keys, keeping ascending numeric order. -/
def insertIndexKey (k : List Char) : List (List Char) → List (List Char)
  | [] => [k]
  | k' :: t =>
    if natOfDigits k ≤ natOfDigits k' then k :: k' :: t else k' :: insertIndexKey k t

/-- The enumeration order of a JS object's own keys, given the
creation-ordered field list: array indices ascending, then the others in
creation order. -/
def jsKeyOrder (fields : List (List Char × Value)) : List (List Char) :=
  ((fields.map Prod.fst).filter isArrayIndexKey).foldr insertIndexKey [] ++
  (fields.map Prod.fst).filter fun k => !isArrayIndexKey k

/-!
## A reference strict JSON decoder

Modelled from the spec: the spec's *strict JSON fidelity* property compares
`parse_smart` against "a reference strict JSON decode" without fixing an
implementation, so the decoder below is written directly from the JSON
grammar (RFC 8259).  Besides the value and the end position it reports two
instrumentation facts about the decoded *span* that the fidelity theorem
needs: the maximum container-nesting depth, and whether every object key in
the span (including members later overwritten by a duplicate key) is
"plain" — does not begin with a comma (such keys are rewritten by the
parser's key sanitation) and is not `__proto__` (which a JS assignment
`obj[key] = v` treats specially).  Numbers are decoded to their lexemes and
`\u` escapes through `Char.ofNat`, exactly as in the parser model, so that
values are compared in one representation.
-/

/-- Strict JSON whitespace. -/
def isJsonWs (c : Char) : Bool := c = ' ' || c = '\t' || c = '\n' || c = '\r'

/-- Scan past strict JSON whitespace (fuel convention as above). -/
def jsonWsEnd (inp : List Char) : Nat → Nat → Nat
  | 0, p => p
  | fuel+1, p =>
    match chAt inp p with
    | none => p
    | some c => if isJsonWs c then jsonWsEnd inp fuel (p+1) else p

/-- Strict-whitespace skip with canonical fuel. -/
def jWs (inp : List Char) (p : Nat) : Nat := jsonWsEnd inp inp.length p

/-- A key acceptable to the fidelity theorem (see the section comment). -/
def goodKey (k : List Char) : Bool :=
  k.head? ≠ some ',' && k ≠ "__proto__".data

/-- The simple escape cases of strict JSON (no `'`, unlike `escChar`). -/
def jsonEscChar (e : Char) : Option Char :=
  if e = '"' then some '"'
  else if e = '\\' then some '\\'
  else if e = '/' then some '/'
  else if e = 'b' then some '\x08'
  else if e = 'f' then some '\x0c'
  else if e = 'n' then some '\n'
  else if e = 'r' then some '\r'
  else if e = 't' then some '\t'
  else none

/-- Strict JSON string body, from just past the opening quote. -/
def jdString (inp : List Char) : Nat → Nat → List Char → Option (List Char × Nat)
  | 0, _, _ => none
  | fuel+1, p, acc =>
    match chAt inp p with
    | none => none
    | some c =>
      if c = '"' then some (acc, p+1)
      else if c = '\\' then
        match chAt inp (p+1) with
        | none => none
        | some e =>
          match jsonEscChar e with
          | some ec => jdString inp fuel (p+2) (acc ++ [ec])
          | none =>
          if e = 'u' then
            match chAt inp (p+2), chAt inp (p+3), chAt inp (p+4), chAt inp (p+5) with
            | some h1, some h2, some h3, some h4 =>
              if isHexDigit h1 && isHexDigit h2 && isHexDigit h3 && isHexDigit h4 then
                jdString inp fuel (p+6) (acc ++ [Char.ofNat (hexVal [h1, h2, h3, h4])])
              else none
            | _, _, _, _ => none
          else none
      else if c.toNat < 0x20 then none
      else jdString inp fuel (p+1) (acc ++ [c])

/-- Strict JSON number token starting at `p`; returns the lexeme and the
position one past it. -/
def jdNumber (inp : List Char) (p : Nat) : Option (List Char × Nat) :=
  let p1 := if chAt inp p = some '-' then p + 1 else p
  match chAt inp p1 with
  | none => none
  | some c =>
    if ¬ (isDigit c = true) then none
    else
      let p2 := if c = '0' then p1 + 1 else digitsEnd inp inp.length p1
      let p3 :=
        if chAt inp p2 = some '.' then
          match chAt inp (p2+1) with
          | some d => if isDigit d then some (digitsEnd inp inp.length (p2+1)) else none
          | none => none
        else some p2
      match p3 with
      | none => none
      | some p3 =>
        let p4 :=
          if chAt inp p3 = some 'e' || chAt inp p3 = some 'E' then
            let q := if chAt inp (p3+1) = some '+' || chAt inp (p3+1) = some '-'
              then p3 + 2 else p3 + 1
            match chAt inp q with
            | some d => if isDigit d then some (digitsEnd inp inp.length q) else none
            | none => none
          else some p3
        match p4 with
        | none => none
        | some p4 => some ((inp.drop p).take (p4 - p), p4)

/-- The decoder's result: value, end position, maximum container-nesting
depth of the span, and whether every object key in the span is `goodKey`. -/
structure JRes where
  v : Value
  pos : Nat
  depth : Nat
  keysOk : Bool
deriving Repr

/-- Requests of the decoder: a value at `p` (first value character), or the
members/elements of a partially decoded container, at the first character
of the next key/element. -/
inductive JReq where
  | jvalue (p : Nat)
  | jmembers (fields : List (List Char × Value)) (d : Nat) (ok : Bool) (p : Nat)
  | jelems (elems : List Value) (d : Nat) (ok : Bool) (p : Nat)

/-- The strict decoder proper. -/
def jstep (inp : List Char) : Nat → JReq → Option JRes
  | 0, _ => none
  | fuel+1, .jvalue p =>
    match chAt inp p with
    | none => none
    | some c =>
      if c = lbrace then
        let p1 := jWs inp (p+1)
        if chAt inp p1 = some rbrace then some ⟨.obj [], p1 + 1, 1, true⟩
        else jstep inp fuel (.jmembers [] 0 true p1)
      else if c = '[' then
        let p1 := jWs inp (p+1)
        if chAt inp p1 = some ']' then some ⟨.arr [], p1 + 1, 1, true⟩
        else jstep inp fuel (.jelems [] 0 true p1)
      else if c = '"' then
        match jdString inp (inp.length + 1) (p+1) [] with
        | none => none
        | some (str, p') => some ⟨.str str, p', 0, true⟩
      else if c = '-' || isDigit c then
        match jdNumber inp p with
        | none => none
        | some (lex, p') => some ⟨.num lex, p', 0, true⟩
      else if matchWord inp p wTrue then some ⟨.bool true, p + 4, 0, true⟩
      else if matchWord inp p wFalse then some ⟨.bool false, p + 5, 0, true⟩
      else if matchWord inp p wNull then some ⟨.null, p + 4, 0, true⟩
      else none
  | fuel+1, .jmembers fields d ok p =>
    if chAt inp p = some '"' then
      match jdString inp (inp.length + 1) (p+1) [] with
      | none => none
      | some (k, p1) =>
        let p2 := jWs inp p1
        if chAt inp p2 = some ':' then
          match jstep inp fuel (.jvalue (jWs inp (p2+1))) with
          | none => none
          | some r =>
            let fields' := setKey fields k r.v
            let d' := max d r.depth
            let ok' := ok && goodKey k && r.keysOk
            let p4 := jWs inp r.pos
            if chAt inp p4 = some ',' then
              jstep inp fuel (.jmembers fields' d' ok' (jWs inp (p4+1)))
            else if chAt inp p4 = some rbrace then
              some ⟨.obj fields', p4 + 1, d' + 1, ok'⟩
            else none
        else none
    else none
  | fuel+1, .jelems elems d ok p =>
    match jstep inp fuel (.jvalue p) with
    | none => none
    | some r =>
      let elems' := elems ++ [r.v]
      let d' := max d r.depth
      let ok' := ok && r.keysOk
      let p4 := jWs inp r.pos
      if chAt inp p4 = some ',' then
        jstep inp fuel (.jelems elems' d' ok' (jWs inp (p4+1)))
      else if chAt inp p4 = some ']' then
        some ⟨.arr elems', p4 + 1, d' + 1, ok'⟩
      else none

/-- Decode a whole input as strict JSON: optional leading and trailing
whitespace around exactly one value.  `none` when the input is not
syntactically valid JSON. -/
def jsonDecode (inp : List Char) : Option JRes :=
  match jstep inp (4 * (inp.length + 2)) (.jvalue (jWs inp 0)) with
  | none => none
  | some r => if inp.length ≤ jWs inp r.pos then some r else none

/-- `Absent` does not occur anywhere in a value (including at the root). -/
inductive NoAbsent : Value → Prop where
  | null : NoAbsent .null
  | bool (b : Bool) : NoAbsent (.bool b)
  | num (l : List Char) : NoAbsent (.num l)
  | str (l : List Char) : NoAbsent (.str l)
  | arr {es : List Value} : (∀ v ∈ es, NoAbsent v) → NoAbsent (.arr es)
  | obj {fs : List (List Char × Value)} : (∀ kv ∈ fs, NoAbsent kv.2) → NoAbsent (.obj fs)

/-- Every object node of a value has pairwise distinct keys. -/
inductive NodupKeys : Value → Prop where
  | null : NodupKeys .null
  | bool (b : Bool) : NodupKeys (.bool b)
  | num (l : List Char) : NodupKeys (.num l)
  | str (l : List Char) : NodupKeys (.str l)
  | absent : NodupKeys .absent
  | arr {es : List Value} : (∀ v ∈ es, NodupKeys v) → NodupKeys (.arr es)
  | obj {fs : List (List Char × Value)} : (fs.map Prod.fst).Nodup →
      (∀ kv ∈ fs, NodupKeys kv.2) → NodupKeys (.obj fs)

/-- First-match lookup on a field list. -/
def getKey (l : List (List Char × Value)) (k : List Char) : Option Value :=
  match l with
  | [] => none
  | (k', v) :: t => if k' = k then some v else getKey t k

/-- The parser state carried by a request. -/
def Req.st : Req → St
  | .value s => s
  | .object s => s
  | .array s => s
  | .objLoop _ s => s
  | .objMember _ _ s => s
  | .objValue _ _ s => s
  | .arrLoop _ s => s

/-- The container shape a loop request's result must have. -/
def Req.shapeOk : Req → Value → Prop
  | .objLoop _ _, v => ∃ fs, v = Value.obj fs
  | .objMember _ _ _, v => ∃ fs, v = Value.obj fs
  | .objValue _ _ _, v => ∃ fs, v = Value.obj fs
  | .arrLoop _ _, v => ∃ es, v = Value.arr es
  | _, _ => True

/-- Cursor progress guaranteed by a request: container readers always
advance (they at least step past the opener, or skip a balanced span); the
dispatcher advances whenever it starts, without a pending exception, on a
whitespace-stable cursor whose character is not a container closer. -/
def Req.progress (inp : List Char) (opts : Options) : Req → Value × St → Prop
  | .object s, r => r.2.fatal = false → s.pos + 1 ≤ r.2.pos
  | .array s, r => r.2.fatal = false → s.pos + 1 ≤ r.2.pos
  | .value s, r => r.2.fatal = false → skipWSPos inp opts s.pos = s.pos →
      ∀ c, chAt inp s.pos = some c → ¬(c = rbrace) → ¬(c = ']') → s.pos + 1 ≤ r.2.pos
  | _, _ => True

/-- The rank of a request in the termination measure: along every call at
an unchanged cursor the rank strictly drops. -/
def Req.rank : Req → Nat
  | .objMember _ _ _ => 5
  | .objValue _ _ _ => 4
  | .objLoop _ _ => 3
  | .arrLoop _ _ => 3
  | .value _ => 2
  | .object _ => 1
  | .array _ => 1

/-- Fuel sufficient for a request: six units per unread character plus the
rank. -/
def Req.need (inp : List Char) (req : Req) : Nat :=
  6 * (inp.length + 1 - req.st.pos) + req.rank

/-- The combined step invariant: cursor monotone; the diagnostic log grows
by appending (in strict mode by at most one entry, exactly when the fatal
flag rises); a non-fatal return restores the container depth and can only
arise from a non-fatal start; without strict mode the fatal flag never
rises; loop results keep their container shape; and the progress
guarantees of `Req.progress`. -/
def StepInv (inp : List Char) (opts : Options) (req : Req) (r : Value × St) : Prop :=
  (req.st.pos ≤ r.2.pos) ∧
  (∃ l, r.2.errors = req.st.errors ++ l ∧
    (opts.strict = true → req.st.fatal = false →
      (r.2.fatal = true → ∃ d, l = [d]) ∧ (r.2.fatal = false → l = []))) ∧
  (r.2.fatal = false → req.st.fatal = false ∧ r.2.nestDepth = req.st.nestDepth) ∧
  (opts.strict = false → req.st.fatal = false → r.2.fatal = false) ∧
  Req.shapeOk req r.1 ∧
  Req.progress inp opts req r

/-- Requests whose fuel bound `Req.need` is honoured: the container readers
are only ever dispatched on their opening bracket, hence strictly before
EOF. -/
def Req.ok (inp : List Char) : Req → Prop
  | .object s => s.pos < inp.length
  | .array s => s.pos < inp.length
  | _ => True

/-- A value fit to hand to the caller: no Absent sentinel anywhere, and
every object node's keys pairwise distinct. -/
def goodVal (v : Value) : Prop := NoAbsent v ∧ NodupKeys v

/-- The loop accumulators carry only good values, with distinct keys. -/
def Req.accGood : Req → Prop
  | .objLoop fs _ => (fs.map Prod.fst).Nodup ∧ ∀ kv ∈ fs, goodVal kv.2
  | .objMember fs _ _ => (fs.map Prod.fst).Nodup ∧ ∀ kv ∈ fs, goodVal kv.2
  | .objValue fs _ _ => (fs.map Prod.fst).Nodup ∧ ∀ kv ∈ fs, goodVal kv.2
  | .arrLoop es _ => ∀ v ∈ es, goodVal v
  | _ => True

/-! ## New definitions for the fidelity development -/

/-- The strict-whitespace scan from `p` ends at end of input, or at a
character that neither is JS whitespace nor can open a comment; in this
situation the parser's `skipWS` stops at exactly the same position. -/
def JStop (inp : List Char) (p : Nat) : Prop :=
  inp.length ≤ jWs inp p ∨
  ∃ c, chAt inp (jWs inp p) = some c ∧ isJsWs c = false ∧ ¬ c = '/'

/-- What strict JSON guarantees about the text after a decoded token at
`p`: end of input (modulo whitespace) or a separator/closer.  In every such
situation the string reader's closing-quote lookahead accepts. -/
def FollowOk (inp : List Char) (p : Nat) : Prop :=
  inp.length ≤ jWs inp p ∨
  chAt inp (jWs inp p) = some ',' ∨ chAt inp (jWs inp p) = some ':' ∨
  chAt inp (jWs inp p) = some rbrace ∨ chAt inp (jWs inp p) = some ']'

/-! ## The simulation statements -/

def SimValue (inp : List Char) (opts : Options) (pf : Nat) : Prop :=
  ∀ (jf : Nat) (p : Nat) (r : JRes) (s : St) (rv : Value) (s1 : St),
    jstep inp jf (.jvalue p) = some r →
    r.keysOk = true →
    r.depth + s.nestDepth ≤ opts.maxDepth →
    FollowOk inp r.pos →
    s.fatal = false →
    skipWSPos inp opts s.pos = p →
    step inp opts pf (.value s) = some (rv, s1) →
    rv = r.v ∧ s1.pos = r.pos ∧ s1.errors = s.errors ∧ s1.depth = s.depth ∧
      s1.nestDepth = s.nestDepth ∧ s1.fatal = false

def SimMembers (inp : List Char) (opts : Options) (pf : Nat) : Prop :=
  ∀ (jf : Nat) (fields : List (List Char × Value)) (d : Nat) (ok : Bool) (p : Nat)
    (r : JRes) (s : St) (rv : Value) (s1 : St),
    jstep inp jf (.jmembers fields d ok p) = some r →
    r.keysOk = true →
    r.depth + s.nestDepth ≤ opts.maxDepth + 1 →
    s.fatal = false →
    skipWSPos inp opts s.pos = p →
    (∃ c0, chAt inp s.pos = some c0 ∧ ¬ c0 = rbrace) →
    step inp opts pf (.objLoop fields s) = some (rv, s1) →
    rv = r.v ∧ s1.pos + 1 = r.pos ∧ chAt inp s1.pos = some rbrace ∧
      s1.errors = s.errors ∧ s1.depth = s.depth ∧ s1.nestDepth = s.nestDepth ∧
      s1.fatal = false

def SimElems (inp : List Char) (opts : Options) (pf : Nat) : Prop :=
  ∀ (jf : Nat) (elems : List Value) (d : Nat) (ok : Bool) (p : Nat)
    (r : JRes) (s : St) (rv : Value) (s1 : St),
    jstep inp jf (.jelems elems d ok p) = some r →
    r.keysOk = true →
    r.depth + s.nestDepth ≤ opts.maxDepth + 1 →
    s.fatal = false →
    skipWSPos inp opts s.pos = p →
    (∃ c0, chAt inp s.pos = some c0 ∧ ¬ c0 = ']') →
    step inp opts pf (.arrLoop elems s) = some (rv, s1) →
    rv = r.v ∧ s1.pos + 1 = r.pos ∧ chAt inp s1.pos = some ']' ∧
      s1.errors = s.errors ∧ s1.depth = s.depth ∧ s1.nestDepth = s.nestDepth ∧
      s1.fatal = false

/-!
# Theorems

Everything from here on is proof: projection lemmas for the state helpers,
behavioural lemmas about the scanners and the step interpreter, and the
claim theorems.
-/

namespace St

@[simp] theorem withPos_pos (s : St) (p : Nat) : (s.withPos p).pos = p := rfl
@[simp] theorem withPos_errors (s : St) (p : Nat) : (s.withPos p).errors = s.errors := rfl
@[simp] theorem withPos_depth (s : St) (p : Nat) : (s.withPos p).depth = s.depth := rfl
@[simp] theorem withPos_nestDepth (s : St) (p : Nat) : (s.withPos p).nestDepth = s.nestDepth := rfl
@[simp] theorem withPos_fatal (s : St) (p : Nat) : (s.withPos p).fatal = s.fatal := rfl
@[simp] theorem withDepth_pos (s : St) (d : Nat) : (s.withDepth d).pos = s.pos := rfl
@[simp] theorem withDepth_errors (s : St) (d : Nat) : (s.withDepth d).errors = s.errors := rfl
@[simp] theorem withDepth_depth (s : St) (d : Nat) : (s.withDepth d).depth = d := rfl
@[simp] theorem withDepth_nestDepth (s : St) (d : Nat) : (s.withDepth d).nestDepth = s.nestDepth := rfl
@[simp] theorem withDepth_fatal (s : St) (d : Nat) : (s.withDepth d).fatal = s.fatal := rfl
@[simp] theorem withNest_pos (s : St) (n : Nat) : (s.withNest n).pos = s.pos := rfl
@[simp] theorem withNest_errors (s : St) (n : Nat) : (s.withNest n).errors = s.errors := rfl
@[simp] theorem withNest_depth (s : St) (n : Nat) : (s.withNest n).depth = s.depth := rfl
@[simp] theorem withNest_nestDepth (s : St) (n : Nat) : (s.withNest n).nestDepth = n := rfl
@[simp] theorem withNest_fatal (s : St) (n : Nat) : (s.withNest n).fatal = s.fatal := rfl
@[simp] theorem push_pos (o : Options) (s : St) (m : String) : (s.push o m).pos = s.pos := rfl
@[simp] theorem push_errors (o : Options) (s : St) (m : String) :
    (s.push o m).errors = s.errors ++ [(s.pos, m)] := rfl
@[simp] theorem push_depth (o : Options) (s : St) (m : String) : (s.push o m).depth = s.depth := rfl
@[simp] theorem push_nestDepth (o : Options) (s : St) (m : String) :
    (s.push o m).nestDepth = s.nestDepth := rfl
@[simp] theorem push_fatal (o : Options) (s : St) (m : String) :
    (s.push o m).fatal = (s.fatal || o.strict) := rfl

end St

@[simp] theorem isAbsent_null : Value.isAbsent .null = false := rfl
@[simp] theorem isAbsent_absent : Value.isAbsent .absent = true := rfl
@[simp] theorem isAbsent_bool (b : Bool) : Value.isAbsent (.bool b) = false := rfl
@[simp] theorem isAbsent_num (l : List Char) : Value.isAbsent (.num l) = false := rfl
@[simp] theorem isAbsent_str (l : List Char) : Value.isAbsent (.str l) = false := rfl
@[simp] theorem isAbsent_arr (es : List Value) : Value.isAbsent (.arr es) = false := rfl
@[simp] theorem isAbsent_obj (fs : List (List Char × Value)) :
    Value.isAbsent (.obj fs) = false := rfl

@[simp] theorem isNull_null : Value.isNull .null = true := rfl
@[simp] theorem isNull_absent : Value.isNull .absent = false := rfl
@[simp] theorem isNull_bool (b : Bool) : Value.isNull (.bool b) = false := rfl
@[simp] theorem isNull_num (l : List Char) : Value.isNull (.num l) = false := rfl
@[simp] theorem isNull_str (l : List Char) : Value.isNull (.str l) = false := rfl
@[simp] theorem isNull_arr (es : List Value) : Value.isNull (.arr es) = false := rfl
@[simp] theorem isNull_obj (fs : List (List Char × Value)) :
    Value.isNull (.obj fs) = false := rfl

@[simp] theorem Req.st_value (s : St) : (Req.value s).st = s := rfl
@[simp] theorem Req.st_object (s : St) : (Req.object s).st = s := rfl
@[simp] theorem Req.st_array (s : St) : (Req.array s).st = s := rfl
@[simp] theorem Req.st_objLoop (fs : List (List Char × Value)) (s : St) :
    (Req.objLoop fs s).st = s := rfl
@[simp] theorem Req.st_objMember (fs : List (List Char × Value)) (k : List Char) (s : St) :
    (Req.objMember fs k s).st = s := rfl
@[simp] theorem Req.st_objValue (fs : List (List Char × Value)) (k : List Char) (s : St) :
    (Req.objValue fs k s).st = s := rfl
@[simp] theorem Req.st_arrLoop (es : List Value) (s : St) : (Req.arrLoop es s).st = s := rfl

theorem chAt_none_of_le {inp : List Char} {p : Nat} (h : inp.length ≤ p) :
    chAt inp p = none := List.get?_eq_none.mpr h

theorem le_of_chAt_some {inp : List Char} {p : Nat} {c : Char}
    (h : chAt inp p = some c) : p < inp.length := by
  by_contra hc
  rw [chAt_none_of_le (Nat.le_of_not_lt hc)] at h
  exact Option.noConfusion h

/-! Cursor monotonicity of the scanners. -/

theorem le_lineEnd (inp : List Char) : ∀ (f p : Nat), p ≤ lineEnd inp f p := by
  intro f
  induction f with
  | zero => intro p; exact Nat.le_refl p
  | succ n ih =>
    intro p
    rw [lineEnd]
    cases chAt inp p with
    | none => exact Nat.le_refl p
    | some c =>
      dsimp only
      split
      · exact Nat.le_refl p
      · exact Nat.le_trans (Nat.le_succ p) (ih (p+1))

theorem le_blockEnd (inp : List Char) : ∀ (f p : Nat), p ≤ blockEnd inp f p := by
  intro f
  induction f with
  | zero => intro p; exact Nat.le_refl p
  | succ n ih =>
    intro p
    rw [blockEnd]
    cases chAt inp p with
    | none => exact Nat.le_refl p
    | some c =>
      dsimp only
      split
      · exact Nat.le_refl p
      · exact Nat.le_trans (Nat.le_succ p) (ih (p+1))

theorem le_digitsEnd (inp : List Char) : ∀ (f p : Nat), p ≤ digitsEnd inp f p := by
  intro f
  induction f with
  | zero => intro p; exact Nat.le_refl p
  | succ n ih =>
    intro p
    rw [digitsEnd]
    cases chAt inp p with
    | none => exact Nat.le_refl p
    | some c =>
      dsimp only
      split
      · exact Nat.le_trans (Nat.le_succ p) (ih (p+1))
      · exact Nat.le_refl p

theorem le_wsScan (inp : List Char) : ∀ (f p : Nat), p ≤ wsScan inp f p := by
  intro f
  induction f with
  | zero => intro p; exact Nat.le_refl p
  | succ n ih =>
    intro p
    rw [wsScan]
    cases chAt inp p with
    | none => exact Nat.le_refl p
    | some c =>
      dsimp only
      split
      · exact Nat.le_trans (Nat.le_succ p) (ih (p+1))
      · exact Nat.le_refl p

theorem le_identEnd (inp : List Char) : ∀ (f p : Nat), p ≤ identEnd inp f p := by
  intro f
  induction f with
  | zero => intro p; exact Nat.le_refl p
  | succ n ih =>
    intro p
    rw [identEnd]
    cases chAt inp p with
    | none => exact Nat.le_refl p
    | some c =>
      dsimp only
      split
      · exact Nat.le_trans (Nat.le_succ p) (ih (p+1))
      · exact Nat.le_refl p

theorem le_jsonWsEnd (inp : List Char) : ∀ (f p : Nat), p ≤ jsonWsEnd inp f p := by
  intro f
  induction f with
  | zero => intro p; exact Nat.le_refl p
  | succ n ih =>
    intro p
    rw [jsonWsEnd]
    cases chAt inp p with
    | none => exact Nat.le_refl p
    | some c =>
      dsimp only
      split
      · exact Nat.le_trans (Nat.le_succ p) (ih (p+1))
      · exact Nat.le_refl p

theorem le_skipWSAux (inp : List Char) (opts : Options) :
    ∀ (f p : Nat), p ≤ skipWSAux inp opts f p := by
  intro f
  induction f with
  | zero => intro p; exact Nat.le_refl p
  | succ n ih =>
    intro p
    rw [skipWSAux]
    cases chAt inp p with
    | none => exact Nat.le_refl p
    | some c =>
      dsimp only
      split
      · exact Nat.le_trans (Nat.le_succ p) (ih (p+1))
      · split
        · refine Nat.le_trans ?_ (ih (lineEnd inp inp.length (p+2)))
          exact Nat.le_trans (Nat.le_add_right p 2) (le_lineEnd inp inp.length (p+2))
        · split
          · refine Nat.le_trans ?_ (ih (blockEnd inp inp.length (p+2) + 2))
            refine Nat.le_trans (Nat.le_add_right p 2) ?_
            exact Nat.le_trans (le_blockEnd inp inp.length (p+2)) (Nat.le_add_right _ 2)
          · exact Nat.le_refl p

theorem le_skipWSPos (inp : List Char) (opts : Options) (p : Nat) :
    p ≤ skipWSPos inp opts p := le_skipWSAux inp opts inp.length p

theorem le_skipBalanced (inp : List Char) (op cl : Char) :
    ∀ (f bal p : Nat), p ≤ skipBalanced inp op cl f bal p := by
  intro f
  induction f with
  | zero => intro bal p; exact Nat.le_refl p
  | succ n ih =>
    intro bal p
    rw [skipBalanced]
    split
    · exact Nat.le_refl p
    · cases chAt inp p with
      | none => exact Nat.le_refl p
      | some c => exact Nat.le_trans (Nat.le_succ p) (ih _ (p+1))

theorem le_parseStringGo (inp : List Char) (opts : Options) (q : Char) :
    ∀ (f : Nat) (acc : List Char) (s : St), s.pos ≤ (parseStringGo inp opts q f acc s).2.pos := by
  intro f
  induction f with
  | zero => intro acc s; exact Nat.le_refl s.pos
  | succ n ih =>
    intro acc s
    rw [parseStringGo]
    cases chAt inp s.pos with
    | none => exact Nat.le_refl s.pos
    | some c =>
      dsimp only
      split
      · -- escape
        simp only [St.withPos_pos]
        cases chAt inp (s.pos + 1) with
        | none =>
          dsimp only
          split
          · simp only [St.push_pos, St.withPos_pos]
            omega
          · simp only [St.push_pos, St.withPos_pos]
            omega
        | some esc =>
          dsimp only
          cases escChar esc with
          | some ec =>
            refine Nat.le_trans ?_ (ih _ _)
            simp only [St.withPos_pos]
            omega
          | none =>
            dsimp only
            split
            · -- the u escape
              split
              · refine Nat.le_trans ?_ (ih _ _)
                simp only [St.withPos_pos]
                omega
              · split
                · simp only [St.push_pos, St.withPos_pos]
                  omega
                · refine Nat.le_trans ?_ (ih _ _)
                  simp only [St.withPos_pos, St.push_pos]
                  omega
            · -- unrecognised escape
              split
              · simp only [St.push_pos, St.withPos_pos]
                omega
              · refine Nat.le_trans ?_ (ih _ _)
                simp only [St.withPos_pos, St.push_pos]
                omega
      · split
        · -- closing sentinel
          split
          · simp
          · split
            · simp
            · refine Nat.le_trans ?_ (ih _ _)
              simp
        · split
          · -- newline
            simp
          · refine Nat.le_trans ?_ (ih _ _)
            simp

theorem le_parseString (inp : List Char) (opts : Options) (s : St) :
    s.pos ≤ (parseString inp opts s).2.pos := by
  rw [parseString]
  refine Nat.le_trans (Nat.le_succ s.pos) ?_
  have h := le_parseStringGo inp opts ((chAt inp s.pos).getD '"') (inp.length + 1) []
    (s.withPos (s.pos + 1))
  simpa using h

theorem le_numEnd (inp : List Char) (start : Nat) : start ≤ numEnd inp start := by
  rw [numEnd]
  dsimp only
  have h1 : start ≤ (if chAt inp start = some '-' then start + 1 else start) := by
    split <;> omega
  refine Nat.le_trans h1 ?_
  generalize (if chAt inp start = some '-' then start + 1 else start) = p1
  have h2 : p1 ≤ (if chAt inp p1 = some '0' then p1 + 1 else digitsEnd inp inp.length p1) := by
    split
    · omega
    · exact le_digitsEnd inp inp.length p1
  refine Nat.le_trans h2 ?_
  generalize (if chAt inp p1 = some '0' then p1 + 1 else digitsEnd inp inp.length p1) = p2
  have h3 : p2 ≤ (if chAt inp p2 = some '.' then digitsEnd inp inp.length (p2+1) else p2) := by
    split
    · exact Nat.le_trans (Nat.le_succ p2) (le_digitsEnd inp inp.length (p2+1))
    · exact Nat.le_refl p2
  refine Nat.le_trans h3 ?_
  generalize (if chAt inp p2 = some '.' then digitsEnd inp inp.length (p2+1) else p2) = p3
  split
  · refine Nat.le_trans ?_ (le_digitsEnd inp inp.length _)
    split <;> omega
  · exact Nat.le_refl p3

theorem parseNumber_pos (inp : List Char) (opts : Options) (s : St) :
    (parseNumber inp opts s).2.pos = numEnd inp s.pos := by
  rw [parseNumber]
  split <;> simp

theorem le_parseNumber (inp : List Char) (opts : Options) (s : St) :
    s.pos ≤ (parseNumber inp opts s).2.pos := by
  rw [parseNumber_pos]
  exact le_numEnd inp s.pos

theorem identEnd_advance (inp : List Char) {f p : Nat} {c : Char}
    (hb : inp.length - p ≤ f) (hc : chAt inp p = some c) (hw : isWordChar c = true) :
    p + 1 ≤ identEnd inp f p := by
  cases f with
  | zero =>
    have := le_of_chAt_some hc
    omega
  | succ n =>
    rw [identEnd, hc]
    dsimp only
    rw [if_pos hw]
    exact le_identEnd inp n (p+1)

/-- Evolution facts for a result state that is a single `push` over a state
agreeing with `s` on log, flag and counters. -/
theorem evolveParts_of_push (opts : Options) (s base : St) (m : String)
    (he : base.errors = s.errors) (hf : base.fatal = s.fatal)
    (hd : base.depth = s.depth) (hn : base.nestDepth = s.nestDepth) :
    (∃ l, (base.push opts m).errors = s.errors ++ l ∧
      (opts.strict = true → s.fatal = false →
        ((base.push opts m).fatal = true → ∃ d, l = [d]) ∧
        ((base.push opts m).fatal = false → l = []))) ∧
    ((base.push opts m).fatal = false → s.fatal = false) ∧
    (opts.strict = false → s.fatal = false → (base.push opts m).fatal = false) ∧
    (base.push opts m).depth = s.depth ∧
    (base.push opts m).nestDepth = s.nestDepth := by
  refine ⟨⟨[(base.pos, m)], by simp [he], ?_⟩, by intro h; simp [hf] at h; exact h.1,
    by intro hs hff; simp [hf, hs, hff], by simp [hd], by simp [hn]⟩
  intro hs hff
  exact ⟨fun _ => ⟨_, rfl⟩, fun h => by simp [hf, hs, hff] at h⟩

/-- Evolution facts for a result state agreeing with `s` on log, flag and
counters. -/
theorem evolveParts_of_same (opts : Options) (s base : St)
    (he : base.errors = s.errors) (hf : base.fatal = s.fatal)
    (hd : base.depth = s.depth) (hn : base.nestDepth = s.nestDepth) :
    (∃ l, base.errors = s.errors ++ l ∧
      (opts.strict = true → s.fatal = false →
        (base.fatal = true → ∃ d, l = [d]) ∧ (base.fatal = false → l = []))) ∧
    (base.fatal = false → s.fatal = false) ∧
    (opts.strict = false → s.fatal = false → base.fatal = false) ∧
    base.depth = s.depth ∧ base.nestDepth = s.nestDepth := by
  refine ⟨⟨[], by simp [he], ?_⟩, by simp [hf], by intro _ hff; simp [hf, hff], hd, hn⟩
  intro hs hff
  exact ⟨fun h => by rw [hf, hff] at h; exact absurd h (by simp), fun _ => rfl⟩

/-- Evolution facts for a non-strict branch that pushed one diagnostic and
then continued: glue the recursive call's facts over the pushed state. -/
theorem evolveParts_step (opts : Options) (s s4 resSt : St) (d0 : Diag) (l : List Diag)
    (ihl : resSt.errors = s4.errors ++ l)
    (ihnof : opts.strict = false → s4.fatal = false → resSt.fatal = false)
    (ihd : resSt.depth = s4.depth) (ihn : resSt.nestDepth = s4.nestDepth)
    (hs0 : opts.strict = false) (hf0 : s.fatal = false)
    (h4e : s4.errors = s.errors ++ [d0]) (h4f : s4.fatal = false)
    (h4d : s4.depth = s.depth) (h4n : s4.nestDepth = s.nestDepth) :
    (∃ lx, resSt.errors = s.errors ++ lx ∧
      (opts.strict = true → s.fatal = false →
        (resSt.fatal = true → ∃ d, lx = [d]) ∧ (resSt.fatal = false → lx = []))) ∧
    (resSt.fatal = false → s.fatal = false) ∧
    (opts.strict = false → s.fatal = false → resSt.fatal = false) ∧
    resSt.depth = s.depth ∧ resSt.nestDepth = s.nestDepth := by
  refine ⟨⟨d0 :: l, by simp [ihl, h4e], ?_⟩, fun _ => hf0, fun _ _ => ihnof hs0 h4f,
    by rw [ihd, h4d], by rw [ihn, h4n]⟩
  intro hs
  rw [hs] at hs0
  exact absurd hs0 (by simp)

/-- Log, flags and counters across the string-reader loop: the log grows by
appending (at most one entry in strict mode, exactly when the fatal flag
rises); the fatal flag is monotone and never rises without strict mode; the
retry and container counters are untouched. -/
theorem parseStringGo_evolve (inp : List Char) (opts : Options) (q : Char) :
    ∀ (f : Nat) (acc : List Char) (s : St),
    (∃ l, (parseStringGo inp opts q f acc s).2.errors = s.errors ++ l ∧
      (opts.strict = true → s.fatal = false →
        ((parseStringGo inp opts q f acc s).2.fatal = true → ∃ d, l = [d]) ∧
        ((parseStringGo inp opts q f acc s).2.fatal = false → l = []))) ∧
    ((parseStringGo inp opts q f acc s).2.fatal = false → s.fatal = false) ∧
    (opts.strict = false → s.fatal = false →
      (parseStringGo inp opts q f acc s).2.fatal = false) ∧
    (parseStringGo inp opts q f acc s).2.depth = s.depth ∧
    (parseStringGo inp opts q f acc s).2.nestDepth = s.nestDepth := by
  intro f
  induction f with
  | zero =>
    intro acc s
    rw [parseStringGo]
    exact evolveParts_of_push opts s s _ rfl rfl rfl rfl
  | succ n ih =>
    intro acc s
    rw [parseStringGo]
    cases hc : chAt inp s.pos with
    | none => exact evolveParts_of_push opts s s _ rfl rfl rfl rfl
    | some c =>
      dsimp only
      split
      · -- escape
        simp only [St.withPos_pos]
        cases he : chAt inp (s.pos + 1) with
        | none =>
          dsimp only
          split
          · exact evolveParts_of_push opts s _ _ (by simp) (by simp) (by simp) (by simp)
          · rename_i hfat
            simp only [St.push_fatal, St.withPos_fatal, Bool.or_eq_true, not_or,
              Bool.not_eq_true] at hfat
            obtain ⟨hf0, hs0⟩ := hfat
            exact evolveParts_step opts s
              ((s.withPos (s.pos + 1)).push opts "Truncated escape at end of input")
              (((s.withPos (s.pos + 1)).push opts "Truncated escape at end of input").push
                opts ("Unterminated string at pos " ++ Nat.repr
                  ((s.withPos (s.pos + 1)).push opts
                    "Truncated escape at end of input").pos))
              (s.pos + 1, "Truncated escape at end of input")
              [(((s.withPos (s.pos + 1)).push opts "Truncated escape at end of input").pos,
                "Unterminated string at pos " ++ Nat.repr
                  ((s.withPos (s.pos + 1)).push opts "Truncated escape at end of input").pos)]
              (by simp) (by intro h1 h2; simp [h1, hf0]) (by simp) (by simp) hs0 hf0
              (by simp) (by simp [hf0, hs0]) (by simp) (by simp)
        | some esc =>
          dsimp only
          cases escChar esc with
          | some ec => exact ih _ _
          | none =>
            dsimp only
            split
            · -- the u escape
              split
              · exact ih _ _
              · split
                · exact evolveParts_of_push opts s _ _ (by simp) (by simp) (by simp) (by simp)
                · -- non-strict: push then continue
                  rename_i hfat
                  simp only [St.push_fatal, St.withPos_fatal, Bool.or_eq_true, not_or,
                    Bool.not_eq_true] at hfat
                  obtain ⟨hf0, hs0⟩ := hfat
                  obtain ⟨⟨l, hl, hstrict⟩, hmono, hnof, hd, hn⟩ := ih
                    (acc ++ '\\' :: 'u' :: hexScan inp 4 (s.pos + 1 + 1))
                    ((((s.withPos (s.pos+1)).withPos (s.pos+1+1)).withPos
                      (s.pos + 1 + 1 + (hexScan inp 4 (s.pos + 1 + 1)).length)).push opts
                      ("Invalid \\u" ++ String.mk (hexScan inp 4 (s.pos + 1 + 1)) ++ " at pos " ++
                        Nat.repr (s.pos + 1 + 1 + (hexScan inp 4 (s.pos + 1 + 1)).length)))
                  exact evolveParts_step opts s _ _ _ l hl hnof hd hn hs0 hf0
                    (by simp only [St.push_errors, St.withPos_errors, St.withPos_pos]; rfl)
                    (by simp [hf0, hs0]) (by simp) (by simp)
            · -- unrecognised escape letter
              split
              · exact evolveParts_of_push opts s _ _ (by simp) (by simp) (by simp) (by simp)
              · rename_i hfat
                simp only [St.push_fatal, St.withPos_fatal, Bool.or_eq_true, not_or,
                  Bool.not_eq_true] at hfat
                obtain ⟨hf0, hs0⟩ := hfat
                obtain ⟨⟨l, hl, hstrict⟩, hmono, hnof, hd, hn⟩ := ih _
                  (((s.withPos (s.pos+1)).withPos (s.pos+1+1)).push opts _)
                exact evolveParts_step opts s _ _ _ l hl hnof hd hn hs0 hf0
                  (by simp only [St.push_errors, St.withPos_errors, St.withPos_pos]; rfl)
                  (by simp [hf0, hs0]) (by simp) (by simp)
      · split
        · -- closing sentinel
          split
          · exact evolveParts_of_same opts s _ (by simp) (by simp) (by simp) (by simp)
          · split
            · exact evolveParts_of_push opts s _ _ (by simp) (by simp) (by simp) (by simp)
            · rename_i hfat
              simp only [St.push_fatal, Bool.or_eq_true, not_or, Bool.not_eq_true] at hfat
              obtain ⟨hf0, hs0⟩ := hfat
              obtain ⟨⟨l, hl, hstrict⟩, hmono, hnof, hd, hn⟩ := ih (acc ++ [c])
                ((s.push opts ("Unescaped quote in string at pos " ++ Nat.repr s.pos)).withPos
                  ((s.push opts ("Unescaped quote in string at pos " ++ Nat.repr s.pos)).pos + 1))
              exact evolveParts_step opts s _ _ _ l hl hnof hd hn hs0 hf0
                (by simp only [St.push_errors, St.withPos_errors, St.withPos_pos]; rfl)
                (by simp [hf0, hs0]) (by simp) (by simp)
        · split
          · -- newline
            exact evolveParts_of_push opts s _ _ (by simp) (by simp) (by simp) (by simp)
          · exact ih _ _

/-- Log and flag behaviour of `parseString`, relative to the entry state. -/
theorem parseString_evolve (inp : List Char) (opts : Options) (s : St) :
    (∃ l, (parseString inp opts s).2.errors = s.errors ++ l ∧
      (opts.strict = true → s.fatal = false →
        ((parseString inp opts s).2.fatal = true → ∃ d, l = [d]) ∧
        ((parseString inp opts s).2.fatal = false → l = []))) ∧
    ((parseString inp opts s).2.fatal = false → s.fatal = false) ∧
    (opts.strict = false → s.fatal = false → (parseString inp opts s).2.fatal = false) ∧
    (parseString inp opts s).2.depth = s.depth ∧
    (parseString inp opts s).2.nestDepth = s.nestDepth := by
  rw [parseString]
  have h := parseStringGo_evolve inp opts ((chAt inp s.pos).getD '"') (inp.length + 1) []
    (s.withPos (s.pos + 1))
  simpa using h

/-- Log and flag behaviour of `parseNumber`. -/
theorem parseNumber_evolve (inp : List Char) (opts : Options) (s : St) :
    (∃ l, (parseNumber inp opts s).2.errors = s.errors ++ l ∧
      (opts.strict = true → s.fatal = false →
        ((parseNumber inp opts s).2.fatal = true → ∃ d, l = [d]) ∧
        ((parseNumber inp opts s).2.fatal = false → l = []))) ∧
    ((parseNumber inp opts s).2.fatal = false → s.fatal = false) ∧
    (opts.strict = false → s.fatal = false → (parseNumber inp opts s).2.fatal = false) ∧
    (parseNumber inp opts s).2.depth = s.depth ∧
    (parseNumber inp opts s).2.nestDepth = s.nestDepth := by
  rw [parseNumber]
  split
  · exact evolveParts_of_push opts s _ _ (by simp) (by simp) (by simp) (by simp)
  · exact evolveParts_of_same opts s _ (by simp) (by simp) (by simp) (by simp)

theorem digitsEnd_advance (inp : List Char) {f p : Nat} {c : Char}
    (hb : inp.length - p ≤ f) (hc : chAt inp p = some c) (hd : isDigit c = true) :
    p + 1 ≤ digitsEnd inp f p := by
  cases f with
  | zero =>
    have := le_of_chAt_some hc
    omega
  | succ n =>
    rw [digitsEnd, hc]
    dsimp only
    rw [if_pos hd]
    exact le_digitsEnd inp n (p+1)

theorem numEnd_advance (inp : List Char) {p : Nat} {c : Char}
    (hc : chAt inp p = some c) (hd : c = '-' ∨ isDigit c = true) :
    p + 1 ≤ numEnd inp p := by
  have hlen := le_of_chAt_some hc
  rw [numEnd]
  dsimp only
  rcases hd with hminus | hdigit
  · subst hminus
    rw [if_pos hc]
    have h2 : p + 1 ≤ (if chAt inp (p+1) = some '0' then p + 1 + 1
        else digitsEnd inp inp.length (p+1)) := by
      split
      · omega
      · exact le_digitsEnd inp inp.length (p+1)
    refine Nat.le_trans h2 ?_
    generalize (if chAt inp (p+1) = some '0' then p + 1 + 1
      else digitsEnd inp inp.length (p+1)) = p2
    have h3 : p2 ≤ (if chAt inp p2 = some '.' then digitsEnd inp inp.length (p2+1) else p2) := by
      split
      · exact Nat.le_trans (Nat.le_succ p2) (le_digitsEnd inp inp.length (p2+1))
      · exact Nat.le_refl p2
    refine Nat.le_trans h3 ?_
    generalize (if chAt inp p2 = some '.' then digitsEnd inp inp.length (p2+1) else p2) = p3
    split
    · refine Nat.le_trans ?_ (le_digitsEnd inp inp.length _)
      split <;> omega
    · exact Nat.le_refl p3
  · have hnm : ¬ (chAt inp p = some '-') := by
      intro hcon
      rw [hcon] at hc
      injection hc with hc
      subst hc
      simp [isDigit] at hdigit
    rw [if_neg hnm]
    have h2 : p + 1 ≤ (if chAt inp p = some '0' then p + 1
        else digitsEnd inp inp.length p) := by
      split
      · omega
      · exact digitsEnd_advance inp (Nat.sub_le _ _) hc hdigit
    refine Nat.le_trans h2 ?_
    generalize (if chAt inp p = some '0' then p + 1 else digitsEnd inp inp.length p) = p2
    have h3 : p2 ≤ (if chAt inp p2 = some '.' then digitsEnd inp inp.length (p2+1) else p2) := by
      split
      · exact Nat.le_trans (Nat.le_succ p2) (le_digitsEnd inp inp.length (p2+1))
      · exact Nat.le_refl p2
    refine Nat.le_trans h3 ?_
    generalize (if chAt inp p2 = some '.' then digitsEnd inp inp.length (p2+1) else p2) = p3
    split
    · refine Nat.le_trans ?_ (le_digitsEnd inp inp.length _)
      split <;> omega
    · exact Nat.le_refl p3

/-- Entering any request with a pending strict-mode exception returns
immediately with the state unchanged. -/
theorem stepInv_fatal (inp : List Char) (opts : Options) (req : Req) (v : Value)
    (hshape : Req.shapeOk req v) (hf : req.st.fatal = true) :
    StepInv inp opts req (v, req.st) := by
  unfold StepInv
  refine ⟨Nat.le_refl _, ⟨[], by simp, ?_⟩, ?_, ?_, hshape, ?_⟩
  · intro _ hsf
    rw [hf] at hsf
    cases hsf
  · intro hrf
    rw [hf] at hrf
    cases hrf
  · intro _ hsf
    rw [hf] at hsf
    cases hsf
  · cases req <;> simp [Req.progress, Req.st] at hf ⊢ <;> simp [hf]

/-! Branch equations of the dispatcher (`parseValue`), one per source
branch, used by every induction over the interpreter. -/

theorem stepv_eq_fatal (inp : List Char) (opts : Options) (n : Nat) (s : St)
    (hf : s.fatal = true) :
    step inp opts (n+1) (.value s) = some (.null, s) := by
  rw [step, if_pos hf]

theorem stepv_eq_eof (inp : List Char) (opts : Options) (n : Nat) (s : St)
    (hf : s.fatal = false)
    (hch : chAt inp (skipWSPos inp opts s.pos) = none) :
    step inp opts (n+1) (.value s) =
      some (.null, s.withPos (skipWSPos inp opts s.pos)) := by
  rw [step, if_neg (by simp [hf])]
  dsimp only
  simp only [St.withPos_pos]
  rw [hch]

theorem stepv_eq_object (inp : List Char) (opts : Options) (n : Nat) (s : St) {c : Char}
    (hf : s.fatal = false)
    (hch : chAt inp (skipWSPos inp opts s.pos) = some c) (hc : c = lbrace) :
    step inp opts (n+1) (.value s) =
      step inp opts n (.object (s.withPos (skipWSPos inp opts s.pos))) := by
  rw [step, if_neg (by simp [hf])]
  dsimp only
  simp only [St.withPos_pos]
  rw [hch]
  dsimp only
  rw [if_pos hc]

theorem stepv_eq_array (inp : List Char) (opts : Options) (n : Nat) (s : St) {c : Char}
    (hf : s.fatal = false)
    (hch : chAt inp (skipWSPos inp opts s.pos) = some c)
    (h1 : ¬(c = lbrace)) (hc : c = '[') :
    step inp opts (n+1) (.value s) =
      step inp opts n (.array (s.withPos (skipWSPos inp opts s.pos))) := by
  rw [step, if_neg (by simp [hf])]
  dsimp only
  simp only [St.withPos_pos]
  rw [hch]
  dsimp only
  rw [if_neg h1, if_pos hc]

theorem stepv_eq_string (inp : List Char) (opts : Options) (n : Nat) (s : St) {c : Char}
    (hf : s.fatal = false)
    (hch : chAt inp (skipWSPos inp opts s.pos) = some c)
    (h1 : ¬(c = lbrace)) (h2 : ¬(c = '[')) (hc : (c = '"' || c = '\'') = true) :
    step inp opts (n+1) (.value s) =
      some (.str (parseString inp opts (s.withPos (skipWSPos inp opts s.pos))).1,
        (parseString inp opts (s.withPos (skipWSPos inp opts s.pos))).2) := by
  rw [step, if_neg (by simp [hf])]
  dsimp only
  simp only [St.withPos_pos]
  rw [hch]
  dsimp only
  rw [if_neg h1, if_neg h2, if_pos hc]

theorem stepv_eq_number (inp : List Char) (opts : Options) (n : Nat) (s : St) {c : Char}
    (hf : s.fatal = false)
    (hch : chAt inp (skipWSPos inp opts s.pos) = some c)
    (h1 : ¬(c = lbrace)) (h2 : ¬(c = '[')) (h3 : (c = '"' || c = '\'') = false)
    (hc : (c = '-' || isDigit c) = true) :
    step inp opts (n+1) (.value s) =
      some ((parseNumber inp opts (s.withPos (skipWSPos inp opts s.pos))).1,
        (parseNumber inp opts (s.withPos (skipWSPos inp opts s.pos))).2) := by
  rw [step, if_neg (by simp [hf])]
  dsimp only
  simp only [St.withPos_pos]
  rw [hch]
  dsimp only
  rw [if_neg h1, if_neg h2, if_neg (by simp [h3]), if_pos hc]

theorem stepv_eq_true (inp : List Char) (opts : Options) (n : Nat) (s : St) {c : Char}
    (hf : s.fatal = false)
    (hch : chAt inp (skipWSPos inp opts s.pos) = some c)
    (h1 : ¬(c = lbrace)) (h2 : ¬(c = '[')) (h3 : (c = '"' || c = '\'') = false)
    (h4 : (c = '-' || isDigit c) = false)
    (hc : matchWord inp (skipWSPos inp opts s.pos) wTrue = true) :
    step inp opts (n+1) (.value s) =
      some (.bool true, s.withPos (skipWSPos inp opts s.pos + 4)) := by
  rw [step, if_neg (by simp [hf])]
  dsimp only
  simp only [St.withPos_pos]
  rw [hch]
  dsimp only
  rw [if_neg h1, if_neg h2, if_neg (by simp [h3]), if_neg (by simp [h4]), if_pos hc]
  rfl

theorem stepv_eq_false (inp : List Char) (opts : Options) (n : Nat) (s : St) {c : Char}
    (hf : s.fatal = false)
    (hch : chAt inp (skipWSPos inp opts s.pos) = some c)
    (h1 : ¬(c = lbrace)) (h2 : ¬(c = '[')) (h3 : (c = '"' || c = '\'') = false)
    (h4 : (c = '-' || isDigit c) = false)
    (h5 : matchWord inp (skipWSPos inp opts s.pos) wTrue = false)
    (hc : matchWord inp (skipWSPos inp opts s.pos) wFalse = true) :
    step inp opts (n+1) (.value s) =
      some (.bool false, s.withPos (skipWSPos inp opts s.pos + 5)) := by
  rw [step, if_neg (by simp [hf])]
  dsimp only
  simp only [St.withPos_pos]
  rw [hch]
  dsimp only
  rw [if_neg h1, if_neg h2, if_neg (by simp [h3]), if_neg (by simp [h4]),
    if_neg (by simp [h5]), if_pos hc]
  rfl

theorem stepv_eq_null (inp : List Char) (opts : Options) (n : Nat) (s : St) {c : Char}
    (hf : s.fatal = false)
    (hch : chAt inp (skipWSPos inp opts s.pos) = some c)
    (h1 : ¬(c = lbrace)) (h2 : ¬(c = '[')) (h3 : (c = '"' || c = '\'') = false)
    (h4 : (c = '-' || isDigit c) = false)
    (h5 : matchWord inp (skipWSPos inp opts s.pos) wTrue = false)
    (h6 : matchWord inp (skipWSPos inp opts s.pos) wFalse = false)
    (hc : matchWord inp (skipWSPos inp opts s.pos) wNull = true) :
    step inp opts (n+1) (.value s) =
      some (.null, s.withPos (skipWSPos inp opts s.pos + 4)) := by
  rw [step, if_neg (by simp [hf])]
  dsimp only
  simp only [St.withPos_pos]
  rw [hch]
  dsimp only
  rw [if_neg h1, if_neg h2, if_neg (by simp [h3]), if_neg (by simp [h4]),
    if_neg (by simp [h5]), if_neg (by simp [h6]), if_pos hc]
  rfl

theorem stepv_eq_pytrue (inp : List Char) (opts : Options) (n : Nat) (s : St) {c : Char}
    (hf : s.fatal = false)
    (hch : chAt inp (skipWSPos inp opts s.pos) = some c)
    (h1 : ¬(c = lbrace)) (h2 : ¬(c = '[')) (h3 : (c = '"' || c = '\'') = false)
    (h4 : (c = '-' || isDigit c) = false)
    (h5 : matchWord inp (skipWSPos inp opts s.pos) wTrue = false)
    (h6 : matchWord inp (skipWSPos inp opts s.pos) wFalse = false)
    (h7 : matchWord inp (skipWSPos inp opts s.pos) wNull = false)
    (hc : (opts.convertPythonTokens && matchWord inp (skipWSPos inp opts s.pos) wPyTrue) = true) :
    step inp opts (n+1) (.value s) =
      some (.bool true, (s.withPos (skipWSPos inp opts s.pos + 4)).push opts
        "Python True → true") := by
  rw [step, if_neg (by simp [hf])]
  dsimp only
  simp only [St.withPos_pos]
  rw [hch]
  dsimp only
  rw [if_neg h1, if_neg h2, if_neg (by simp [h3]), if_neg (by simp [h4]),
    if_neg (by simp [h5]), if_neg (by simp [h6]), if_neg (by simp [h7]), if_pos hc]
  rfl

theorem stepv_eq_pyfalse (inp : List Char) (opts : Options) (n : Nat) (s : St) {c : Char}
    (hf : s.fatal = false)
    (hch : chAt inp (skipWSPos inp opts s.pos) = some c)
    (h1 : ¬(c = lbrace)) (h2 : ¬(c = '[')) (h3 : (c = '"' || c = '\'') = false)
    (h4 : (c = '-' || isDigit c) = false)
    (h5 : matchWord inp (skipWSPos inp opts s.pos) wTrue = false)
    (h6 : matchWord inp (skipWSPos inp opts s.pos) wFalse = false)
    (h7 : matchWord inp (skipWSPos inp opts s.pos) wNull = false)
    (h8 : (opts.convertPythonTokens && matchWord inp (skipWSPos inp opts s.pos) wPyTrue) = false)
    (hc : (opts.convertPythonTokens && matchWord inp (skipWSPos inp opts s.pos) wPyFalse) = true) :
    step inp opts (n+1) (.value s) =
      some (.bool false, (s.withPos (skipWSPos inp opts s.pos + 5)).push opts
        "Python False → false") := by
  rw [step, if_neg (by simp [hf])]
  dsimp only
  simp only [St.withPos_pos]
  rw [hch]
  dsimp only
  rw [if_neg h1, if_neg h2, if_neg (by simp [h3]), if_neg (by simp [h4]),
    if_neg (by simp [h5]), if_neg (by simp [h6]), if_neg (by simp [h7]),
    if_neg (by simp [h8]), if_pos hc]
  rfl

theorem stepv_eq_pynone (inp : List Char) (opts : Options) (n : Nat) (s : St) {c : Char}
    (hf : s.fatal = false)
    (hch : chAt inp (skipWSPos inp opts s.pos) = some c)
    (h1 : ¬(c = lbrace)) (h2 : ¬(c = '[')) (h3 : (c = '"' || c = '\'') = false)
    (h4 : (c = '-' || isDigit c) = false)
    (h5 : matchWord inp (skipWSPos inp opts s.pos) wTrue = false)
    (h6 : matchWord inp (skipWSPos inp opts s.pos) wFalse = false)
    (h7 : matchWord inp (skipWSPos inp opts s.pos) wNull = false)
    (h8 : (opts.convertPythonTokens && matchWord inp (skipWSPos inp opts s.pos) wPyTrue) = false)
    (h9 : (opts.convertPythonTokens && matchWord inp (skipWSPos inp opts s.pos) wPyFalse) = false)
    (hc : (opts.convertPythonTokens && matchWord inp (skipWSPos inp opts s.pos) wPyNone) = true) :
    step inp opts (n+1) (.value s) =
      some (.null, (s.withPos (skipWSPos inp opts s.pos + 4)).push opts
        "Python None → null") := by
  rw [step, if_neg (by simp [hf])]
  dsimp only
  simp only [St.withPos_pos]
  rw [hch]
  dsimp only
  rw [if_neg h1, if_neg h2, if_neg (by simp [h3]), if_neg (by simp [h4]),
    if_neg (by simp [h5]), if_neg (by simp [h6]), if_neg (by simp [h7]),
    if_neg (by simp [h8]), if_neg (by simp [h9]), if_pos hc]
  rfl

theorem stepv_eq_undefined (inp : List Char) (opts : Options) (n : Nat) (s : St) {c : Char}
    (hf : s.fatal = false)
    (hch : chAt inp (skipWSPos inp opts s.pos) = some c)
    (h1 : ¬(c = lbrace)) (h2 : ¬(c = '[')) (h3 : (c = '"' || c = '\'') = false)
    (h4 : (c = '-' || isDigit c) = false)
    (h5 : matchWord inp (skipWSPos inp opts s.pos) wTrue = false)
    (h6 : matchWord inp (skipWSPos inp opts s.pos) wFalse = false)
    (h7 : matchWord inp (skipWSPos inp opts s.pos) wNull = false)
    (h8 : (opts.convertPythonTokens && matchWord inp (skipWSPos inp opts s.pos) wPyTrue) = false)
    (h9 : (opts.convertPythonTokens && matchWord inp (skipWSPos inp opts s.pos) wPyFalse) = false)
    (h10 : (opts.convertPythonTokens && matchWord inp (skipWSPos inp opts s.pos) wPyNone) = false)
    (hc : (opts.convertUndefined && matchWord inp (skipWSPos inp opts s.pos) wUndefined) = true) :
    step inp opts (n+1) (.value s) =
      some (.null, (s.withPos (skipWSPos inp opts s.pos + 9)).push opts
        "undefined → null") := by
  rw [step, if_neg (by simp [hf])]
  dsimp only
  simp only [St.withPos_pos]
  rw [hch]
  dsimp only
  rw [if_neg h1, if_neg h2, if_neg (by simp [h3]), if_neg (by simp [h4]),
    if_neg (by simp [h5]), if_neg (by simp [h6]), if_neg (by simp [h7]),
    if_neg (by simp [h8]), if_neg (by simp [h9]), if_neg (by simp [h10]), if_pos hc]
  rfl

theorem stepv_eq_nan (inp : List Char) (opts : Options) (n : Nat) (s : St) {c : Char}
    (hf : s.fatal = false)
    (hch : chAt inp (skipWSPos inp opts s.pos) = some c)
    (h1 : ¬(c = lbrace)) (h2 : ¬(c = '[')) (h3 : (c = '"' || c = '\'') = false)
    (h4 : (c = '-' || isDigit c) = false)
    (h5 : matchWord inp (skipWSPos inp opts s.pos) wTrue = false)
    (h6 : matchWord inp (skipWSPos inp opts s.pos) wFalse = false)
    (h7 : matchWord inp (skipWSPos inp opts s.pos) wNull = false)
    (h8 : (opts.convertPythonTokens && matchWord inp (skipWSPos inp opts s.pos) wPyTrue) = false)
    (h9 : (opts.convertPythonTokens && matchWord inp (skipWSPos inp opts s.pos) wPyFalse) = false)
    (h10 : (opts.convertPythonTokens && matchWord inp (skipWSPos inp opts s.pos) wPyNone) = false)
    (h11 : (opts.convertUndefined && matchWord inp (skipWSPos inp opts s.pos) wUndefined) = false)
    (hc : matchWord inp (skipWSPos inp opts s.pos) wNaN = true) :
    step inp opts (n+1) (.value s) =
      some (.null, (s.withPos (skipWSPos inp opts s.pos + 3)).push opts "NaN → null") := by
  rw [step, if_neg (by simp [hf])]
  dsimp only
  simp only [St.withPos_pos]
  rw [hch]
  dsimp only
  rw [if_neg h1, if_neg h2, if_neg (by simp [h3]), if_neg (by simp [h4]),
    if_neg (by simp [h5]), if_neg (by simp [h6]), if_neg (by simp [h7]),
    if_neg (by simp [h8]), if_neg (by simp [h9]), if_neg (by simp [h10]),
    if_neg (by simp [h11]), if_pos hc]
  rfl

theorem stepv_eq_infinity (inp : List Char) (opts : Options) (n : Nat) (s : St) {c : Char}
    (hf : s.fatal = false)
    (hch : chAt inp (skipWSPos inp opts s.pos) = some c)
    (h1 : ¬(c = lbrace)) (h2 : ¬(c = '[')) (h3 : (c = '"' || c = '\'') = false)
    (h4 : (c = '-' || isDigit c) = false)
    (h5 : matchWord inp (skipWSPos inp opts s.pos) wTrue = false)
    (h6 : matchWord inp (skipWSPos inp opts s.pos) wFalse = false)
    (h7 : matchWord inp (skipWSPos inp opts s.pos) wNull = false)
    (h8 : (opts.convertPythonTokens && matchWord inp (skipWSPos inp opts s.pos) wPyTrue) = false)
    (h9 : (opts.convertPythonTokens && matchWord inp (skipWSPos inp opts s.pos) wPyFalse) = false)
    (h10 : (opts.convertPythonTokens && matchWord inp (skipWSPos inp opts s.pos) wPyNone) = false)
    (h11 : (opts.convertUndefined && matchWord inp (skipWSPos inp opts s.pos) wUndefined) = false)
    (h12 : matchWord inp (skipWSPos inp opts s.pos) wNaN = false)
    (hc : matchWord inp (skipWSPos inp opts s.pos) wInfinity = true) :
    step inp opts (n+1) (.value s) =
      some (.null, (s.withPos (skipWSPos inp opts s.pos + 8)).push opts "Infinity → null") := by
  rw [step, if_neg (by simp [hf])]
  dsimp only
  simp only [St.withPos_pos]
  rw [hch]
  dsimp only
  rw [if_neg h1, if_neg h2, if_neg (by simp [h3]), if_neg (by simp [h4]),
    if_neg (by simp [h5]), if_neg (by simp [h6]), if_neg (by simp [h7]),
    if_neg (by simp [h8]), if_neg (by simp [h9]), if_neg (by simp [h10]),
    if_neg (by simp [h11]), if_neg (by simp [h12]), if_pos hc]
  rfl

theorem stepv_eq_closer (inp : List Char) (opts : Options) (n : Nat) (s : St) {c : Char}
    (hf : s.fatal = false)
    (hch : chAt inp (skipWSPos inp opts s.pos) = some c)
    (h1 : ¬(c = lbrace)) (h2 : ¬(c = '[')) (h3 : (c = '"' || c = '\'') = false)
    (h4 : (c = '-' || isDigit c) = false)
    (h5 : matchWord inp (skipWSPos inp opts s.pos) wTrue = false)
    (h6 : matchWord inp (skipWSPos inp opts s.pos) wFalse = false)
    (h7 : matchWord inp (skipWSPos inp opts s.pos) wNull = false)
    (h8 : (opts.convertPythonTokens && matchWord inp (skipWSPos inp opts s.pos) wPyTrue) = false)
    (h9 : (opts.convertPythonTokens && matchWord inp (skipWSPos inp opts s.pos) wPyFalse) = false)
    (h10 : (opts.convertPythonTokens && matchWord inp (skipWSPos inp opts s.pos) wPyNone) = false)
    (h11 : (opts.convertUndefined && matchWord inp (skipWSPos inp opts s.pos) wUndefined) = false)
    (h12 : matchWord inp (skipWSPos inp opts s.pos) wNaN = false)
    (h13 : matchWord inp (skipWSPos inp opts s.pos) wInfinity = false)
    (hc : (c = rbrace || c = ']') = true) :
    step inp opts (n+1) (.value s) =
      some (.absent, s.withPos (skipWSPos inp opts s.pos)) := by
  rw [step, if_neg (by simp [hf])]
  dsimp only
  simp only [St.withPos_pos]
  rw [hch]
  dsimp only
  rw [if_neg h1, if_neg h2, if_neg (by simp [h3]), if_neg (by simp [h4]),
    if_neg (by simp [h5]), if_neg (by simp [h6]), if_neg (by simp [h7]),
    if_neg (by simp [h8]), if_neg (by simp [h9]), if_neg (by simp [h10]),
    if_neg (by simp [h11]), if_neg (by simp [h12]), if_neg (by simp [h13]), if_pos hc]

theorem stepv_eq_stray (inp : List Char) (opts : Options) (n : Nat) (s : St) {c : Char}
    (hf : s.fatal = false)
    (hch : chAt inp (skipWSPos inp opts s.pos) = some c)
    (h1 : ¬(c = lbrace)) (h2 : ¬(c = '[')) (h3 : (c = '"' || c = '\'') = false)
    (h4 : (c = '-' || isDigit c) = false)
    (h5 : matchWord inp (skipWSPos inp opts s.pos) wTrue = false)
    (h6 : matchWord inp (skipWSPos inp opts s.pos) wFalse = false)
    (h7 : matchWord inp (skipWSPos inp opts s.pos) wNull = false)
    (h8 : (opts.convertPythonTokens && matchWord inp (skipWSPos inp opts s.pos) wPyTrue) = false)
    (h9 : (opts.convertPythonTokens && matchWord inp (skipWSPos inp opts s.pos) wPyFalse) = false)
    (h10 : (opts.convertPythonTokens && matchWord inp (skipWSPos inp opts s.pos) wPyNone) = false)
    (h11 : (opts.convertUndefined && matchWord inp (skipWSPos inp opts s.pos) wUndefined) = false)
    (h12 : matchWord inp (skipWSPos inp opts s.pos) wNaN = false)
    (h13 : matchWord inp (skipWSPos inp opts s.pos) wInfinity = false)
    (h14 : (c = rbrace || c = ']') = false)
    (hc : (c = ',' || c = ':') = true) :
    step inp opts (n+1) (.value s) =
      (if ((s.withPos (skipWSPos inp opts s.pos)).push opts
            (strayMsg c (skipWSPos inp opts s.pos))).fatal = true then
        some (.null, (s.withPos (skipWSPos inp opts s.pos)).push opts
          (strayMsg c (skipWSPos inp opts s.pos)))
      else if 10 < s.depth + 1 then
        some (.null,
          ((((s.withPos (skipWSPos inp opts s.pos)).push opts
              (strayMsg c (skipWSPos inp opts s.pos))).withPos
              (skipWSPos inp opts s.pos + 1)).withDepth (s.depth + 1)).withDepth 0)
      else
        match step inp opts n (.value ((((s.withPos (skipWSPos inp opts s.pos)).push opts
            (strayMsg c (skipWSPos inp opts s.pos))).withPos
            (skipWSPos inp opts s.pos + 1)).withDepth (s.depth + 1))) with
        | none => none
        | some (r, s3) => some (r, s3.withDepth 0)) := by
  rw [step, if_neg (by simp [hf])]
  dsimp only
  simp only [St.withPos_pos]
  rw [hch]
  dsimp only
  rw [if_neg h1, if_neg h2, if_neg (by simp [h3]), if_neg (by simp [h4]),
    if_neg (by simp [h5]), if_neg (by simp [h6]), if_neg (by simp [h7]),
    if_neg (by simp [h8]), if_neg (by simp [h9]), if_neg (by simp [h10]),
    if_neg (by simp [h11]), if_neg (by simp [h12]), if_neg (by simp [h13]),
    if_neg (by simp [h14]), if_pos hc]
  rfl

theorem stepv_eq_unknown (inp : List Char) (opts : Options) (n : Nat) (s : St) {c : Char}
    (hf : s.fatal = false)
    (hch : chAt inp (skipWSPos inp opts s.pos) = some c)
    (h1 : ¬(c = lbrace)) (h2 : ¬(c = '[')) (h3 : (c = '"' || c = '\'') = false)
    (h4 : (c = '-' || isDigit c) = false)
    (h5 : matchWord inp (skipWSPos inp opts s.pos) wTrue = false)
    (h6 : matchWord inp (skipWSPos inp opts s.pos) wFalse = false)
    (h7 : matchWord inp (skipWSPos inp opts s.pos) wNull = false)
    (h8 : (opts.convertPythonTokens && matchWord inp (skipWSPos inp opts s.pos) wPyTrue) = false)
    (h9 : (opts.convertPythonTokens && matchWord inp (skipWSPos inp opts s.pos) wPyFalse) = false)
    (h10 : (opts.convertPythonTokens && matchWord inp (skipWSPos inp opts s.pos) wPyNone) = false)
    (h11 : (opts.convertUndefined && matchWord inp (skipWSPos inp opts s.pos) wUndefined) = false)
    (h12 : matchWord inp (skipWSPos inp opts s.pos) wNaN = false)
    (h13 : matchWord inp (skipWSPos inp opts s.pos) wInfinity = false)
    (h14 : (c = rbrace || c = ']') = false)
    (h15 : (c = ',' || c = ':') = false) :
    step inp opts (n+1) (.value s) =
      (if ((s.withPos (skipWSPos inp opts s.pos)).push opts
            (unexpectedCharMsg c (skipWSPos inp opts s.pos))).fatal = true then
        some (.null, (s.withPos (skipWSPos inp opts s.pos)).push opts
          (unexpectedCharMsg c (skipWSPos inp opts s.pos)))
      else if 10 < s.depth + 1 then
        some (.null,
          ((((s.withPos (skipWSPos inp opts s.pos)).push opts
              (unexpectedCharMsg c (skipWSPos inp opts s.pos))).withPos
              (skipWSPos inp opts s.pos + 1)).withDepth (s.depth + 1)).withDepth 0)
      else
        match step inp opts n (.value ((((s.withPos (skipWSPos inp opts s.pos)).push opts
            (unexpectedCharMsg c (skipWSPos inp opts s.pos))).withPos
            (skipWSPos inp opts s.pos + 1)).withDepth (s.depth + 1))) with
        | none => none
        | some (r, s3) => some (r, s3.withDepth 0)) := by
  rw [step, if_neg (by simp [hf])]
  dsimp only
  simp only [St.withPos_pos]
  rw [hch]
  dsimp only
  rw [if_neg h1, if_neg h2, if_neg (by simp [h3]), if_neg (by simp [h4]),
    if_neg (by simp [h5]), if_neg (by simp [h6]), if_neg (by simp [h7]),
    if_neg (by simp [h8]), if_neg (by simp [h9]), if_neg (by simp [h10]),
    if_neg (by simp [h11]), if_neg (by simp [h12]), if_neg (by simp [h13]),
    if_neg (by simp [h14]), if_neg (by simp [h15])]
  rfl

/-- Assemble the step invariant for a dispatcher request from evolution
facts relative to the whitespace-skipped position `P`, when the result is
guaranteed to advance past `P` unless fatal. -/
theorem stepInv_value_of_sub (inp : List Char) (opts : Options) (s : St) (P : Nat)
    (r : Value × St) (hsP : s.pos ≤ P) (hA : P ≤ r.2.pos)
    (hB : ∃ l, r.2.errors = s.errors ++ l ∧
      (opts.strict = true → s.fatal = false →
        (r.2.fatal = true → ∃ d, l = [d]) ∧ (r.2.fatal = false → l = [])))
    (hC : r.2.fatal = false → s.fatal = false ∧ r.2.nestDepth = s.nestDepth)
    (hD : opts.strict = false → s.fatal = false → r.2.fatal = false)
    (hadv : r.2.fatal = false → P + 1 ≤ r.2.pos) :
    StepInv inp opts (.value s) r := by
  unfold StepInv
  refine ⟨Nat.le_trans hsP hA, hB, hC, hD, trivial, ?_⟩
  intro hrf _ c _ _ _
  exact Nat.le_trans (Nat.succ_le_succ hsP) (hadv hrf)

/-- The step invariant across the dispatcher's recovery path (stray
separator or unknown character): one pushed diagnostic, one skipped byte,
the retry guard, and the bounded recursive redispatch. -/
theorem stepInv_value_recover (inp : List Char) (opts : Options) (n : Nat)
    (ih : ∀ req r, step inp opts n req = some r → StepInv inp opts req r)
    (s : St) (msg : String) {r : Value × St}
    (hsP : s.pos ≤ skipWSPos inp opts s.pos)
    (h : (if ((s.withPos (skipWSPos inp opts s.pos)).push opts msg).fatal = true then
            some (Value.null, (s.withPos (skipWSPos inp opts s.pos)).push opts msg)
          else if 10 < s.depth + 1 then
            some (Value.null, ((((s.withPos (skipWSPos inp opts s.pos)).push opts msg).withPos
              (skipWSPos inp opts s.pos + 1)).withDepth (s.depth + 1)).withDepth 0)
          else
            match step inp opts n (.value ((((s.withPos (skipWSPos inp opts s.pos)).push opts
                msg).withPos (skipWSPos inp opts s.pos + 1)).withDepth (s.depth + 1))) with
            | none => none
            | some (rv, s3) => some (rv, s3.withDepth 0)) = some r) :
    StepInv inp opts (.value s) r := by
  split at h
  · -- the push raised the strict-mode exception
    rename_i hfat
    simp only [St.push_fatal, St.withPos_fatal] at hfat
    simp only [Option.some.injEq] at h
    subst h
    unfold StepInv
    simp only [Req.st_value]
    refine ⟨by simpa using hsP,
      ⟨[(skipWSPos inp opts s.pos, msg)],
        by simp only [St.push_errors, St.withPos_errors, St.withPos_pos], ?_⟩,
      ?_, ?_, trivial, ?_⟩
    · intro hs hf0
      exact ⟨fun _ => ⟨_, rfl⟩, fun hcf => by simp [hs, hf0] at hcf⟩
    · intro hrf
      simp only [St.push_fatal, St.withPos_fatal] at hrf
      rw [hrf] at hfat
      cases hfat
    · intro hs0 hf0
      simp [hs0, hf0] at hfat
    · intro hrf
      simp only [St.push_fatal, St.withPos_fatal] at hrf
      rw [hrf] at hfat
      cases hfat
  · rename_i hfat
    simp only [St.push_fatal, St.withPos_fatal, Bool.or_eq_true, not_or,
      Bool.not_eq_true] at hfat
    obtain ⟨hf0, hs0⟩ := hfat
    split at h
    · -- the retry guard trips
      simp only [Option.some.injEq] at h
      subst h
      unfold StepInv
      simp only [Req.st_value]
      refine ⟨by simp only [St.withDepth_pos, St.withPos_pos]; omega,
        ⟨[(skipWSPos inp opts s.pos, msg)],
          by simp only [St.withDepth_errors, St.withPos_errors, St.push_errors,
            St.withPos_pos], ?_⟩,
        ?_, ?_, trivial, ?_⟩
      · intro hs
        rw [hs] at hs0
        cases hs0
      · intro _
        refine ⟨hf0, by simp⟩
      · intro _ _
        simp [hf0, hs0]
      · intro _ _ c' _ _ _
        simp only [St.withDepth_pos, St.withPos_pos]
        omega
    · split at h
      · cases h
      · rename_i rv s3 heq
        simp only [Option.some.injEq] at h
        subst h
        have hsub := ih _ _ heq
        unfold StepInv at hsub
        obtain ⟨hA, ⟨l, hBl, _⟩, hC, hD, _, _⟩ := hsub
        simp only [Req.st_value, St.withDepth_pos, St.withDepth_errors, St.withDepth_fatal,
          St.withDepth_nestDepth, St.withPos_pos, St.withPos_errors, St.withPos_fatal,
          St.withPos_nestDepth, St.push_pos, St.push_errors, St.push_fatal,
          St.push_nestDepth] at hA hBl hC hD
        unfold StepInv
        simp only [Req.st_value]
        refine ⟨?_, ⟨(skipWSPos inp opts s.pos, msg) :: l, ?_, ?_⟩, ?_, ?_, trivial, ?_⟩
        · simp only [St.withDepth_pos]
          omega
        · simp only [St.withDepth_errors]
          rw [hBl]
          simp
        · intro hs
          rw [hs] at hs0
          cases hs0
        · intro hrf
          simp only [St.withDepth_fatal] at hrf
          refine ⟨hf0, ?_⟩
          simp only [St.withDepth_nestDepth]
          exact (hC hrf).2
        · intro _ _
          simp only [St.withDepth_fatal]
          exact hD hs0 (by simp [hf0, hs0])
        · intro _ _ _ _ _ _
          simp only [St.withDepth_pos]
          omega

/-- The dispatcher preserves the step invariant. -/
theorem stepInv_value (inp : List Char) (opts : Options) (n : Nat)
    (ih : ∀ req r, step inp opts n req = some r → StepInv inp opts req r)
    (s : St) (r : Value × St)
    (h : step inp opts (n+1) (.value s) = some r) :
    StepInv inp opts (.value s) r := by
  by_cases hf1 : s.fatal = true
  · rw [stepv_eq_fatal inp opts n s hf1] at h
    simp only [Option.some.injEq] at h
    subst h
    exact stepInv_fatal inp opts (.value s) .null trivial hf1
  · replace hf1 : s.fatal = false := by simpa using hf1
    have hsP : s.pos ≤ skipWSPos inp opts s.pos := le_skipWSPos inp opts s.pos
    cases hch : chAt inp (skipWSPos inp opts s.pos) with
    | none =>
      rw [stepv_eq_eof inp opts n s hf1 hch] at h
      simp only [Option.some.injEq] at h
      subst h
      unfold StepInv
      refine ⟨by simpa using hsP,
        ⟨[], by simp, fun _ _ => ⟨fun hc => by simp [hf1] at hc, fun _ => rfl⟩⟩,
        fun _ => ⟨hf1, by simp⟩,
        fun _ _ => by simp [hf1], trivial, ?_⟩
      intro _ hfix c hc
      rw [hfix] at hch
      rw [hch] at hc
      cases hc
    | some c =>
      by_cases h1 : c = lbrace
      · rw [stepv_eq_object inp opts n s hf1 hch h1] at h
        have hsub := ih _ _ h
        unfold StepInv at hsub
        obtain ⟨hA, hB, hC, hD, _, hprog⟩ := hsub
        simp only [Req.st_object, St.withPos_pos, St.withPos_errors, St.withPos_fatal,
          St.withPos_nestDepth] at hA hB hC hD
        exact stepInv_value_of_sub inp opts s _ _ hsP hA hB hC hD (fun hrf => hprog hrf)
      · by_cases h2 : c = '['
        · rw [stepv_eq_array inp opts n s hf1 hch h1 h2] at h
          have hsub := ih _ _ h
          unfold StepInv at hsub
          obtain ⟨hA, hB, hC, hD, _, hprog⟩ := hsub
          simp only [Req.st_array, St.withPos_pos, St.withPos_errors, St.withPos_fatal,
            St.withPos_nestDepth] at hA hB hC hD
          exact stepInv_value_of_sub inp opts s _ _ hsP hA hB hC hD (fun hrf => hprog hrf)
        · by_cases h3 : (c = '"' || c = '\'') = true
          · rw [stepv_eq_string inp opts n s hf1 hch h1 h2 h3] at h
            simp only [Option.some.injEq] at h
            subst h
            obtain ⟨hB, hC1, hD, _, hN⟩ := parseString_evolve inp opts
              (s.withPos (skipWSPos inp opts s.pos))
            simp only [St.withPos_errors, St.withPos_fatal, St.withPos_nestDepth,
              St.withPos_pos] at hB hC1 hD hN
            have hps0 : skipWSPos inp opts s.pos ≤
                (parseString inp opts (s.withPos (skipWSPos inp opts s.pos))).2.pos := by
              simpa using le_parseString inp opts (s.withPos (skipWSPos inp opts s.pos))
            refine stepInv_value_of_sub inp opts s _ _ hsP hps0 hB
              (fun hrf => ⟨hC1 hrf, by rw [hN]⟩) hD ?_
            intro _
            have hps := le_parseStringGo inp opts
              ((chAt inp (s.withPos (skipWSPos inp opts s.pos)).pos).getD '"')
              (inp.length + 1) []
              ((s.withPos (skipWSPos inp opts s.pos)).withPos
                ((s.withPos (skipWSPos inp opts s.pos)).pos + 1))
            rw [parseString]
            simpa using hps
          · replace h3 : (c = '"' || c = '\'') = false := by simpa using h3
            by_cases h4 : (c = '-' || isDigit c) = true
            · rw [stepv_eq_number inp opts n s hf1 hch h1 h2 h3 h4] at h
              simp only [Option.some.injEq] at h
              subst h
              obtain ⟨hB, hC1, hD, _, hN⟩ := parseNumber_evolve inp opts
                (s.withPos (skipWSPos inp opts s.pos))
              simp only [St.withPos_errors, St.withPos_fatal, St.withPos_nestDepth,
                St.withPos_pos] at hB hC1 hD hN
              have hpn0 : skipWSPos inp opts s.pos ≤
                  (parseNumber inp opts (s.withPos (skipWSPos inp opts s.pos))).2.pos := by
                simpa using le_parseNumber inp opts (s.withPos (skipWSPos inp opts s.pos))
              refine stepInv_value_of_sub inp opts s _ _ hsP hpn0 hB
                (fun hrf => ⟨hC1 hrf, by rw [hN]⟩) hD ?_
              intro _
              rw [parseNumber_pos]
              simp only [St.withPos_pos]
              refine @numEnd_advance inp (skipWSPos inp opts s.pos) c (by simpa using hch) ?_
              rcases Bool.or_eq_true_iff.mp h4 with hm | hd
              · exact Or.inl (by simpa using hm)
              · exact Or.inr hd
            · replace h4 : (c = '-' || isDigit c) = false := by simpa using h4
              by_cases h5 : matchWord inp (skipWSPos inp opts s.pos) wTrue = true
              · rw [stepv_eq_true inp opts n s hf1 hch h1 h2 h3 h4 h5] at h
                simp only [Option.some.injEq] at h
                subst h
                refine stepInv_value_of_sub inp opts s _ _ hsP
                  (by simp only [St.withPos_pos]; omega)
                  ⟨[], by simp, fun _ _ => ⟨fun hc => by simp [hf1] at hc, fun _ => rfl⟩⟩
                  (fun _ => ⟨hf1, by simp⟩) (fun _ _ => by simp [hf1])
                  (fun _ => by simp only [St.withPos_pos]; omega)
              · replace h5 : matchWord inp (skipWSPos inp opts s.pos) wTrue = false := by simpa using h5
                by_cases h6 : matchWord inp (skipWSPos inp opts s.pos) wFalse = true
                · rw [stepv_eq_false inp opts n s hf1 hch h1 h2 h3 h4 h5 h6] at h
                  simp only [Option.some.injEq] at h
                  subst h
                  refine stepInv_value_of_sub inp opts s _ _ hsP
                    (by simp only [St.withPos_pos]; omega)
                    ⟨[], by simp, fun _ _ => ⟨fun hc => by simp [hf1] at hc, fun _ => rfl⟩⟩
                    (fun _ => ⟨hf1, by simp⟩) (fun _ _ => by simp [hf1])
                    (fun _ => by simp only [St.withPos_pos]; omega)
                · replace h6 : matchWord inp (skipWSPos inp opts s.pos) wFalse = false := by simpa using h6
                  by_cases h7 : matchWord inp (skipWSPos inp opts s.pos) wNull = true
                  · rw [stepv_eq_null inp opts n s hf1 hch h1 h2 h3 h4 h5 h6 h7] at h
                    simp only [Option.some.injEq] at h
                    subst h
                    refine stepInv_value_of_sub inp opts s _ _ hsP
                      (by simp only [St.withPos_pos]; omega)
                      ⟨[], by simp, fun _ _ => ⟨fun hc => by simp [hf1] at hc, fun _ => rfl⟩⟩
                      (fun _ => ⟨hf1, by simp⟩) (fun _ _ => by simp [hf1])
                      (fun _ => by simp only [St.withPos_pos]; omega)
                  · replace h7 : matchWord inp (skipWSPos inp opts s.pos) wNull = false := by simpa using h7
                    by_cases h8 : (opts.convertPythonTokens &&
                        matchWord inp (skipWSPos inp opts s.pos) wPyTrue) = true
                    · rw [stepv_eq_pytrue inp opts n s hf1 hch h1 h2 h3 h4 h5 h6 h7 h8] at h
                      simp only [Option.some.injEq] at h
                      subst h
                      refine stepInv_value_of_sub inp opts s _ _ hsP
                        (by simp only [St.push_pos, St.withPos_pos]; omega)
                        ⟨[_], by simp only [St.push_errors, St.withPos_errors, St.withPos_pos]; rfl,
                          fun hs hf0 => ⟨fun _ => ⟨_, rfl⟩, fun hcf => by simp [hs, hf0] at hcf⟩⟩
                        (fun hrf => by
                          simp only [St.push_fatal, St.withPos_fatal, Bool.or_eq_false_iff] at hrf
                          exact ⟨hrf.1, by simp⟩)
                        (fun hs0 hf0 => by simp [hs0, hf0])
                        (fun _ => by simp only [St.push_pos, St.withPos_pos]; omega)
                    · replace h8 : (opts.convertPythonTokens && matchWord inp (skipWSPos inp opts s.pos) wPyTrue) = false := by simpa using h8
                      by_cases h9 : (opts.convertPythonTokens &&
                          matchWord inp (skipWSPos inp opts s.pos) wPyFalse) = true
                      · rw [stepv_eq_pyfalse inp opts n s hf1 hch h1 h2 h3 h4 h5 h6 h7 h8 h9] at h
                        simp only [Option.some.injEq] at h
                        subst h
                        refine stepInv_value_of_sub inp opts s _ _ hsP
                          (by simp only [St.push_pos, St.withPos_pos]; omega)
                          ⟨[_], by simp only [St.push_errors, St.withPos_errors, St.withPos_pos]; rfl,
                            fun hs hf0 => ⟨fun _ => ⟨_, rfl⟩, fun hcf => by simp [hs, hf0] at hcf⟩⟩
                          (fun hrf => by
                            simp only [St.push_fatal, St.withPos_fatal, Bool.or_eq_false_iff] at hrf
                            exact ⟨hrf.1, by simp⟩)
                          (fun hs0 hf0 => by simp [hs0, hf0])
                          (fun _ => by simp only [St.push_pos, St.withPos_pos]; omega)
                      · replace h9 : (opts.convertPythonTokens && matchWord inp (skipWSPos inp opts s.pos) wPyFalse) = false := by simpa using h9
                        by_cases h10 : (opts.convertPythonTokens &&
                            matchWord inp (skipWSPos inp opts s.pos) wPyNone) = true
                        · rw [stepv_eq_pynone inp opts n s hf1 hch h1 h2 h3 h4 h5 h6 h7 h8 h9 h10] at h
                          simp only [Option.some.injEq] at h
                          subst h
                          refine stepInv_value_of_sub inp opts s _ _ hsP
                            (by simp only [St.push_pos, St.withPos_pos]; omega)
                            ⟨[_], by simp only [St.push_errors, St.withPos_errors, St.withPos_pos]; rfl,
                              fun hs hf0 => ⟨fun _ => ⟨_, rfl⟩, fun hcf => by simp [hs, hf0] at hcf⟩⟩
                            (fun hrf => by
                              simp only [St.push_fatal, St.withPos_fatal, Bool.or_eq_false_iff] at hrf
                              exact ⟨hrf.1, by simp⟩)
                            (fun hs0 hf0 => by simp [hs0, hf0])
                            (fun _ => by simp only [St.push_pos, St.withPos_pos]; omega)
                        · replace h10 : (opts.convertPythonTokens && matchWord inp (skipWSPos inp opts s.pos) wPyNone) = false := by simpa using h10
                          by_cases h11 : (opts.convertUndefined &&
                              matchWord inp (skipWSPos inp opts s.pos) wUndefined) = true
                          · rw [stepv_eq_undefined inp opts n s hf1 hch h1 h2 h3 h4 h5 h6 h7 h8 h9
                              h10 h11] at h
                            simp only [Option.some.injEq] at h
                            subst h
                            refine stepInv_value_of_sub inp opts s _ _ hsP
                              (by simp only [St.push_pos, St.withPos_pos]; omega)
                              ⟨[_], by simp only [St.push_errors, St.withPos_errors, St.withPos_pos]; rfl,
                                fun hs hf0 => ⟨fun _ => ⟨_, rfl⟩, fun hcf => by simp [hs, hf0] at hcf⟩⟩
                              (fun hrf => by
                                simp only [St.push_fatal, St.withPos_fatal, Bool.or_eq_false_iff] at hrf
                                exact ⟨hrf.1, by simp⟩)
                              (fun hs0 hf0 => by simp [hs0, hf0])
                              (fun _ => by simp only [St.push_pos, St.withPos_pos]; omega)
                          · replace h11 : (opts.convertUndefined && matchWord inp (skipWSPos inp opts s.pos) wUndefined) = false := by simpa using h11
                            by_cases h12 : matchWord inp (skipWSPos inp opts s.pos) wNaN = true
                            · rw [stepv_eq_nan inp opts n s hf1 hch h1 h2 h3 h4 h5 h6 h7 h8 h9 h10
                                h11 h12] at h
                              simp only [Option.some.injEq] at h
                              subst h
                              refine stepInv_value_of_sub inp opts s _ _ hsP
                                (by simp only [St.push_pos, St.withPos_pos]; omega)
                                ⟨[_], by simp only [St.push_errors, St.withPos_errors, St.withPos_pos]; rfl,
                                  fun hs hf0 => ⟨fun _ => ⟨_, rfl⟩, fun hcf => by simp [hs, hf0] at hcf⟩⟩
                                (fun hrf => by
                                  simp only [St.push_fatal, St.withPos_fatal, Bool.or_eq_false_iff] at hrf
                                  exact ⟨hrf.1, by simp⟩)
                                (fun hs0 hf0 => by simp [hs0, hf0])
                                (fun _ => by simp only [St.push_pos, St.withPos_pos]; omega)
                            · replace h12 : matchWord inp (skipWSPos inp opts s.pos) wNaN = false := by simpa using h12
                              by_cases h13 : matchWord inp (skipWSPos inp opts s.pos) wInfinity = true
                              · rw [stepv_eq_infinity inp opts n s hf1 hch h1 h2 h3 h4 h5 h6 h7 h8
                                  h9 h10 h11 h12 h13] at h
                                simp only [Option.some.injEq] at h
                                subst h
                                refine stepInv_value_of_sub inp opts s _ _ hsP
                                  (by simp only [St.push_pos, St.withPos_pos]; omega)
                                  ⟨[_], by simp only [St.push_errors, St.withPos_errors, St.withPos_pos]; rfl,
                                    fun hs hf0 => ⟨fun _ => ⟨_, rfl⟩, fun hcf => by simp [hs, hf0] at hcf⟩⟩
                                  (fun hrf => by
                                    simp only [St.push_fatal, St.withPos_fatal, Bool.or_eq_false_iff] at hrf
                                    exact ⟨hrf.1, by simp⟩)
                                  (fun hs0 hf0 => by simp [hs0, hf0])
                                  (fun _ => by simp only [St.push_pos, St.withPos_pos]; omega)
                              · replace h13 : matchWord inp (skipWSPos inp opts s.pos) wInfinity = false := by simpa using h13
                                by_cases h14 : (c = rbrace || c = ']') = true
                                · rw [stepv_eq_closer inp opts n s hf1 hch h1 h2 h3 h4 h5 h6 h7 h8
                                    h9 h10 h11 h12 h13 h14] at h
                                  simp only [Option.some.injEq] at h
                                  subst h
                                  unfold StepInv
                                  refine ⟨by simpa using hsP,
                                    ⟨[], by simp, fun _ _ => ⟨fun hc => by simp [hf1] at hc,
                                      fun _ => rfl⟩⟩,
                                    fun _ => ⟨hf1, by simp⟩,
                                    fun _ _ => by simp [hf1], trivial, ?_⟩
                                  intro _ hfix c' hc'
                                  rw [hfix] at hch
                                  rw [hch] at hc'
                                  injection hc' with hc'
                                  subst hc'
                                  intro hnb hnk
                                  rcases Bool.or_eq_true_iff.mp h14 with hb | hk
                                  · exact absurd (by simpa using hb) hnb
                                  · exact absurd (by simpa using hk) hnk
                                · replace h14 : (c = rbrace || c = ']') = false := by simpa using h14
                                  by_cases h15 : (c = ',' || c = ':') = true
                                  · rw [stepv_eq_stray inp opts n s hf1 hch h1 h2 h3 h4 h5 h6 h7 h8
                                      h9 h10 h11 h12 h13 h14 h15] at h
                                    exact stepInv_value_recover inp opts n ih s _ hsP h
                                  · replace h15 : (c = ',' || c = ':') = false := by simpa using h15
                                    rw [stepv_eq_unknown inp opts n s hf1 hch h1 h2 h3 h4 h5 h6 h7
                                      h8 h9 h10 h11 h12 h13 h14 h15] at h
                                    exact stepInv_value_recover inp opts n ih s _ hsP h

/-- Glue a sub-run's invariant onto an enclosing request whose state has
already advanced and possibly logged diagnostics (only ever in non-strict
mode, since a strict-mode push is fatal and checked before each recursive
call). -/
theorem stepInv_glue (inp : List Char) (opts : Options) (req req' : Req) (r : Value × St)
    (hsub : StepInv inp opts req' r)
    (hpos : req.st.pos ≤ req'.st.pos)
    (l0 : List Diag) (hl0 : req'.st.errors = req.st.errors ++ l0)
    (hl0s : opts.strict = true → l0 = [])
    (hf : req.st.fatal = false) (hf' : req'.st.fatal = false)
    (hn : req'.st.nestDepth = req.st.nestDepth)
    (hsh : Req.shapeOk req' r.1 → Req.shapeOk req r.1)
    (hprog : Req.progress inp opts req r) :
    StepInv inp opts req r := by
  unfold StepInv at hsub ⊢
  obtain ⟨hA, ⟨l, hle, hdis⟩, hC, hD, hS, _⟩ := hsub
  refine ⟨Nat.le_trans hpos hA, ⟨l0 ++ l, by rw [hle, hl0, List.append_assoc], ?_⟩,
    ?_, ?_, hsh hS, hprog⟩
  · intro hst _
    rw [hl0s hst, List.nil_append]
    exact hdis hst hf'
  · intro hrf
    exact ⟨hf, by rw [(hC hrf).2, hn]⟩
  · intro hs0 _
    exact hD hs0 hf'

/-- Assemble the invariant from its six parts (packaging convenience). -/
theorem stepInv_of_parts (inp : List Char) (opts : Options) (req : Req) (v : Value) (t : St)
    (hpos : req.st.pos ≤ t.pos)
    (hB : ∃ l, t.errors = req.st.errors ++ l ∧
      (opts.strict = true → req.st.fatal = false →
        (t.fatal = true → ∃ d, l = [d]) ∧ (t.fatal = false → l = [])))
    (hC : t.fatal = false → req.st.fatal = false ∧ t.nestDepth = req.st.nestDepth)
    (hD : opts.strict = false → req.st.fatal = false → t.fatal = false)
    (hS : Req.shapeOk req v)
    (hP : Req.progress inp opts req (v, t)) :
    StepInv inp opts req (v, t) := by
  unfold StepInv
  exact ⟨hpos, hB, hC, hD, hS, hP⟩

/-- `parseObject` preserves the step invariant. -/
theorem stepInv_object (inp : List Char) (opts : Options) (n : Nat)
    (ih : ∀ req r, step inp opts n req = some r → StepInv inp opts req r)
    (s : St) (r : Value × St)
    (h : step inp opts (n+1) (.object s) = some r) :
    StepInv inp opts (.object s) r := by
  by_cases hf1 : s.fatal = true
  · rw [step, if_pos hf1] at h
    simp only [Option.some.injEq] at h
    subst h
    exact stepInv_fatal inp opts (.object s) .null trivial hf1
  · replace hf1 : s.fatal = false := by simpa using hf1
    rw [step, if_neg (by simp [hf1])] at h
    dsimp only at h
    simp only [St.withNest_nestDepth, St.withNest_pos, St.withNest_fatal, St.push_pos,
      St.push_fatal, St.withPos_pos] at h
    by_cases hmd : opts.maxDepth < s.nestDepth + 1
    · rw [if_pos hmd] at h
      by_cases hst : opts.strict = true
      · rw [if_pos (by simp [hf1, hst])] at h
        simp only [Option.some.injEq] at h
        subst h
        refine stepInv_of_parts inp opts (.object s) _ _ (by simp)
          ⟨[(s.pos, "Max depth " ++ Nat.repr opts.maxDepth ++ " exceeded")],
            by simp, fun _ _ => ⟨fun _ => ⟨_, rfl⟩, fun hc => by simp [hf1, hst] at hc⟩⟩
          ?_ ?_ trivial ?_
        · intro hc
          simp [hf1, hst] at hc
        · intro hs0
          rw [hs0] at hst
          cases hst
        · intro hc
          simp [hf1, hst] at hc
      · replace hst : opts.strict = false := by simpa using hst
        rw [if_neg (by simp [hf1, hst])] at h
        simp only [Option.some.injEq] at h
        subst h
        refine stepInv_of_parts inp opts (.object s) _ _ ?_
          ⟨[(s.pos, "Max depth " ++ Nat.repr opts.maxDepth ++ " exceeded")],
            by simp, fun hc _ => by rw [hc] at hst; cases hst⟩
          ?_ ?_ trivial ?_
        · simp only [St.withPos_pos, Req.st_object]
          exact Nat.le_trans (Nat.le_succ s.pos)
            (le_skipBalanced inp lbrace rbrace (inp.length + 1) 1 (s.pos + 1))
        · intro _
          refine ⟨hf1, ?_⟩
          simp only [St.withPos_nestDepth, St.withNest_nestDepth, St.push_nestDepth,
            Req.st_object]
          omega
        · intro _ _
          simp [hf1, hst]
        · intro _
          simp only [St.withPos_pos]
          exact le_skipBalanced inp lbrace rbrace (inp.length + 1) 1 (s.pos + 1)
    · rw [if_neg hmd] at h
      split at h
      · cases h
      · rename_i v s1 heq
        have hsub := ih _ _ heq
        unfold StepInv at hsub
        obtain ⟨hA, ⟨l, hle, hdis⟩, hC, hD, hS, _⟩ := hsub
        simp only [Req.st_objLoop, St.withPos_pos, St.withPos_errors, St.withPos_fatal,
          St.withPos_nestDepth, St.withNest_errors, St.withNest_fatal,
          St.withNest_nestDepth] at hA hle hdis hC hD
        have hpos1 : s.pos + 1 ≤ s1.pos :=
          Nat.le_trans (le_skipWSPos inp opts (s.pos + 1)) hA
        split at h
        · rename_i hft
          simp only [Option.some.injEq] at h
          subst h
          refine stepInv_of_parts inp opts (.object s) v s1 (by simp only [Req.st_object]; omega)
            ⟨l, hle, fun hsx _ => hdis hsx hf1⟩ ?_ ?_ trivial ?_
          · intro hc
            rw [hc] at hft
            cases hft
          · intro hs0 _
            exact hD hs0 hf1
          · intro hc
            rw [hc] at hft
            cases hft
        · rename_i hff
          replace hff : s1.fatal = false := by simpa using hff
          obtain ⟨fs, rfl⟩ := hS
          dsimp only at h
          obtain ⟨_, hnest⟩ := hC hff
          by_cases hcl : chAt inp s1.pos = some rbrace
          · rw [if_pos hcl] at h
            simp only [Option.some.injEq] at h
            subst h
            refine stepInv_of_parts inp opts (.object s) _ _
              (by simp only [Req.st_object, St.withPos_pos, St.withNest_pos]; omega)
              ⟨l, by simpa using hle, ?_⟩ ?_ ?_ trivial ?_
            · intro hsx _
              exact ⟨fun hc => by simp [hff] at hc, fun _ => (hdis hsx hf1).2 hff⟩
            · intro _
              refine ⟨hf1, ?_⟩
              simp only [St.withPos_nestDepth, St.withNest_nestDepth, Req.st_object]
              omega
            · intro _ _
              simp [hff]
            · intro _
              simp only [St.withPos_pos, St.withNest_pos]
              omega
          · rw [if_neg hcl] at h
            simp only [Option.some.injEq] at h
            subst h
            refine stepInv_of_parts inp opts (.object s) _ _
              (by simp only [Req.st_object, St.push_pos, St.withNest_pos]; omega)
              ⟨l ++ [(s1.pos, "Unclosed object, auto-closing at pos " ++ Nat.repr s1.pos)],
                by simp only [St.push_errors, St.withNest_errors, St.withNest_pos,
                     Req.st_object];
                   rw [hle, List.append_assoc], ?_⟩
              ?_ ?_ trivial ?_
            · intro hsx _
              rw [(hdis hsx hf1).2 hff, List.nil_append]
              refine ⟨fun _ => ⟨_, rfl⟩, fun hc => ?_⟩
              simp [hff, hsx] at hc
            · intro _
              refine ⟨hf1, ?_⟩
              simp only [St.push_nestDepth, St.withNest_nestDepth, Req.st_object]
              omega
            · intro hs0 _
              simp [hff, hs0]
            · intro _
              simp only [St.push_pos, St.withNest_pos]
              omega

/-- `parseArray` preserves the step invariant. -/
theorem stepInv_array (inp : List Char) (opts : Options) (n : Nat)
    (ih : ∀ req r, step inp opts n req = some r → StepInv inp opts req r)
    (s : St) (r : Value × St)
    (h : step inp opts (n+1) (.array s) = some r) :
    StepInv inp opts (.array s) r := by
  by_cases hf1 : s.fatal = true
  · rw [step, if_pos hf1] at h
    simp only [Option.some.injEq] at h
    subst h
    exact stepInv_fatal inp opts (.array s) .null trivial hf1
  · replace hf1 : s.fatal = false := by simpa using hf1
    rw [step, if_neg (by simp [hf1])] at h
    dsimp only at h
    simp only [St.withNest_nestDepth, St.withNest_pos, St.withNest_fatal, St.push_pos,
      St.push_fatal, St.withPos_pos] at h
    by_cases hmd : opts.maxDepth < s.nestDepth + 1
    · rw [if_pos hmd] at h
      by_cases hst : opts.strict = true
      · rw [if_pos (by simp [hf1, hst])] at h
        simp only [Option.some.injEq] at h
        subst h
        refine stepInv_of_parts inp opts (.array s) _ _ (by simp)
          ⟨[(s.pos, "Max depth " ++ Nat.repr opts.maxDepth ++ " exceeded")],
            by simp, fun _ _ => ⟨fun _ => ⟨_, rfl⟩, fun hc => by simp [hf1, hst] at hc⟩⟩
          ?_ ?_ trivial ?_
        · intro hc
          simp [hf1, hst] at hc
        · intro hs0
          rw [hs0] at hst
          cases hst
        · intro hc
          simp [hf1, hst] at hc
      · replace hst : opts.strict = false := by simpa using hst
        rw [if_neg (by simp [hf1, hst])] at h
        simp only [Option.some.injEq] at h
        subst h
        refine stepInv_of_parts inp opts (.array s) _ _ ?_
          ⟨[(s.pos, "Max depth " ++ Nat.repr opts.maxDepth ++ " exceeded")],
            by simp, fun hc _ => by rw [hc] at hst; cases hst⟩
          ?_ ?_ trivial ?_
        · simp only [St.withPos_pos, Req.st_array]
          exact Nat.le_trans (Nat.le_succ s.pos)
            (le_skipBalanced inp '[' ']' (inp.length + 1) 1 (s.pos + 1))
        · intro _
          refine ⟨hf1, ?_⟩
          simp only [St.withPos_nestDepth, St.withNest_nestDepth, St.push_nestDepth,
            Req.st_array]
          omega
        · intro _ _
          simp [hf1, hst]
        · intro _
          simp only [St.withPos_pos]
          exact le_skipBalanced inp '[' ']' (inp.length + 1) 1 (s.pos + 1)
    · rw [if_neg hmd] at h
      split at h
      · cases h
      · rename_i v s1 heq
        have hsub := ih _ _ heq
        unfold StepInv at hsub
        obtain ⟨hA, ⟨l, hle, hdis⟩, hC, hD, hS, _⟩ := hsub
        simp only [Req.st_arrLoop, St.withPos_pos, St.withPos_errors, St.withPos_fatal,
          St.withPos_nestDepth, St.withNest_errors, St.withNest_fatal,
          St.withNest_nestDepth] at hA hle hdis hC hD
        have hpos1 : s.pos + 1 ≤ s1.pos :=
          Nat.le_trans (le_skipWSPos inp opts (s.pos + 1)) hA
        split at h
        · rename_i hft
          simp only [Option.some.injEq] at h
          subst h
          refine stepInv_of_parts inp opts (.array s) v s1 (by simp only [Req.st_array]; omega)
            ⟨l, hle, fun hsx _ => hdis hsx hf1⟩ ?_ ?_ trivial ?_
          · intro hc
            rw [hc] at hft
            cases hft
          · intro hs0 _
            exact hD hs0 hf1
          · intro hc
            rw [hc] at hft
            cases hft
        · rename_i hff
          replace hff : s1.fatal = false := by simpa using hff
          obtain ⟨es, rfl⟩ := hS
          dsimp only at h
          obtain ⟨_, hnest⟩ := hC hff
          by_cases hcl : chAt inp s1.pos = some ']'
          · rw [if_pos hcl] at h
            simp only [Option.some.injEq] at h
            subst h
            refine stepInv_of_parts inp opts (.array s) _ _
              (by simp only [Req.st_array, St.withPos_pos, St.withNest_pos]; omega)
              ⟨l, by simpa using hle, ?_⟩ ?_ ?_ trivial ?_
            · intro hsx _
              exact ⟨fun hc => by simp [hff] at hc, fun _ => (hdis hsx hf1).2 hff⟩
            · intro _
              refine ⟨hf1, ?_⟩
              simp only [St.withPos_nestDepth, St.withNest_nestDepth, Req.st_array]
              omega
            · intro _ _
              simp [hff]
            · intro _
              simp only [St.withPos_pos, St.withNest_pos]
              omega
          · rw [if_neg hcl] at h
            simp only [Option.some.injEq] at h
            subst h
            refine stepInv_of_parts inp opts (.array s) _ _
              (by simp only [Req.st_array, St.push_pos, St.withNest_pos]; omega)
              ⟨l ++ [(s1.pos, "Unclosed array, auto-closing at pos " ++ Nat.repr s1.pos)],
                by simp only [St.push_errors, St.withNest_errors, St.withNest_pos,
                     Req.st_array];
                   rw [hle, List.append_assoc], ?_⟩
              ?_ ?_ trivial ?_
            · intro hsx _
              rw [(hdis hsx hf1).2 hff, List.nil_append]
              refine ⟨fun _ => ⟨_, rfl⟩, fun hc => ?_⟩
              simp [hff, hsx] at hc
            · intro _
              refine ⟨hf1, ?_⟩
              simp only [St.push_nestDepth, St.withNest_nestDepth, Req.st_array]
              omega
            · intro hs0 _
              simp [hff, hs0]
            · intro _
              simp only [St.push_pos, St.withNest_pos]
              omega

/-- Terminal loop branch: the result state agrees with the request state on
log, flag and container counter. -/
theorem stepInv_loop_same_done (inp : List Char) (opts : Options) (req : Req)
    (v : Value) (base : St)
    (hpos : req.st.pos ≤ base.pos)
    (he : base.errors = req.st.errors) (hfb : base.fatal = req.st.fatal)
    (hn : base.nestDepth = req.st.nestDepth)
    (hf : req.st.fatal = false)
    (hS : Req.shapeOk req v)
    (hP : Req.progress inp opts req (v, base)) :
    StepInv inp opts req (v, base) := by
  refine stepInv_of_parts inp opts req v base hpos ⟨[], by simp [he], ?_⟩
    (fun _ => ⟨hf, hn⟩) (fun _ _ => by rw [hfb, hf]) hS hP
  intro _ _
  refine ⟨fun hc => ?_, fun _ => rfl⟩
  rw [hfb, hf] at hc
  cases hc

/-- Terminal loop branch: one diagnostic pushed onto a state that agrees
with the request state on log, flag and container counter. -/
theorem stepInv_loop_push_done (inp : List Char) (opts : Options) (req : Req)
    (v : Value) (base : St) (msg : String)
    (hpos : req.st.pos ≤ base.pos)
    (he : base.errors = req.st.errors) (hfb : base.fatal = req.st.fatal)
    (hn : base.nestDepth = req.st.nestDepth)
    (hf : req.st.fatal = false)
    (hS : Req.shapeOk req v)
    (hP : Req.progress inp opts req (v, base.push opts msg)) :
    StepInv inp opts req (v, base.push opts msg) := by
  refine stepInv_of_parts inp opts req v _ (by simpa using hpos)
    ⟨[(base.pos, msg)], by simp [he], ?_⟩ ?_ ?_ hS hP
  · intro hst hf0
    refine ⟨fun _ => ⟨_, rfl⟩, fun hc => ?_⟩
    simp [hfb, hf0, hst] at hc
  · intro _
    exact ⟨hf, by simp [hn]⟩
  · intro hs0 _
    simp [hfb, hf, hs0]

/-- The object member loop preserves the step invariant. -/
theorem stepInv_objLoop (inp : List Char) (opts : Options) (n : Nat)
    (ih : ∀ req r, step inp opts n req = some r → StepInv inp opts req r)
    (fields : List (List Char × Value)) (s : St) (r : Value × St)
    (h : step inp opts (n+1) (.objLoop fields s) = some r) :
    StepInv inp opts (.objLoop fields s) r := by
  by_cases hf1 : s.fatal = true
  · rw [step, if_pos hf1] at h
    simp only [Option.some.injEq] at h
    subst h
    exact stepInv_fatal inp opts (.objLoop fields s) (.obj fields) ⟨fields, rfl⟩ hf1
  · replace hf1 : s.fatal = false := by simpa using hf1
    rw [step, if_neg (by simp [hf1])] at h
    have hsP : s.pos ≤ skipWSPos inp opts s.pos := le_skipWSPos inp opts s.pos
    cases hc0 : chAt inp s.pos with
    | none =>
      rw [hc0] at h
      dsimp only at h
      simp only [Option.some.injEq] at h
      subst h
      exact stepInv_loop_same_done inp opts (.objLoop fields s) _ s (Nat.le_refl _)
        rfl rfl rfl hf1 ⟨fields, rfl⟩ trivial
    | some c0 =>
      rw [hc0] at h
      dsimp only at h
      by_cases hcb : c0 = rbrace
      · rw [if_pos hcb] at h
        simp only [Option.some.injEq] at h
        subst h
        exact stepInv_loop_same_done inp opts (.objLoop fields s) _ s (Nat.le_refl _)
          rfl rfl rfl hf1 ⟨fields, rfl⟩ trivial
      · rw [if_neg hcb] at h
        simp only [St.withPos_pos] at h
        cases hcw : chAt inp (skipWSPos inp opts s.pos) with
        | none =>
          rw [hcw] at h
          dsimp only at h
          simp only [Option.some.injEq] at h
          subst h
          exact stepInv_loop_same_done inp opts (.objLoop fields s) _ _ (by simpa using hsP)
            rfl rfl rfl hf1 ⟨fields, rfl⟩ trivial
        | some c =>
          rw [hcw] at h
          dsimp only at h
          by_cases hcc : c = ','
          · rw [if_pos hcc] at h
            refine stepInv_glue inp opts (.objLoop fields s) _ r (ih _ _ h) ?_ [] (by simp)
              (fun _ => rfl) hf1 (by simpa using hf1) (by simp) id trivial
            simp only [Req.st_objLoop, St.withPos_pos]
            exact Nat.le_trans hsP (Nat.le_trans (Nat.le_succ _)
              (le_skipWSPos inp opts (skipWSPos inp opts s.pos + 1)))
          · rw [if_neg hcc] at h
            by_cases hcr : c = rbrace
            · rw [if_pos hcr] at h
              simp only [Option.some.injEq] at h
              subst h
              exact stepInv_loop_same_done inp opts (.objLoop fields s) _ _
                (by simpa using hsP) rfl rfl rfl hf1 ⟨fields, rfl⟩ trivial
            · rw [if_neg hcr] at h
              by_cases hcbr : c = ']'
              · rw [if_pos hcbr] at h
                by_cases hst : opts.strict = true
                · rw [if_pos (by simp [hf1, hst])] at h
                  simp only [Option.some.injEq] at h
                  subst h
                  exact stepInv_loop_push_done inp opts (.objLoop fields s) _ _ _
                    (by simpa using hsP) (by simp) (by simp [hf1]) (by simp) hf1
                    ⟨fields, rfl⟩ trivial
                · replace hst : opts.strict = false := by simpa using hst
                  rw [if_neg (by simp [hf1, hst])] at h
                  refine stepInv_glue inp opts (.objLoop fields s) _ r (ih _ _ h) ?_ _
                    (by simp only [Req.st_objLoop, St.withPos_errors, St.push_errors,
                      St.withPos_pos]; rfl)
                    (fun hc => absurd hc (by simp [hst])) hf1 ?_ (by simp) id trivial
                  · simp only [Req.st_objLoop, St.withPos_pos, St.push_pos]
                    omega
                  · simp [hf1, hst]
              · rw [if_neg hcbr] at h
                by_cases hq : (c = '"' || c = '\'') = true
                · rw [if_pos hq] at h
                  obtain ⟨⟨l, hle, hdis⟩, hmono, hnof, _, hN⟩ :=
                    parseString_evolve inp opts (s.withPos (skipWSPos inp opts s.pos))
                  simp only [St.withPos_errors, St.withPos_fatal, St.withPos_nestDepth,
                    St.withPos_pos] at hle hdis hmono hnof hN
                  have hps : skipWSPos inp opts s.pos ≤
                      (parseString inp opts (s.withPos (skipWSPos inp opts s.pos))).2.pos := by
                    simpa using le_parseString inp opts (s.withPos (skipWSPos inp opts s.pos))
                  by_cases hpf :
                      (parseString inp opts (s.withPos (skipWSPos inp opts s.pos))).2.fatal = true
                  · rw [if_pos hpf] at h
                    simp only [Option.some.injEq] at h
                    subst h
                    refine stepInv_of_parts inp opts (.objLoop fields s) _ _
                      (by simp only [Req.st_objLoop]; omega)
                      ⟨l, hle, fun hsx _ => hdis hsx hf1⟩ ?_ ?_ ⟨fields, rfl⟩ trivial
                    · intro hc
                      rw [hc] at hpf
                      cases hpf
                    · intro hs0 _
                      exact hnof hs0 hf1
                  · replace hpf :
                        (parseString inp opts
                          (s.withPos (skipWSPos inp opts s.pos))).2.fatal = false := by
                      simpa using hpf
                    rw [if_neg (by simp [hpf])] at h
                    refine stepInv_glue inp opts (.objLoop fields s) _ r (ih _ _ h) ?_ l ?_
                      (fun hsx => (hdis hsx hf1).2 hpf) hf1 ?_ ?_ id trivial
                    · simp only [Req.st_objLoop, Req.st_objMember]
                      omega
                    · simpa using hle
                    · simpa using hpf
                    · simpa using hN
                · rw [if_neg hq] at h
                  by_cases hid : isIdentStart c = true
                  · rw [if_pos hid] at h
                    simp only [parseUnquotedIdentifier] at h
                    simp only [St.withPos_pos] at h
                    have hie : skipWSPos inp opts s.pos ≤
                        identEnd inp inp.length (skipWSPos inp opts s.pos) :=
                      le_identEnd inp inp.length (skipWSPos inp opts s.pos)
                    by_cases hst : opts.strict = true
                    · rw [if_pos (by simp [hf1, hst])] at h
                      simp only [Option.some.injEq] at h
                      subst h
                      exact stepInv_loop_push_done inp opts (.objLoop fields s) _ _ _
                        (by simp only [Req.st_objLoop, St.withPos_pos]; omega)
                        (by simp) (by simp [hf1]) (by simp) hf1 ⟨fields, rfl⟩ trivial
                    · replace hst : opts.strict = false := by simpa using hst
                      rw [if_neg (by simp [hf1, hst])] at h
                      refine stepInv_glue inp opts (.objLoop fields s) _ r (ih _ _ h) ?_ _
                        (by simp only [Req.st_objLoop, Req.st_objMember, St.push_errors,
                          St.withPos_errors, St.withPos_pos]; rfl)
                        (fun hc => absurd hc (by simp [hst])) hf1 ?_ (by simp) id trivial
                      · simp only [Req.st_objLoop, Req.st_objMember, St.push_pos,
                          St.withPos_pos]
                        omega
                      · simp [hf1, hst]
                  · rw [if_neg hid] at h
                    by_cases hst : opts.strict = true
                    · rw [if_pos (by simp [hf1, hst])] at h
                      simp only [Option.some.injEq] at h
                      subst h
                      exact stepInv_loop_push_done inp opts (.objLoop fields s) _ _ _
                        (by simpa using hsP) (by simp) (by simp [hf1]) (by simp) hf1
                        ⟨fields, rfl⟩ trivial
                    · replace hst : opts.strict = false := by simpa using hst
                      rw [if_neg (by simp [hf1, hst])] at h
                      refine stepInv_glue inp opts (.objLoop fields s) _ r (ih _ _ h) ?_ _
                        (by simp only [Req.st_objLoop, St.withPos_errors, St.push_errors,
                          St.withPos_pos]; rfl)
                        (fun hc => absurd hc (by simp [hst])) hf1 ?_ (by simp) id trivial
                      · simp only [Req.st_objLoop, St.withPos_pos, St.push_pos]
                        omega
                      · simp [hf1, hst]

/-- The continuation of `objMember` after key sanitation, shared by the
clean and the sanitised entry paths. -/
theorem stepInv_objMember_tail (inp : List Char) (opts : Options) (n : Nat)
    (ih : ∀ req r, step inp opts n req = some r → StepInv inp opts req r)
    (fields : List (List Char × Value)) (key K : List Char) (s S : St) (r : Value × St)
    (hpos : s.pos ≤ S.pos)
    (l0 : List Diag) (hl0 : S.errors = s.errors ++ l0)
    (hl0s : opts.strict = true → l0 = [])
    (hf : s.fatal = false) (hfS : S.fatal = false)
    (hn : S.nestDepth = s.nestDepth)
    (h : (if chAt inp S.pos = some ':' then
            step inp opts n (.objValue fields K (S.withPos (S.pos + 1)))
          else
            let s1 := S.push opts ("Expected ':' after key \"" ++ String.mk K ++
              "\" at pos " ++ Nat.repr S.pos)
            if s1.fatal then some (.obj fields, s1) else
            if chAt inp s1.pos = some ',' || chAt inp s1.pos = some rbrace ||
                isEof inp s1.pos then
              step inp opts n (.objLoop (setKeyJs fields K .null) s1)
            else
              step inp opts n (.objValue fields K s1)) = some r) :
    StepInv inp opts (.objMember fields key s) r := by
  by_cases hcol : chAt inp S.pos = some ':'
  · rw [if_pos hcol] at h
    refine stepInv_glue inp opts (.objMember fields key s) _ r (ih _ _ h) ?_ l0
      (by simpa using hl0) hl0s hf (by simpa using hfS) (by simpa using hn) id trivial
    simp only [Req.st_objMember, Req.st_objValue, St.withPos_pos]
    omega
  · rw [if_neg hcol] at h
    dsimp only at h
    simp only [St.push_pos] at h
    by_cases hst : opts.strict = true
    · rw [if_pos (by simp [hfS, hst])] at h
      simp only [Option.some.injEq] at h
      subst h
      refine stepInv_of_parts inp opts (.objMember fields key s) _ _
        (by simp only [Req.st_objMember, St.push_pos]; omega)
        ⟨l0 ++ [(S.pos, "Expected ':' after key \"" ++ String.mk K ++
            "\" at pos " ++ Nat.repr S.pos)], by simp [hl0], ?_⟩
        ?_ ?_ ⟨fields, rfl⟩ trivial
      · intro hsx _
        rw [hl0s hsx, List.nil_append]
        exact ⟨fun _ => ⟨_, rfl⟩, fun hc => by simp [hfS, hsx] at hc⟩
      · intro hc
        simp [hfS, hst] at hc
      · intro hs0 _
        exact absurd hst (by simp [hs0])
    · replace hst : opts.strict = false := by simpa using hst
      rw [if_neg (by simp [hfS, hst])] at h
      by_cases hfol : (chAt inp S.pos = some ',' || chAt inp S.pos = some rbrace ||
          isEof inp S.pos) = true
      · rw [if_pos hfol] at h
        refine stepInv_glue inp opts (.objMember fields key s) _ r (ih _ _ h) ?_
          (l0 ++ [(S.pos, "Expected ':' after key \"" ++ String.mk K ++
            "\" at pos " ++ Nat.repr S.pos)])
          (by simp [hl0]) (fun hc => absurd hc (by simp [hst])) hf
          (by simp [hfS, hst]) (by simp [hn]) id trivial
        simp only [Req.st_objMember, Req.st_objLoop, St.push_pos]
        omega
      · rw [if_neg (by simpa using hfol)] at h
        refine stepInv_glue inp opts (.objMember fields key s) _ r (ih _ _ h) ?_
          (l0 ++ [(S.pos, "Expected ':' after key \"" ++ String.mk K ++
            "\" at pos " ++ Nat.repr S.pos)])
          (by simp [hl0]) (fun hc => absurd hc (by simp [hst])) hf
          (by simp [hfS, hst]) (by simp [hn]) id trivial
        simp only [Req.st_objMember, Req.st_objValue, St.push_pos]
        omega

/-- The key/colon reader preserves the step invariant. -/
theorem stepInv_objMember (inp : List Char) (opts : Options) (n : Nat)
    (ih : ∀ req r, step inp opts n req = some r → StepInv inp opts req r)
    (fields : List (List Char × Value)) (key : List Char) (s : St) (r : Value × St)
    (h : step inp opts (n+1) (.objMember fields key s) = some r) :
    StepInv inp opts (.objMember fields key s) r := by
  by_cases hf1 : s.fatal = true
  · rw [step, if_pos hf1] at h
    simp only [Option.some.injEq] at h
    subst h
    exact stepInv_fatal inp opts (.objMember fields key s) (.obj fields) ⟨fields, rfl⟩ hf1
  · replace hf1 : s.fatal = false := by simpa using hf1
    rw [step, if_neg (by simp [hf1])] at h
    dsimp only at h
    have hsP : s.pos ≤ skipWSPos inp opts s.pos := le_skipWSPos inp opts s.pos
    by_cases hk : key.head? = some ','
    · rw [if_pos hk] at h
      dsimp only at h
      by_cases hst : opts.strict = true
      · rw [if_pos (by simp [hf1, hst])] at h
        simp only [Option.some.injEq] at h
        subst h
        exact stepInv_loop_push_done inp opts (.objMember fields key s) _ _ _
          (by simpa using hsP) (by simp) (by simp [hf1]) (by simp) hf1
          ⟨fields, rfl⟩ trivial
      · replace hst : opts.strict = false := by simpa using hst
        rw [if_neg (by simp [hf1, hst])] at h
        refine stepInv_objMember_tail inp opts n ih fields key _ s _ r
          (by simpa using hsP) _
          (by simp only [St.push_errors, St.withPos_errors, St.withPos_pos]; rfl)
          (fun hc => absurd hc (by simp [hst])) hf1 (by simp [hf1, hst]) (by simp) h
    · rw [if_neg hk] at h
      dsimp only at h
      rw [if_neg (by simp [hf1])] at h
      exact stepInv_objMember_tail inp opts n ih fields key key s _ r
        (by simpa using hsP) [] (by simp) (fun _ => rfl) hf1 (by simp [hf1]) (by simp) h

/-- The member value reader preserves the step invariant. -/
theorem stepInv_objValue (inp : List Char) (opts : Options) (n : Nat)
    (ih : ∀ req r, step inp opts n req = some r → StepInv inp opts req r)
    (fields : List (List Char × Value)) (key : List Char) (s : St) (r : Value × St)
    (h : step inp opts (n+1) (.objValue fields key s) = some r) :
    StepInv inp opts (.objValue fields key s) r := by
  by_cases hf1 : s.fatal = true
  · rw [step, if_pos hf1] at h
    simp only [Option.some.injEq] at h
    subst h
    exact stepInv_fatal inp opts (.objValue fields key s) (.obj fields) ⟨fields, rfl⟩ hf1
  · replace hf1 : s.fatal = false := by simpa using hf1
    rw [step, if_neg (by simp [hf1])] at h
    dsimp only at h
    simp only [St.withPos_pos] at h
    have hsP : s.pos ≤ skipWSPos inp opts s.pos := le_skipWSPos inp opts s.pos
    by_cases heof : isEof inp (skipWSPos inp opts s.pos) = true
    · rw [if_pos heof] at h
      by_cases hst : opts.strict = true
      · rw [if_pos (by simp [hf1, hst])] at h
        simp only [Option.some.injEq] at h
        subst h
        exact stepInv_loop_push_done inp opts (.objValue fields key s) _ _ _
          (by simpa using hsP) (by simp) (by simp [hf1]) (by simp) hf1
          ⟨fields, rfl⟩ trivial
      · replace hst : opts.strict = false := by simpa using hst
        rw [if_neg (by simp [hf1, hst])] at h
        simp only [Option.some.injEq] at h
        subst h
        exact stepInv_loop_push_done inp opts (.objValue fields key s) _ _ _
          (by simpa using hsP) (by simp) (by simp [hf1]) (by simp) hf1
          ⟨setKeyJs fields key .null, rfl⟩ trivial
    · rw [if_neg (by simpa using heof)] at h
      split at h
      · cases h
      · rename_i v s1 heq
        have hsub := ih _ _ heq
        unfold StepInv at hsub
        obtain ⟨hA, ⟨lv, hle, hdis⟩, hC, hD, _, _⟩ := hsub
        simp only [Req.st_value, St.withPos_pos, St.withPos_errors, St.withPos_fatal,
          St.withPos_nestDepth] at hA hle hdis hC hD
        have hpos1 : s.pos ≤ s1.pos := Nat.le_trans hsP hA
        split at h
        · rename_i hft
          simp only [Option.some.injEq] at h
          subst h
          refine stepInv_of_parts inp opts (.objValue fields key s) _ s1
            (by simp only [Req.st_objValue]; omega)
            ⟨lv, hle, fun hsx _ => hdis hsx hf1⟩ ?_ ?_ ⟨fields, rfl⟩ trivial
          · intro hc
            rw [hc] at hft
            cases hft
          · intro hs0 _
            exact hD hs0 hf1
        · rename_i hff
          replace hff : s1.fatal = false := by simpa using hff
          obtain ⟨_, hnest⟩ := hC hff
          have hsP2 : s1.pos ≤ skipWSPos inp opts s1.pos := le_skipWSPos inp opts s1.pos
          by_cases h2c : chAt inp (skipWSPos inp opts s1.pos) = some ','
          · rw [if_pos h2c] at h
            refine stepInv_glue inp opts (.objValue fields key s) _ r (ih _ _ h) ?_ lv
              (by simpa using hle) (fun hsx => (hdis hsx hf1).2 hff) hf1
              (by simpa using hff) (by simpa using hnest) id trivial
            simp only [Req.st_objValue, Req.st_objLoop, St.withPos_pos]
            omega
          · rw [if_neg h2c] at h
            by_cases h2b : chAt inp (skipWSPos inp opts s1.pos) = some rbrace
            · rw [if_pos h2b] at h
              refine stepInv_glue inp opts (.objValue fields key s) _ r (ih _ _ h) ?_ lv
                (by simpa using hle) (fun hsx => (hdis hsx hf1).2 hff) hf1
                (by simpa using hff) (by simpa using hnest) id trivial
              simp only [Req.st_objValue, Req.st_objLoop, St.withPos_pos]
              omega
            · rw [if_neg h2b] at h
              by_cases h2e : isEof inp (skipWSPos inp opts s1.pos) = true
              · rw [if_pos h2e] at h
                simp only [Option.some.injEq] at h
                subst h
                refine stepInv_of_parts inp opts (.objValue fields key s) _ _
                  (by simp only [Req.st_objValue, St.withPos_pos]; omega)
                  ⟨lv, by simpa using hle, ?_⟩ ?_ ?_ ⟨_, rfl⟩ trivial
                · intro hsx _
                  exact ⟨fun hc => by simp [hff] at hc, fun _ => (hdis hsx hf1).2 hff⟩
                · intro _
                  exact ⟨hf1, by simp [hnest]⟩
                · intro _ _
                  simp [hff]
              · rw [if_neg (by simpa using h2e)] at h
                by_cases hst : opts.strict = true
                · rw [if_pos (by simp [hff, hst])] at h
                  simp only [Option.some.injEq] at h
                  subst h
                  refine stepInv_of_parts inp opts (.objValue fields key s) _ _
                    (by simp only [Req.st_objValue, St.push_pos, St.withPos_pos]; omega)
                    ⟨lv ++ [(skipWSPos inp opts s1.pos,
                        "Expected ',' or '\x7d' at pos " ++
                          Nat.repr (skipWSPos inp opts s1.pos) ++ ", continuing")],
                      by simp [hle], ?_⟩
                    ?_ ?_ ⟨_, rfl⟩ trivial
                  · intro hsx _
                    rw [(hdis hsx hf1).2 hff, List.nil_append]
                    exact ⟨fun _ => ⟨_, rfl⟩, fun hc => by simp [hff, hsx] at hc⟩
                  · intro hc
                    simp [hff, hst] at hc
                  · intro hs0 _
                    exact absurd hst (by simp [hs0])
                · replace hst : opts.strict = false := by simpa using hst
                  rw [if_neg (by simp [hff, hst])] at h
                  refine stepInv_glue inp opts (.objValue fields key s) _ r (ih _ _ h) ?_
                    (lv ++ [(skipWSPos inp opts s1.pos,
                      "Expected ',' or '\x7d' at pos " ++
                        Nat.repr (skipWSPos inp opts s1.pos) ++ ", continuing")])
                    (by simp [hle]) (fun hc => absurd hc (by simp [hst])) hf1
                    (by simp [hff, hst]) (by simp [hnest]) id trivial
                  simp only [Req.st_objValue, Req.st_objLoop, St.push_pos, St.withPos_pos]
                  omega

/-- The array element loop preserves the step invariant. -/
theorem stepInv_arrLoop (inp : List Char) (opts : Options) (n : Nat)
    (ih : ∀ req r, step inp opts n req = some r → StepInv inp opts req r)
    (elems : List Value) (s : St) (r : Value × St)
    (h : step inp opts (n+1) (.arrLoop elems s) = some r) :
    StepInv inp opts (.arrLoop elems s) r := by
  by_cases hf1 : s.fatal = true
  · rw [step, if_pos hf1] at h
    simp only [Option.some.injEq] at h
    subst h
    exact stepInv_fatal inp opts (.arrLoop elems s) (.arr elems) ⟨elems, rfl⟩ hf1
  · replace hf1 : s.fatal = false := by simpa using hf1
    rw [step, if_neg (by simp [hf1])] at h
    have hsP : s.pos ≤ skipWSPos inp opts s.pos := le_skipWSPos inp opts s.pos
    cases hc0 : chAt inp s.pos with
    | none =>
      rw [hc0] at h
      dsimp only at h
      simp only [Option.some.injEq] at h
      subst h
      exact stepInv_loop_same_done inp opts (.arrLoop elems s) _ s (Nat.le_refl _)
        rfl rfl rfl hf1 ⟨elems, rfl⟩ trivial
    | some c0 =>
      rw [hc0] at h
      dsimp only at h
      by_cases hcb : c0 = ']'
      · rw [if_pos hcb] at h
        simp only [Option.some.injEq] at h
        subst h
        exact stepInv_loop_same_done inp opts (.arrLoop elems s) _ s (Nat.le_refl _)
          rfl rfl rfl hf1 ⟨elems, rfl⟩ trivial
      · rw [if_neg hcb] at h
        simp only [St.withPos_pos] at h
        cases hcw : chAt inp (skipWSPos inp opts s.pos) with
        | none =>
          rw [hcw] at h
          dsimp only at h
          simp only [Option.some.injEq] at h
          subst h
          exact stepInv_loop_same_done inp opts (.arrLoop elems s) _ _ (by simpa using hsP)
            rfl rfl rfl hf1 ⟨elems, rfl⟩ trivial
        | some c =>
          rw [hcw] at h
          dsimp only at h
          by_cases hcc : c = ','
          · rw [if_pos hcc] at h
            refine stepInv_glue inp opts (.arrLoop elems s) _ r (ih _ _ h) ?_ [] (by simp)
              (fun _ => rfl) hf1 (by simpa using hf1) (by simp) id trivial
            simp only [Req.st_arrLoop, St.withPos_pos]
            exact Nat.le_trans hsP (Nat.le_trans (Nat.le_succ _)
              (le_skipWSPos inp opts (skipWSPos inp opts s.pos + 1)))
          · rw [if_neg hcc] at h
            by_cases hcr : c = ']'
            · rw [if_pos hcr] at h
              simp only [Option.some.injEq] at h
              subst h
              exact stepInv_loop_same_done inp opts (.arrLoop elems s) _ _
                (by simpa using hsP) rfl rfl rfl hf1 ⟨elems, rfl⟩ trivial
            · rw [if_neg hcr] at h
              by_cases hcbr : c = rbrace
              · rw [if_pos hcbr] at h
                by_cases hst : opts.strict = true
                · rw [if_pos (by simp [hf1, hst])] at h
                  simp only [Option.some.injEq] at h
                  subst h
                  exact stepInv_loop_push_done inp opts (.arrLoop elems s) _ _ _
                    (by simpa using hsP) (by simp) (by simp [hf1]) (by simp) hf1
                    ⟨elems, rfl⟩ trivial
                · replace hst : opts.strict = false := by simpa using hst
                  rw [if_neg (by simp [hf1, hst])] at h
                  refine stepInv_glue inp opts (.arrLoop elems s) _ r (ih _ _ h) ?_ _
                    (by simp only [Req.st_arrLoop, St.withPos_errors, St.push_errors,
                      St.withPos_pos]; rfl)
                    (fun hc => absurd hc (by simp [hst])) hf1 ?_ (by simp) id trivial
                  · simp only [Req.st_arrLoop, St.withPos_pos, St.push_pos]
                    omega
                  · simp [hf1, hst]
              · rw [if_neg hcbr] at h
                by_cases hkv : looksLikeKeyValueAhead inp (skipWSPos inp opts s.pos) = true
                · rw [if_pos hkv] at h
                  simp only [Option.some.injEq] at h
                  subst h
                  exact stepInv_loop_push_done inp opts (.arrLoop elems s) _ _ _
                    (by simpa using hsP) (by simp) (by simp [hf1]) (by simp) hf1
                    ⟨elems, rfl⟩ trivial
                · rw [if_neg (by simpa using hkv)] at h
                  split at h
                  · cases h
                  · rename_i v s1 heq
                    have hsub := ih _ _ heq
                    unfold StepInv at hsub
                    obtain ⟨hA, ⟨lv, hle, hdis⟩, hC, hD, _, _⟩ := hsub
                    simp only [Req.st_value, St.withPos_pos, St.withPos_errors,
                      St.withPos_fatal, St.withPos_nestDepth] at hA hle hdis hC hD
                    have hpos1 : s.pos ≤ s1.pos := Nat.le_trans hsP hA
                    split at h
                    · rename_i hft
                      simp only [Option.some.injEq] at h
                      subst h
                      refine stepInv_of_parts inp opts (.arrLoop elems s) _ s1
                        (by simp only [Req.st_arrLoop]; omega)
                        ⟨lv, hle, fun hsx _ => hdis hsx hf1⟩ ?_ ?_ ⟨elems, rfl⟩ trivial
                      · intro hc
                        rw [hc] at hft
                        cases hft
                      · intro hs0 _
                        exact hD hs0 hf1
                    · rename_i hff
                      replace hff : s1.fatal = false := by simpa using hff
                      obtain ⟨_, hnest⟩ := hC hff
                      have hsP2 : s1.pos ≤ skipWSPos inp opts s1.pos :=
                        le_skipWSPos inp opts s1.pos
                      by_cases h2c : chAt inp (skipWSPos inp opts s1.pos) = some ','
                      · rw [if_pos h2c] at h
                        refine stepInv_glue inp opts (.arrLoop elems s) _ r (ih _ _ h) ?_ lv
                          (by simpa using hle) (fun hsx => (hdis hsx hf1).2 hff) hf1
                          (by simpa using hff) (by simpa using hnest) id trivial
                        simp only [Req.st_arrLoop, St.withPos_pos]
                        omega
                      · rw [if_neg h2c] at h
                        by_cases h2b : chAt inp (skipWSPos inp opts s1.pos) = some ']'
                        · rw [if_pos h2b] at h
                          refine stepInv_glue inp opts (.arrLoop elems s) _ r (ih _ _ h) ?_ lv
                            (by simpa using hle) (fun hsx => (hdis hsx hf1).2 hff) hf1
                            (by simpa using hff) (by simpa using hnest) id trivial
                          simp only [Req.st_arrLoop, St.withPos_pos]
                          omega
                        · rw [if_neg h2b] at h
                          by_cases h2e : isEof inp (skipWSPos inp opts s1.pos) = true
                          · rw [if_pos h2e] at h
                            simp only [Option.some.injEq] at h
                            subst h
                            refine stepInv_of_parts inp opts (.arrLoop elems s) _ _
                              (by simp only [Req.st_arrLoop, St.withPos_pos]; omega)
                              ⟨lv, by simpa using hle, ?_⟩ ?_ ?_ ⟨_, rfl⟩ trivial
                            · intro hsx _
                              exact ⟨fun hc => by simp [hff] at hc,
                                fun _ => (hdis hsx hf1).2 hff⟩
                            · intro _
                              exact ⟨hf1, by simp [hnest]⟩
                            · intro _ _
                              simp [hff]
                          · rw [if_neg (by simpa using h2e)] at h
                            by_cases hst : opts.strict = true
                            · rw [if_pos (by simp [hff, hst])] at h
                              simp only [Option.some.injEq] at h
                              subst h
                              refine stepInv_of_parts inp opts (.arrLoop elems s) _ _
                                (by simp only [Req.st_arrLoop, St.push_pos,
                                  St.withPos_pos]; omega)
                                ⟨lv ++ [(skipWSPos inp opts s1.pos,
                                    "Expected ',' or ']' at pos " ++
                                      Nat.repr (skipWSPos inp opts s1.pos) ++ ", continuing")],
                                  by simp [hle], ?_⟩
                                ?_ ?_ ⟨_, rfl⟩ trivial
                              · intro hsx _
                                rw [(hdis hsx hf1).2 hff, List.nil_append]
                                exact ⟨fun _ => ⟨_, rfl⟩, fun hc => by simp [hff, hsx] at hc⟩
                              · intro hc
                                simp [hff, hst] at hc
                              · intro hs0 _
                                exact absurd hst (by simp [hs0])
                            · replace hst : opts.strict = false := by simpa using hst
                              rw [if_neg (by simp [hff, hst])] at h
                              refine stepInv_glue inp opts (.arrLoop elems s) _ r
                                (ih _ _ h) ?_
                                (lv ++ [(skipWSPos inp opts s1.pos,
                                  "Expected ',' or ']' at pos " ++
                                    Nat.repr (skipWSPos inp opts s1.pos) ++ ", continuing")])
                                (by simp [hle]) (fun hc => absurd hc (by simp [hst])) hf1
                                (by simp [hff, hst]) (by simp [hnest]) id trivial
                              simp only [Req.st_arrLoop, St.push_pos, St.withPos_pos]
                              omega

/-- The step invariant holds of every successful run: positions are
monotone, the log append-only with the strict-mode discipline, the fatal
flag monotone and absent without strict mode, container depths restored,
loop results container-shaped, and containers always consume input. -/
theorem step_evolve (inp : List Char) (opts : Options) :
    ∀ (f : Nat) (req : Req) (r : Value × St),
    step inp opts f req = some r → StepInv inp opts req r := by
  intro f
  induction f with
  | zero =>
    intro req r h
    rw [step] at h
    cases h
  | succ n ih =>
    intro req r h
    cases req with
    | value s => exact stepInv_value inp opts n ih s r h
    | object s => exact stepInv_object inp opts n ih s r h
    | array s => exact stepInv_array inp opts n ih s r h
    | objLoop fields s => exact stepInv_objLoop inp opts n ih fields s r h
    | objMember fields key s => exact stepInv_objMember inp opts n ih fields key s r h
    | objValue fields key s => exact stepInv_objValue inp opts n ih fields key s r h
    | arrLoop elems s => exact stepInv_arrLoop inp opts n ih elems s r h

theorem le_of_chAt_none {inp : List Char} {p : Nat} (h : chAt inp p = none) :
    inp.length ≤ p := by
  have := List.get?_eq_none.mp h
  exact this

theorem isWordChar_of_identStart {c : Char} (h : isIdentStart c = true) :
    isWordChar c = true := by
  simp only [isIdentStart, Bool.or_eq_true, Bool.and_eq_true, decide_eq_true_eq] at h
  simp only [isWordChar, Bool.or_eq_true, Bool.and_eq_true, decide_eq_true_eq]
  tauto

/-- The whitespace scan is a no-op past EOF. -/
theorem skipWSAux_eof (inp : List Char) (opts : Options) (f p : Nat)
    (hp : inp.length ≤ p) : skipWSAux inp opts f p = p := by
  cases f with
  | zero => rfl
  | succ n =>
    rw [skipWSAux, chAt_none_of_le hp]

/-- The whitespace scan is a no-op on a position whose character neither is
whitespace nor opens a comment. -/
theorem skipWSAux_stable_here (inp : List Char) (opts : Options) {p : Nat} {c : Char}
    (hc : chAt inp p = some c) (hw : isJsWs c = false)
    (hl : (opts.allowComments && c = '/' && chAt inp (p+1) = some '/') = false)
    (hb : (opts.allowComments && c = '/' && chAt inp (p+1) = some '*') = false) :
    ∀ f, skipWSAux inp opts f p = p := by
  intro f
  cases f with
  | zero => rfl
  | succ n =>
    rw [skipWSAux, hc]
    dsimp only
    rw [if_neg (by simp [hw]), if_neg (by simp [hl]), if_neg (by simp [hb])]

/-- The whitespace scan is idempotent. -/
theorem skipWSPos_idem (inp : List Char) (opts : Options) :
    ∀ (f p : Nat), inp.length - p ≤ f →
    skipWSPos inp opts (skipWSAux inp opts f p) = skipWSAux inp opts f p := by
  intro f
  induction f with
  | zero =>
    intro p hb
    have hp : inp.length ≤ p := by omega
    rw [skipWSAux_eof inp opts 0 p hp]
    exact skipWSAux_eof inp opts inp.length p hp
  | succ n ih =>
    intro p hb
    rw [skipWSAux]
    cases hc : chAt inp p with
    | none =>
      exact skipWSAux_eof inp opts inp.length p (le_of_chAt_none hc)
    | some c =>
      dsimp only
      by_cases hw : isJsWs c = true
      · rw [if_pos hw]
        have := le_of_chAt_some hc
        exact ih (p+1) (by omega)
      · replace hw : isJsWs c = false := by simpa using hw
        rw [if_neg (by simp [hw])]
        by_cases hl : (opts.allowComments && c = '/' && chAt inp (p+1) = some '/') = true
        · rw [if_pos hl]
          have h2 := le_lineEnd inp inp.length (p+2)
          exact ih _ (by omega)
        · replace hl : (opts.allowComments && c = '/' && chAt inp (p+1) = some '/') = false := by
            simpa using hl
          rw [if_neg (by simp [hl])]
          by_cases hbk : (opts.allowComments && c = '/' && chAt inp (p+1) = some '*') = true
          · rw [if_pos hbk]
            have h2 := le_blockEnd inp inp.length (p+2)
            exact ih _ (by omega)
          · replace hbk :
                (opts.allowComments && c = '/' && chAt inp (p+1) = some '*') = false := by
              simpa using hbk
            rw [if_neg (by simp [hbk])]
            exact skipWSAux_stable_here inp opts hc hw hl hbk inp.length

/-- `skipWS` twice is `skipWS` once. -/
theorem skipWSPos_skipWSPos (inp : List Char) (opts : Options) (p : Nat) :
    skipWSPos inp opts (skipWSPos inp opts p) = skipWSPos inp opts p :=
  skipWSPos_idem inp opts inp.length p (Nat.sub_le _ _)

/-- Fuel sufficiency for the shared `objMember` continuation. -/
theorem step_tail_objMember_suffices (inp : List Char) (opts : Options) (n : Nat)
    (ih : ∀ req, Req.need inp req ≤ n → Req.ok inp req → (step inp opts n req).isSome = true)
    (fields : List (List Char × Value)) (K : List Char) (S : St)
    (hb : 6 * (inp.length + 1 - S.pos) + 5 ≤ n + 1) :
    (if chAt inp S.pos = some ':' then
        step inp opts n (.objValue fields K (S.withPos (S.pos + 1)))
      else
        let s1 := S.push opts ("Expected ':' after key \"" ++ String.mk K ++
          "\" at pos " ++ Nat.repr S.pos)
        if s1.fatal then some (.obj fields, s1) else
        if chAt inp s1.pos = some ',' || chAt inp s1.pos = some rbrace ||
            isEof inp s1.pos then
          step inp opts n (.objLoop (setKeyJs fields K .null) s1)
        else
          step inp opts n (.objValue fields K s1)).isSome = true := by
  by_cases hcol : chAt inp S.pos = some ':'
  · rw [if_pos hcol]
    have hSl := le_of_chAt_some hcol
    refine ih _ ?_ trivial
    simp only [Req.need, Req.rank, Req.st_objValue, St.withPos_pos]
    omega
  · rw [if_neg hcol]
    dsimp only
    split
    · rfl
    · split
      · refine ih _ ?_ trivial
        simp only [Req.need, Req.rank, Req.st_objLoop, St.push_pos]
        omega
      · refine ih _ ?_ trivial
        simp only [Req.need, Req.rank, Req.st_objValue, St.push_pos]
        omega

set_option maxHeartbeats 1000000 in
/-- Fuel sufficiency: a request with at least `Req.need` fuel returns. -/
theorem step_suffices (inp : List Char) (opts : Options) :
    ∀ (f : Nat) (req : Req), Req.need inp req ≤ f → Req.ok inp req →
    (step inp opts f req).isSome = true := by
  intro f
  induction f with
  | zero =>
    intro req hne _
    exact absurd hne (by cases req <;> simp [Req.need, Req.rank])
  | succ n ih =>
    intro req hne hok
    cases req with
    | value s =>
      simp only [Req.need, Req.rank, Req.st_value] at hne
      by_cases hf1 : s.fatal = true
      · rw [stepv_eq_fatal inp opts n s hf1]
        rfl
      · replace hf1 : s.fatal = false := by simpa using hf1
        have hsP : s.pos ≤ skipWSPos inp opts s.pos := le_skipWSPos inp opts s.pos
        cases hch : chAt inp (skipWSPos inp opts s.pos) with
        | none =>
          rw [stepv_eq_eof inp opts n s hf1 hch]
          rfl
        | some c =>
          have hPl : skipWSPos inp opts s.pos < inp.length := le_of_chAt_some hch
          by_cases h1 : c = lbrace
          · rw [stepv_eq_object inp opts n s hf1 hch h1]
            refine ih _ ?_ (by simpa using hPl)
            simp only [Req.need, Req.rank, Req.st_object, St.withPos_pos]
            omega
          · by_cases h2 : c = '['
            · rw [stepv_eq_array inp opts n s hf1 hch h1 h2]
              refine ih _ ?_ (by simpa using hPl)
              simp only [Req.need, Req.rank, Req.st_array, St.withPos_pos]
              omega
            · by_cases h3 : (c = '"' || c = '\'') = true
              · rw [stepv_eq_string inp opts n s hf1 hch h1 h2 h3]
                rfl
              · replace h3 : (c = '"' || c = '\'') = false := by simpa using h3
                by_cases h4 : (c = '-' || isDigit c) = true
                · rw [stepv_eq_number inp opts n s hf1 hch h1 h2 h3 h4]
                  rfl
                · replace h4 : (c = '-' || isDigit c) = false := by simpa using h4
                  by_cases h5 : matchWord inp (skipWSPos inp opts s.pos) wTrue = true
                  · rw [stepv_eq_true inp opts n s hf1 hch h1 h2 h3 h4 h5]
                    rfl
                  · replace h5 : matchWord inp (skipWSPos inp opts s.pos) wTrue = false := by
                      simpa using h5
                    by_cases h6 : matchWord inp (skipWSPos inp opts s.pos) wFalse = true
                    · rw [stepv_eq_false inp opts n s hf1 hch h1 h2 h3 h4 h5 h6]
                      rfl
                    · replace h6 : matchWord inp (skipWSPos inp opts s.pos) wFalse = false := by
                        simpa using h6
                      by_cases h7 : matchWord inp (skipWSPos inp opts s.pos) wNull = true
                      · rw [stepv_eq_null inp opts n s hf1 hch h1 h2 h3 h4 h5 h6 h7]
                        rfl
                      · replace h7 : matchWord inp (skipWSPos inp opts s.pos) wNull = false := by
                          simpa using h7
                        by_cases h8 : (opts.convertPythonTokens &&
                            matchWord inp (skipWSPos inp opts s.pos) wPyTrue) = true
                        · rw [stepv_eq_pytrue inp opts n s hf1 hch h1 h2 h3 h4 h5 h6 h7 h8]
                          rfl
                        · replace h8 : (opts.convertPythonTokens &&
                              matchWord inp (skipWSPos inp opts s.pos) wPyTrue) = false := by
                            simpa using h8
                          by_cases h9 : (opts.convertPythonTokens &&
                              matchWord inp (skipWSPos inp opts s.pos) wPyFalse) = true
                          · rw [stepv_eq_pyfalse inp opts n s hf1 hch h1 h2 h3 h4 h5 h6 h7 h8 h9]
                            rfl
                          · replace h9 : (opts.convertPythonTokens &&
                                matchWord inp (skipWSPos inp opts s.pos) wPyFalse) = false := by
                              simpa using h9
                            by_cases h10 : (opts.convertPythonTokens &&
                                matchWord inp (skipWSPos inp opts s.pos) wPyNone) = true
                            · rw [stepv_eq_pynone inp opts n s hf1 hch h1 h2 h3 h4 h5 h6 h7 h8
                                h9 h10]
                              rfl
                            · replace h10 : (opts.convertPythonTokens &&
                                  matchWord inp (skipWSPos inp opts s.pos) wPyNone) = false := by
                                simpa using h10
                              by_cases h11 : (opts.convertUndefined &&
                                  matchWord inp (skipWSPos inp opts s.pos) wUndefined) = true
                              · rw [stepv_eq_undefined inp opts n s hf1 hch h1 h2 h3 h4 h5 h6 h7
                                  h8 h9 h10 h11]
                                rfl
                              · replace h11 : (opts.convertUndefined &&
                                    matchWord inp (skipWSPos inp opts s.pos) wUndefined)
                                      = false := by
                                  simpa using h11
                                by_cases h12 :
                                    matchWord inp (skipWSPos inp opts s.pos) wNaN = true
                                · rw [stepv_eq_nan inp opts n s hf1 hch h1 h2 h3 h4 h5 h6 h7 h8
                                    h9 h10 h11 h12]
                                  rfl
                                · replace h12 :
                                      matchWord inp (skipWSPos inp opts s.pos) wNaN = false := by
                                    simpa using h12
                                  by_cases h13 :
                                      matchWord inp (skipWSPos inp opts s.pos) wInfinity = true
                                  · rw [stepv_eq_infinity inp opts n s hf1 hch h1 h2 h3 h4 h5 h6
                                      h7 h8 h9 h10 h11 h12 h13]
                                    rfl
                                  · replace h13 : matchWord inp (skipWSPos inp opts s.pos)
                                        wInfinity = false := by
                                      simpa using h13
                                    by_cases h14 : (c = rbrace || c = ']') = true
                                    · rw [stepv_eq_closer inp opts n s hf1 hch h1 h2 h3 h4 h5 h6
                                        h7 h8 h9 h10 h11 h12 h13 h14]
                                      rfl
                                    · replace h14 : (c = rbrace || c = ']') = false := by
                                        simpa using h14
                                      have hrec : (step inp opts n (.value ((((s.withPos
                                          (skipWSPos inp opts s.pos)).push opts
                                          (strayMsg c (skipWSPos inp opts s.pos))).withPos
                                          (skipWSPos inp opts s.pos + 1)).withDepth
                                          (s.depth + 1)))).isSome = true := by
                                        refine ih _ ?_ trivial
                                        simp only [Req.need, Req.rank, Req.st_value,
                                          St.withDepth_pos, St.withPos_pos]
                                        omega
                                      have hrec2 : (step inp opts n (.value ((((s.withPos
                                          (skipWSPos inp opts s.pos)).push opts
                                          (unexpectedCharMsg c (skipWSPos inp opts
                                          s.pos))).withPos
                                          (skipWSPos inp opts s.pos + 1)).withDepth
                                          (s.depth + 1)))).isSome = true := by
                                        refine ih _ ?_ trivial
                                        simp only [Req.need, Req.rank, Req.st_value,
                                          St.withDepth_pos, St.withPos_pos]
                                        omega
                                      by_cases h15 : (c = ',' || c = ':') = true
                                      · rw [stepv_eq_stray inp opts n s hf1 hch h1 h2 h3 h4 h5
                                          h6 h7 h8 h9 h10 h11 h12 h13 h14 h15]
                                        split
                                        · rfl
                                        · split
                                          · rfl
                                          · obtain ⟨pr, hpr⟩ :=
                                              Option.isSome_iff_exists.mp hrec
                                            obtain ⟨rv, s3⟩ := pr
                                            rw [hpr]
                                            rfl
                                      · replace h15 : (c = ',' || c = ':') = false := by
                                          simpa using h15
                                        rw [stepv_eq_unknown inp opts n s hf1 hch h1 h2 h3 h4 h5
                                          h6 h7 h8 h9 h10 h11 h12 h13 h14 h15]
                                        split
                                        · rfl
                                        · split
                                          · rfl
                                          · obtain ⟨pr, hpr⟩ :=
                                              Option.isSome_iff_exists.mp hrec2
                                            obtain ⟨rv, s3⟩ := pr
                                            rw [hpr]
                                            rfl
    | object s =>
      simp only [Req.need, Req.rank, Req.st_object] at hne
      have hok2 : s.pos < inp.length := hok
      by_cases hf1 : s.fatal = true
      · rw [step, if_pos hf1]
        rfl
      · replace hf1 : s.fatal = false := by simpa using hf1
        rw [step, if_neg (by simp [hf1])]
        dsimp only
        split
        · split
          · rfl
          · rfl
        · have hT : s.pos + 1 ≤ skipWSPos inp opts (s.pos + 1) :=
            le_skipWSPos inp opts (s.pos + 1)
          have hin : (step inp opts n (.objLoop []
              (((s.withNest (s.nestDepth + 1)).withPos (s.pos + 1)).withPos
                (skipWSPos inp opts (s.pos + 1))))).isSome = true := by
            refine ih _ ?_ trivial
            simp only [Req.need, Req.rank, Req.st_objLoop, St.withPos_pos]
            omega
          obtain ⟨pr, hpr⟩ := Option.isSome_iff_exists.mp hin
          obtain ⟨v, s1⟩ := pr
          simp only [St.withPos_pos, St.withNest_pos] at hpr ⊢
          rw [hpr]
          dsimp only
          split
          · rfl
          · have hS := (step_evolve inp opts n _ _ hpr).2.2.2.2.1
            obtain ⟨fs, rfl⟩ := hS
            dsimp only
            split
            · rfl
            · rfl
    | array s =>
      simp only [Req.need, Req.rank, Req.st_array] at hne
      have hok2 : s.pos < inp.length := hok
      by_cases hf1 : s.fatal = true
      · rw [step, if_pos hf1]
        rfl
      · replace hf1 : s.fatal = false := by simpa using hf1
        rw [step, if_neg (by simp [hf1])]
        dsimp only
        split
        · split
          · rfl
          · rfl
        · have hT : s.pos + 1 ≤ skipWSPos inp opts (s.pos + 1) :=
            le_skipWSPos inp opts (s.pos + 1)
          have hin : (step inp opts n (.arrLoop []
              (((s.withNest (s.nestDepth + 1)).withPos (s.pos + 1)).withPos
                (skipWSPos inp opts (s.pos + 1))))).isSome = true := by
            refine ih _ ?_ trivial
            simp only [Req.need, Req.rank, Req.st_arrLoop, St.withPos_pos]
            omega
          obtain ⟨pr, hpr⟩ := Option.isSome_iff_exists.mp hin
          obtain ⟨v, s1⟩ := pr
          simp only [St.withPos_pos, St.withNest_pos] at hpr ⊢
          rw [hpr]
          dsimp only
          split
          · rfl
          · have hS := (step_evolve inp opts n _ _ hpr).2.2.2.2.1
            obtain ⟨es, rfl⟩ := hS
            dsimp only
            split
            · rfl
            · rfl
    | objLoop fields s =>
      simp only [Req.need, Req.rank, Req.st_objLoop] at hne
      by_cases hf1 : s.fatal = true
      · rw [step, if_pos hf1]
        rfl
      · replace hf1 : s.fatal = false := by simpa using hf1
        rw [step, if_neg (by simp [hf1])]
        have hsP : s.pos ≤ skipWSPos inp opts s.pos := le_skipWSPos inp opts s.pos
        cases hc0 : chAt inp s.pos with
        | none => rfl
        | some c0 =>
          dsimp only
          split
          · rfl
          · simp only [St.withPos_pos]
            cases hcw : chAt inp (skipWSPos inp opts s.pos) with
            | none => rfl
            | some c =>
              dsimp only
              have hPl : skipWSPos inp opts s.pos < inp.length := le_of_chAt_some hcw
              split
              · refine ih _ ?_ trivial
                simp only [Req.need, Req.rank, Req.st_objLoop, St.withPos_pos]
                have := le_skipWSPos inp opts (skipWSPos inp opts s.pos + 1)
                omega
              · split
                · rfl
                · split
                  · split
                    · rfl
                    · refine ih _ ?_ trivial
                      simp only [Req.need, Req.rank, Req.st_objLoop, St.withPos_pos,
                        St.push_pos]
                      omega
                  · split
                    · have hstr : skipWSPos inp opts s.pos + 1 ≤
                          (parseString inp opts
                            (s.withPos (skipWSPos inp opts s.pos))).2.pos := by
                        rw [parseString]
                        have := le_parseStringGo inp opts
                          ((chAt inp (s.withPos (skipWSPos inp opts s.pos)).pos).getD '"')
                          (inp.length + 1) []
                          ((s.withPos (skipWSPos inp opts s.pos)).withPos
                            ((s.withPos (skipWSPos inp opts s.pos)).pos + 1))
                        simpa using this
                      split
                      · rfl
                      · refine ih _ ?_ trivial
                        simp only [Req.need, Req.rank, Req.st_objMember]
                        omega
                    · split
                      · rename_i hident
                        simp only [parseUnquotedIdentifier]
                        simp only [St.withPos_pos]
                        have hadv : skipWSPos inp opts s.pos + 1 ≤
                            identEnd inp inp.length (skipWSPos inp opts s.pos) :=
                          identEnd_advance inp (Nat.sub_le _ _) hcw
                            (isWordChar_of_identStart hident)
                        split
                        · rfl
                        · refine ih _ ?_ trivial
                          simp only [Req.need, Req.rank, Req.st_objMember, St.push_pos,
                            St.withPos_pos]
                          omega
                      · split
                        · rfl
                        · refine ih _ ?_ trivial
                          simp only [Req.need, Req.rank, Req.st_objLoop, St.withPos_pos,
                            St.push_pos]
                          omega
    | objMember fields key s =>
      simp only [Req.need, Req.rank, Req.st_objMember] at hne
      by_cases hf1 : s.fatal = true
      · rw [step, if_pos hf1]
        rfl
      · replace hf1 : s.fatal = false := by simpa using hf1
        rw [step, if_neg (by simp [hf1])]
        dsimp only
        have hsP : s.pos ≤ skipWSPos inp opts s.pos := le_skipWSPos inp opts s.pos
        split
        · dsimp only
          split
          · rfl
          · refine step_tail_objMember_suffices inp opts n ih _ _ _ ?_
            simp only [St.push_pos, St.withPos_pos]
            omega
        · dsimp only
          split
          · rfl
          · refine step_tail_objMember_suffices inp opts n ih _ _ _ ?_
            simp only [St.withPos_pos]
            omega
    | objValue fields key s =>
      simp only [Req.need, Req.rank, Req.st_objValue] at hne
      by_cases hf1 : s.fatal = true
      · rw [step, if_pos hf1]
        rfl
      · replace hf1 : s.fatal = false := by simpa using hf1
        rw [step, if_neg (by simp [hf1])]
        dsimp only
        simp only [St.withPos_pos]
        have hsP : s.pos ≤ skipWSPos inp opts s.pos := le_skipWSPos inp opts s.pos
        split
        · split
          · rfl
          · rfl
        · have hin : (step inp opts n
              (.value (s.withPos (skipWSPos inp opts s.pos)))).isSome = true := by
            refine ih _ ?_ trivial
            simp only [Req.need, Req.rank, Req.st_value, St.withPos_pos]
            omega
          obtain ⟨pr, hpr⟩ := Option.isSome_iff_exists.mp hin
          obtain ⟨v, s1⟩ := pr
          rw [hpr]
          dsimp only
          split
          · rfl
          · have hA := (step_evolve inp opts n _ _ hpr).1
            simp only [Req.st_value, St.withPos_pos] at hA
            have hsP2 : s1.pos ≤ skipWSPos inp opts s1.pos := le_skipWSPos inp opts s1.pos
            by_cases h2c : chAt inp (skipWSPos inp opts s1.pos) = some ','
            · rw [if_pos h2c]
              have hP2l := le_of_chAt_some h2c
              refine ih _ ?_ trivial
              simp only [Req.need, Req.rank, Req.st_objLoop, St.withPos_pos]
              omega
            · rw [if_neg h2c]
              split
              · refine ih _ ?_ trivial
                simp only [Req.need, Req.rank, Req.st_objLoop, St.withPos_pos]
                omega
              · split
                · rfl
                · split
                  · rfl
                  · refine ih _ ?_ trivial
                    simp only [Req.need, Req.rank, Req.st_objLoop, St.push_pos,
                      St.withPos_pos]
                    omega
    | arrLoop elems s =>
      simp only [Req.need, Req.rank, Req.st_arrLoop] at hne
      by_cases hf1 : s.fatal = true
      · rw [step, if_pos hf1]
        rfl
      · replace hf1 : s.fatal = false := by simpa using hf1
        rw [step, if_neg (by simp [hf1])]
        have hsP : s.pos ≤ skipWSPos inp opts s.pos := le_skipWSPos inp opts s.pos
        cases hc0 : chAt inp s.pos with
        | none => rfl
        | some c0 =>
          dsimp only
          by_cases hcb0 : c0 = ']'
          · rw [if_pos hcb0]
            rfl
          · rw [if_neg hcb0]
            simp only [St.withPos_pos]
            cases hcw : chAt inp (skipWSPos inp opts s.pos) with
            | none => rfl
            | some c =>
              dsimp only
              have hPl : skipWSPos inp opts s.pos < inp.length := le_of_chAt_some hcw
              split
              · refine ih _ ?_ trivial
                simp only [Req.need, Req.rank, Req.st_arrLoop, St.withPos_pos]
                have := le_skipWSPos inp opts (skipWSPos inp opts s.pos + 1)
                omega
              · split
                · rfl
                · split
                  · split
                    · rfl
                    · refine ih _ ?_ trivial
                      simp only [Req.need, Req.rank, Req.st_arrLoop, St.withPos_pos,
                        St.push_pos]
                      omega
                  · split
                    · rfl
                    · rename_i hcr hcbr hkv
                      have hin : (step inp opts n
                          (.value (s.withPos (skipWSPos inp opts s.pos)))).isSome = true := by
                        refine ih _ ?_ trivial
                        simp only [Req.need, Req.rank, Req.st_value, St.withPos_pos]
                        omega
                      obtain ⟨pr, hpr⟩ := Option.isSome_iff_exists.mp hin
                      obtain ⟨v, s1⟩ := pr
                      rw [hpr]
                      dsimp only
                      split
                      · rfl
                      · rename_i hff
                        replace hff : s1.fatal = false := by simpa using hff
                        have hprog := (step_evolve inp opts n _ _ hpr).2.2.2.2.2
                        simp only [Req.progress, St.withPos_pos, St.withPos_fatal] at hprog
                        have hadv : skipWSPos inp opts s.pos + 1 ≤ s1.pos := by
                          refine hprog hff (skipWSPos_skipWSPos inp opts s.pos) c hcw ?_ ?_
                          · intro hcon
                            exact hcbr (by simp [hcon])
                          · intro hcon
                            exact hcr (by simp [hcon])
                        have hsP2 : s1.pos ≤ skipWSPos inp opts s1.pos :=
                          le_skipWSPos inp opts s1.pos
                        by_cases h2c : chAt inp (skipWSPos inp opts s1.pos) = some ','
                        · rw [if_pos h2c]
                          have hP2l := le_of_chAt_some h2c
                          refine ih _ ?_ trivial
                          simp only [Req.need, Req.rank, Req.st_arrLoop, St.withPos_pos]
                          omega
                        · rw [if_neg h2c]
                          split
                          · refine ih _ ?_ trivial
                            simp only [Req.need, Req.rank, Req.st_arrLoop, St.withPos_pos]
                            omega
                          · split
                            · rfl
                            · split
                              · rfl
                              · refine ih _ ?_ trivial
                                simp only [Req.need, Req.rank, Req.st_arrLoop, St.push_pos,
                                  St.withPos_pos]
                                omega

/-- `parse` always returns: the canonical fuel meets the bound. -/
theorem parseF_isSome (inp : List Char) (opts : Options) :
    (parseF inp opts).isSome = true := by
  rw [parseF]
  dsimp only
  split
  · split
    · rfl
    · refine step_suffices inp opts (canonFuel inp) _ ?_ trivial
      simp only [Req.need, Req.rank, Req.st_value, canonFuel, St.withPos_pos]
      omega
  · split
    · rfl
    · refine step_suffices inp opts (canonFuel inp) _ ?_ trivial
      simp only [Req.need, Req.rank, Req.st_value, canonFuel, St.withPos_pos]
      omega

/-- `parse_smart` always returns an outcome. -/
theorem parseSmartL_isSome (inp : List Char) (opts : Options) :
    (parseSmartL inp opts).isSome = true := by
  rw [parseSmartL]
  split
  · rfl
  · obtain ⟨pr, hpr⟩ := Option.isSome_iff_exists.mp (parseF_isSome inp opts)
    obtain ⟨v, s⟩ := pr
    rw [hpr]
    dsimp only
    split
    · rfl
    · rfl

/-- A matched keyword pins down the character under the cursor. -/
theorem matchWord_head {inp : List Char} {p : Nat} {c : Char} {w : List Char}
    (h : matchWord inp p (c :: w) = true) : chAt inp p = some c := by
  rw [matchWord, List.isPrefixOf_iff_prefix] at h
  obtain ⟨t, ht⟩ := h
  have h0 : (inp.drop p).get? 0 = some c := by rw [← ht]; rfl
  rw [List.get?_drop, Nat.add_zero] at h0
  exact h0

/-- A keyword cannot match where a different character sits. -/
theorem matchWord_false_of_head {inp : List Char} {p : Nat} {c c' : Char} {w : List Char}
    (hch : chAt inp p = some c) (hne : ¬ c = c') :
    matchWord inp p (c' :: w) = false := by
  by_contra hmw
  replace hmw : matchWord inp p (c' :: w) = true := by simpa using hmw
  rw [matchWord_head hmw] at hch
  injection hch with hch
  exact hne hch.symm

/-- C6: on every finite input and options record the parse terminates
(`parse_smart` returns an outcome within the canonical fuel), and the
dispatcher's recovery paths are bounded by the retry guard: on a stray
separator, and likewise on an unknown character, once the retry counter
would exceed 10 the dispatcher resets it to 0 and returns Null instead of
recursing further. -/
theorem C6_termination_retry_guard :
    (∀ (inp : List Char) (opts : Options), (parseSmartL inp opts).isSome = true) ∧
    (∀ (inp : List Char) (opts : Options) (n : Nat) (s : St) (c : Char),
      opts.strict = false → s.fatal = false → 10 < s.depth + 1 →
      chAt inp (skipWSPos inp opts s.pos) = some c → (c = ',' || c = ':') = true →
      step inp opts (n+1) (.value s) =
        some (.null, ((((s.withPos (skipWSPos inp opts s.pos)).push opts
          (strayMsg c (skipWSPos inp opts s.pos))).withPos
          (skipWSPos inp opts s.pos + 1)).withDepth (s.depth + 1)).withDepth 0)) ∧
    (∀ (inp : List Char) (opts : Options) (n : Nat) (s : St) (c : Char),
      opts.strict = false → s.fatal = false → 10 < s.depth + 1 →
      chAt inp (skipWSPos inp opts s.pos) = some c →
      ¬(c = lbrace) → ¬(c = '[') → (c = '"' || c = '\'') = false →
      (c = '-' || isDigit c) = false →
      matchWord inp (skipWSPos inp opts s.pos) wTrue = false →
      matchWord inp (skipWSPos inp opts s.pos) wFalse = false →
      matchWord inp (skipWSPos inp opts s.pos) wNull = false →
      (opts.convertPythonTokens && matchWord inp (skipWSPos inp opts s.pos) wPyTrue) = false →
      (opts.convertPythonTokens && matchWord inp (skipWSPos inp opts s.pos) wPyFalse) = false →
      (opts.convertPythonTokens && matchWord inp (skipWSPos inp opts s.pos) wPyNone) = false →
      (opts.convertUndefined && matchWord inp (skipWSPos inp opts s.pos) wUndefined) = false →
      matchWord inp (skipWSPos inp opts s.pos) wNaN = false →
      matchWord inp (skipWSPos inp opts s.pos) wInfinity = false →
      (c = rbrace || c = ']') = false → (c = ',' || c = ':') = false →
      step inp opts (n+1) (.value s) =
        some (.null, ((((s.withPos (skipWSPos inp opts s.pos)).push opts
          (unexpectedCharMsg c (skipWSPos inp opts s.pos))).withPos
          (skipWSPos inp opts s.pos + 1)).withDepth (s.depth + 1)).withDepth 0)) := by
  refine ⟨parseSmartL_isSome, ?_, ?_⟩
  · intro inp opts n s c hs0 hf1 hguard hch hc
    have hcs : c = ',' ∨ c = ':' := by
      rcases Bool.or_eq_true_iff.mp hc with h | h
      · exact Or.inl (by simpa using h)
      · exact Or.inr (by simpa using h)
    have h1 : ¬ c = lbrace := by rcases hcs with rfl | rfl <;> decide
    have h2 : ¬ c = '[' := by rcases hcs with rfl | rfl <;> decide
    have h3 : (c = '"' || c = '\'') = false := by rcases hcs with rfl | rfl <;> decide
    have h4 : (c = '-' || isDigit c) = false := by rcases hcs with rfl | rfl <;> decide
    have h5 : matchWord inp (skipWSPos inp opts s.pos) wTrue = false :=
      matchWord_false_of_head hch (by rcases hcs with rfl | rfl <;> decide)
    have h6 : matchWord inp (skipWSPos inp opts s.pos) wFalse = false :=
      matchWord_false_of_head hch (by rcases hcs with rfl | rfl <;> decide)
    have h7 : matchWord inp (skipWSPos inp opts s.pos) wNull = false :=
      matchWord_false_of_head hch (by rcases hcs with rfl | rfl <;> decide)
    have h8 : (opts.convertPythonTokens &&
        matchWord inp (skipWSPos inp opts s.pos) wPyTrue) = false := by
      rw [show matchWord inp (skipWSPos inp opts s.pos) wPyTrue = false from
        matchWord_false_of_head hch (by rcases hcs with rfl | rfl <;> decide)]
      simp
    have h9 : (opts.convertPythonTokens &&
        matchWord inp (skipWSPos inp opts s.pos) wPyFalse) = false := by
      rw [show matchWord inp (skipWSPos inp opts s.pos) wPyFalse = false from
        matchWord_false_of_head hch (by rcases hcs with rfl | rfl <;> decide)]
      simp
    have h10 : (opts.convertPythonTokens &&
        matchWord inp (skipWSPos inp opts s.pos) wPyNone) = false := by
      rw [show matchWord inp (skipWSPos inp opts s.pos) wPyNone = false from
        matchWord_false_of_head hch (by rcases hcs with rfl | rfl <;> decide)]
      simp
    have h11 : (opts.convertUndefined &&
        matchWord inp (skipWSPos inp opts s.pos) wUndefined) = false := by
      rw [show matchWord inp (skipWSPos inp opts s.pos) wUndefined = false from
        matchWord_false_of_head hch (by rcases hcs with rfl | rfl <;> decide)]
      simp
    have h12 : matchWord inp (skipWSPos inp opts s.pos) wNaN = false :=
      matchWord_false_of_head hch (by rcases hcs with rfl | rfl <;> decide)
    have h13 : matchWord inp (skipWSPos inp opts s.pos) wInfinity = false :=
      matchWord_false_of_head hch (by rcases hcs with rfl | rfl <;> decide)
    have h14 : (c = rbrace || c = ']') = false := by rcases hcs with rfl | rfl <;> decide
    rw [stepv_eq_stray inp opts n s hf1 hch h1 h2 h3 h4 h5 h6 h7 h8 h9 h10 h11 h12 h13
      h14 hc]
    rw [if_neg (by simp [hf1, hs0]), if_pos hguard]
  · intro inp opts n s c hs0 hf1 hguard hch h1 h2 h3 h4 h5 h6 h7 h8 h9 h10 h11 h12 h13
      h14 h15
    rw [stepv_eq_unknown inp opts n s hf1 hch h1 h2 h3 h4 h5 h6 h7 h8 h9 h10 h11 h12 h13
      h14 h15]
    rw [if_neg (by simp [hf1, hs0]), if_pos hguard]

/-- The retry guard exercised at concrete inputs: the stray separator `,`
and the unknown character `@`, both on a dispatcher already at retry depth
10, return Null with the counter reset; and `parse_smart` of `","` returns
an outcome. -/
theorem C6_witness :
    (parseSmartL [','] defaultOptions).isSome = true ∧
    step [','] defaultOptions 1 (.value ⟨0, [], 10, 0, false⟩) =
      some (.null, (((((⟨0, [], 10, 0, false⟩ : St).withPos
        (skipWSPos [','] defaultOptions 0)).push defaultOptions
        (strayMsg ',' (skipWSPos [','] defaultOptions 0))).withPos
        (skipWSPos [','] defaultOptions 0 + 1)).withDepth (10 + 1)).withDepth 0) ∧
    step ['@'] defaultOptions 1 (.value ⟨0, [], 10, 0, false⟩) =
      some (.null, (((((⟨0, [], 10, 0, false⟩ : St).withPos
        (skipWSPos ['@'] defaultOptions 0)).push defaultOptions
        (unexpectedCharMsg '@' (skipWSPos ['@'] defaultOptions 0))).withPos
        (skipWSPos ['@'] defaultOptions 0 + 1)).withDepth (10 + 1)).withDepth 0) :=
  ⟨C6_termination_retry_guard.1 [','] defaultOptions,
   C6_termination_retry_guard.2.1 [','] defaultOptions 0 ⟨0, [], 10, 0, false⟩ ','
     rfl rfl (by decide) rfl (by decide),
   C6_termination_retry_guard.2.2 ['@'] defaultOptions 0 ⟨0, [], 10, 0, false⟩ '@'
     rfl rfl (by decide) rfl (by decide) (by decide) (by decide) (by decide)
     rfl rfl rfl rfl rfl rfl rfl rfl rfl (by decide) (by decide)⟩

/-- C7: the cursor never moves backwards across a method: any interpreter
request (`parseValue`, `parseObject`, `parseArray` and their loops) ends at
or past its entry position, and so do `parseString`, `parseNumber`,
`skipWS` and `parse` (relative to its post-BOM start). -/
theorem C7_cursor_monotone (inp : List Char) (opts : Options) :
    (∀ (f : Nat) (req : Req) (r : Value × St),
      step inp opts f req = some r → req.st.pos ≤ r.2.pos) ∧
    (∀ s : St, s.pos ≤ (parseString inp opts s).2.pos) ∧
    (∀ s : St, s.pos ≤ (parseNumber inp opts s).2.pos) ∧
    (∀ p : Nat, p ≤ skipWSPos inp opts p) ∧
    (∀ (v : Value) (s : St), parseF inp opts = some (v, s) →
      (if chAt inp 0 = some (Char.ofNat 0xfeff) then 1 else 0) ≤ s.pos) := by
  refine ⟨fun f req r h => (step_evolve inp opts f req r h).1,
    fun s => le_parseString inp opts s, fun s => le_parseNumber inp opts s,
    fun p => le_skipWSPos inp opts p, ?_⟩
  intro v s h
  rw [parseF] at h
  dsimp only at h
  split at h <;> rename_i hbom
  · rw [if_pos hbom]
    split at h
    · simp only [Option.some.injEq, Prod.mk.injEq] at h
      rw [← h.2]
      exact Nat.le_trans (le_skipWSPos inp opts 1) (by simp)
    · have hm := (step_evolve inp opts _ _ _ h).1
      simp only [Req.st_value, St.withPos_pos] at hm
      exact Nat.le_trans (le_skipWSPos inp opts 1) (by simpa using hm)
  · rw [if_neg hbom]
    exact Nat.zero_le _

/-- Cursor monotonicity exercised on the concrete run of `"1"`. -/
theorem C7_witness :
    (Req.value (⟨0, [], 0, 0, false⟩ : St)).st.pos ≤
      (Value.num ['1'], (⟨1, [], 0, 0, false⟩ : St)).2.pos :=
  (C7_cursor_monotone ['1'] defaultOptions).1 24 (.value ⟨0, [], 0, 0, false⟩)
    (Value.num ['1'], ⟨1, [], 0, 0, false⟩) rfl

/-- On an all-whitespace input, `skipWS` reaches EOF from anywhere. -/
theorem skipWSAux_all_ws (inp : List Char) (opts : Options)
    (hws : inp.all isJsWs = true) :
    ∀ (f p : Nat), inp.length - p ≤ f → inp.length ≤ skipWSAux inp opts f p := by
  intro f
  induction f with
  | zero =>
    intro p hb
    have he : skipWSAux inp opts 0 p = p := rfl
    rw [he]
    omega
  | succ n ih =>
    intro p hb
    rw [skipWSAux]
    cases hc : chAt inp p with
    | none => exact le_of_chAt_none hc
    | some c =>
      dsimp only
      have hwc : isJsWs c = true := List.all_eq_true.mp hws c (List.get?_mem hc)
      rw [if_pos hwc]
      have := le_of_chAt_some hc
      exact ih (p+1) (by omega)

/-- On an empty or all-whitespace input `parse` takes its empty
normalisation exit: value Null, no pending exception. -/
theorem parseF_ws_guard (inp : List Char) (opts : Options)
    (hg : (inp.isEmpty || inp.all isJsWs) = true) :
    ∃ s1 : St, parseF inp opts = some (.null, s1) ∧ s1.fatal = false := by
  have hws : ∀ p, inp.length ≤ skipWSPos inp opts p := by
    intro p
    rcases Bool.or_eq_true_iff.mp hg with he | ha
    · have hl : inp.length = 0 := by simpa [List.isEmpty_iff_length_eq_zero] using he
      omega
    · exact skipWSAux_all_ws inp opts ha inp.length p (Nat.sub_le _ _)
  rw [parseF]
  dsimp only
  rw [if_pos (by simp only [isEof, St.withPos_pos, decide_eq_true_eq]; exact hws _)]
  exact ⟨_, rfl, rfl⟩

/-- C5: in strict mode the first diagnostic raises the fatal flag and
unwinds the whole parse: a fatal run carries exactly one diagnostic, and
`parse_smart` reports `ok=false`, no results (no partial tree), an error
count of 1, and exactly that diagnostic formatted as in non-strict mode. -/
theorem C5_strict_first_error_aborts (inp : List Char) (opts : Options) (v : Value) (s : St)
    (hst : opts.strict = true) (hrun : parseF inp opts = some (v, s))
    (hfat : s.fatal = true) :
    ∃ d : Diag, s.errors = [d] ∧
      parseSmartL inp opts = some ⟨false, [], 1, [fmtDiag d], false⟩ := by
  have hx : ∃ d, s.errors = [d] := by
    rw [parseF] at hrun
    dsimp only at hrun
    split at hrun <;> split at hrun
    · simp only [Option.some.injEq, Prod.mk.injEq] at hrun
      rw [← hrun.2] at hfat
      simp at hfat
    · obtain ⟨_, ⟨l, hle, hdis⟩, _, _, _, _⟩ := step_evolve inp opts _ _ _ hrun
      simp only [Req.st_value, St.withPos_errors, St.withPos_fatal] at hle hdis
      obtain ⟨d, hd⟩ := (hdis hst trivial).1 hfat
      exact ⟨d, by simpa [hd] using hle⟩
    · simp only [Option.some.injEq, Prod.mk.injEq] at hrun
      rw [← hrun.2] at hfat
      simp at hfat
    · obtain ⟨_, ⟨l, hle, hdis⟩, _, _, _, _⟩ := step_evolve inp opts _ _ _ hrun
      simp only [Req.st_value, St.withPos_errors, St.withPos_fatal] at hle hdis
      obtain ⟨d, hd⟩ := (hdis hst trivial).1 hfat
      exact ⟨d, by simpa [hd] using hle⟩
  obtain ⟨d, hd⟩ := hx
  refine ⟨d, hd, ?_⟩
  have hguard : (inp.isEmpty || inp.all isJsWs) = false := by
    by_contra hgg
    replace hgg : (inp.isEmpty || inp.all isJsWs) = true := by
      rcases Bool.eq_false_or_eq_true (inp.isEmpty || inp.all isJsWs) with h | h
      · exact h
      · exact absurd h hgg
    obtain ⟨s1, hps, hf1⟩ := parseF_ws_guard inp opts hgg
    rw [hps] at hrun
    simp only [Option.some.injEq, Prod.mk.injEq] at hrun
    rw [← hrun.2, hf1] at hfat
    cases hfat
  rw [parseSmartL, if_neg (by simp [hguard])]
  rw [hrun]
  dsimp only
  rw [if_pos hfat, hd]
  rfl

/-- The strict abort on the spec's own example `\x7b"x": True\x7d` with
`strict` on and `convertPythonTokens` off. -/
theorem C5_witness :
    ∃ d : Diag,
      (⟨6, [(6, "Unexpected char 'T' at pos 6, skipping")], 0, 1, true⟩ : St).errors = [d] ∧
      parseSmartL ("\x7b\"x\": True\x7d".data) ⟨true, 100, true, true, false, true⟩ =
        some ⟨false, [], 1, [fmtDiag d], false⟩ :=
  C5_strict_first_error_aborts ("\x7b\"x\": True\x7d".data)
    ⟨true, 100, true, true, false, true⟩ (.obj [])
    ⟨6, [(6, "Unexpected char 'T' at pos 6, skipping")], 0, 1, true⟩ rfl rfl rfl

/-- C2 counterexample: on the non-empty input `null` the parsed value is
the Null literal — a Null that does *not* originate from empty input — yet
`parse_smart` returns `results = []` where the claim's build rule demands
`[Null]`: the filter drops every Null, not only the empty-input one. -/
theorem C2_counterexample :
    ("null".data).isEmpty = false ∧
    parseF ("null".data) defaultOptions =
      some (.null, ⟨4, [], 0, 0, false⟩) ∧
    parseSmartL ("null".data) defaultOptions = some ⟨true, [], 0, [], false⟩ :=
  ⟨rfl, rfl, rfl⟩

/-- C2 (amended): for a non-fatal run on a non-empty, non-whitespace-only
input, the outcome is built as: `ok` true iff the log is empty, `results`
equal to `[value]` whenever the value is neither Null (of any origin) nor
Absent and `[]` otherwise, `errorCount` the length of the log, and `errors`
the log's diagnostics in order, each formatted `"[pos <N>] <message>"`. -/
theorem C2_outcome_build (inp : List Char) (opts : Options) (v : Value) (s : St)
    (hg : (inp.isEmpty || inp.all isJsWs) = false)
    (hrun : parseF inp opts = some (v, s)) (hnf : s.fatal = false) :
    ∃ o : Outcome, parseSmartL inp opts = some o ∧
      (o.ok = true ↔ s.errors = []) ∧
      o.results = (if v.isNull = true ∨ v.isAbsent = true then [] else [v]) ∧
      o.errorCount = s.errors.length ∧
      o.errors = s.errors.map fmtDiag ∧
      (v.isNull = false → v.isAbsent = false → o.results = [v]) := by
  rw [parseSmartL, if_neg (by simp [hg]), hrun]
  dsimp only
  rw [if_neg (by simp [hnf])]
  refine ⟨_, rfl, ?_, ?_, rfl, rfl, ?_⟩
  · simp [List.isEmpty_iff]
  · by_cases hv : (v.isNull || v.isAbsent) = true
    · rw [if_pos hv, if_pos (by simpa [Bool.or_eq_true_iff] using hv)]
    · rw [if_neg hv, if_neg (by simpa [Bool.or_eq_true_iff] using hv)]
  · intro hn ha
    rw [if_neg (by simp [hn, ha])]

/-- The amended outcome build at the concrete input `true`. -/
theorem C2_witness :
    ∃ o : Outcome, parseSmartL ("true".data) defaultOptions = some o ∧
      (o.ok = true ↔ (⟨4, [], 0, 0, false⟩ : St).errors = []) ∧
      o.results = (if (Value.bool true).isNull = true ∨
        (Value.bool true).isAbsent = true then [] else [Value.bool true]) ∧
      o.errorCount = (⟨4, [], 0, 0, false⟩ : St).errors.length ∧
      o.errors = (⟨4, [], 0, 0, false⟩ : St).errors.map fmtDiag ∧
      ((Value.bool true).isNull = false → (Value.bool true).isAbsent = false →
        o.results = [Value.bool true]) :=
  C2_outcome_build ("true".data) defaultOptions (.bool true) ⟨4, [], 0, 0, false⟩
    rfl rfl rfl

/-- C3 counterexample: on the spec's own example the pruned subtree is
`null`, not an empty object — key `b` maps to Null, and the outcome even
has `ok = false` with the max-depth diagnostic logged. -/
theorem C3_counterexample :
    parseSmartL ("\x7b\"a\":\x7b\"b\":\x7b\"c\":1\x7d\x7d\x7d".data)
      { defaultOptions with maxDepth := 2 } =
      some ⟨false, [.obj [(['a'], .obj [(['b'], .null)])]], 1,
        ["[pos 10] Max depth 2 exceeded"], false⟩ := rfl

/-- C3 (amended): entering the object reader with the container depth
already at `maxDepth` (so the increment exceeds it) logs one max-depth
diagnostic, advances the cursor past a balanced-braces span starting just
after the opening brace (EOF-safe), restores the depth counter, and
returns **null** (not an empty object) as that subtree's value. -/
theorem C3_max_depth_prune (inp : List Char) (opts : Options) (n : Nat) (s : St)
    (hf : s.fatal = false) (hs : opts.strict = false)
    (hd : opts.maxDepth < s.nestDepth + 1) :
    ∃ s' : St, step inp opts (n+1) (.object s) = some (.null, s') ∧
      s'.errors = s.errors ++
        [(s.pos, "Max depth " ++ Nat.repr opts.maxDepth ++ " exceeded")] ∧
      s'.pos = skipBalanced inp lbrace rbrace (inp.length + 1) 1 (s.pos + 1) ∧
      s'.nestDepth = s.nestDepth ∧ s'.fatal = false := by
  rw [step, if_neg (by simp [hf])]
  dsimp only
  simp only [St.withNest_nestDepth]
  rw [if_pos hd, if_neg (by simp [hf, hs])]
  refine ⟨_, rfl, by simp, by simp, by simp, by simp [hf, hs]⟩

/-- The max-depth prune exercised at a concrete state: reading `\x7b\x7d`
as an object while already two containers deep with `maxDepth 2`. -/
theorem C3_witness :
    ∃ s' : St, step ("\x7b\x7d".data) { defaultOptions with maxDepth := 2 } 1
        (.object ⟨0, [], 0, 2, false⟩) = some (.null, s') ∧
      s'.errors = ([] : List Diag) ++ [(0, "Max depth " ++ Nat.repr 2 ++ " exceeded")] ∧
      s'.pos = skipBalanced ("\x7b\x7d".data) lbrace rbrace
        (("\x7b\x7d".data).length + 1) 1 (0 + 1) ∧
      s'.nestDepth = 2 ∧ s'.fatal = false :=
  C3_max_depth_prune ("\x7b\x7d".data) { defaultOptions with maxDepth := 2 } 0
    ⟨0, [], 0, 2, false⟩ rfl rfl (by decide)

/-- `skipWS` walks exactly over an all-whitespace prefix when the character
after it neither is whitespace nor can open a comment. -/
theorem skipWSAux_ws_prefix (inp : List Char) (opts : Options) (w : List Char) (c : Char)
    (hinp : inp = w ++ [c]) (hw : w.all isJsWs = true) (hcw : isJsWs c = false)
    (hcs : ¬ c = '/') :
    ∀ (f p : Nat), p ≤ w.length → inp.length - p ≤ f →
    skipWSAux inp opts f p = w.length := by
  intro f
  induction f with
  | zero =>
    intro p hp hb
    have hlen : inp.length = w.length + 1 := by rw [hinp]; simp
    omega
  | succ n ih =>
    intro p hp hb
    rcases Nat.lt_or_eq_of_le hp with hlt | heq
    · have hch : chAt inp p = some (w.get ⟨p, hlt⟩) := by
        rw [hinp, show chAt (w ++ [c]) p = (w ++ [c]).get? p from rfl,
          List.get?_append hlt]
        exact List.get?_eq_get hlt
      rw [skipWSAux, hch]
      dsimp only
      rw [if_pos (List.all_eq_true.mp hw _ (List.get_mem w p hlt))]
      have hlen : inp.length = w.length + 1 := by rw [hinp]; simp
      exact ih (p+1) hlt (by omega)
    · subst heq
      have hch : chAt inp w.length = some c := by
        rw [hinp]
        exact List.get?_concat_length w c
      rw [skipWSAux, hch]
      dsimp only
      rw [if_neg (by simp [hcw]), if_neg (by simp [hcs]), if_neg (by simp [hcs])]

/-- The dispatcher on a whitespace-stable cursor holding a container
closer: it refuses to consume the byte and returns Absent in place. -/
theorem stepv_closer_run (inp : List Char) (opts : Options) (m : Nat) (s : St) {c : Char}
    (hf : s.fatal = false)
    (hstable : skipWSPos inp opts s.pos = s.pos)
    (hch : chAt inp s.pos = some c)
    (hc : c = rbrace ∨ c = ']') :
    step inp opts (m+1) (.value s) = some (.absent, s.withPos s.pos) := by
  have hch' : chAt inp (skipWSPos inp opts s.pos) = some c := by rw [hstable]; exact hch
  have h1 : ¬ c = lbrace := by rcases hc with rfl | rfl <;> decide
  have h2 : ¬ c = '[' := by rcases hc with rfl | rfl <;> decide
  have h3 : (c = '"' || c = '\'') = false := by rcases hc with rfl | rfl <;> decide
  have h4 : (c = '-' || isDigit c) = false := by rcases hc with rfl | rfl <;> decide
  have h5 : matchWord inp (skipWSPos inp opts s.pos) wTrue = false := by
    rw [hstable]
    exact matchWord_false_of_head hch (by rcases hc with rfl | rfl <;> decide)
  have h6 : matchWord inp (skipWSPos inp opts s.pos) wFalse = false := by
    rw [hstable]
    exact matchWord_false_of_head hch (by rcases hc with rfl | rfl <;> decide)
  have h7 : matchWord inp (skipWSPos inp opts s.pos) wNull = false := by
    rw [hstable]
    exact matchWord_false_of_head hch (by rcases hc with rfl | rfl <;> decide)
  have h8 : (opts.convertPythonTokens &&
      matchWord inp (skipWSPos inp opts s.pos) wPyTrue) = false := by
    rw [hstable, show matchWord inp s.pos wPyTrue = false from
      matchWord_false_of_head hch (by rcases hc with rfl | rfl <;> decide)]
    simp
  have h9 : (opts.convertPythonTokens &&
      matchWord inp (skipWSPos inp opts s.pos) wPyFalse) = false := by
    rw [hstable, show matchWord inp s.pos wPyFalse = false from
      matchWord_false_of_head hch (by rcases hc with rfl | rfl <;> decide)]
    simp
  have h10 : (opts.convertPythonTokens &&
      matchWord inp (skipWSPos inp opts s.pos) wPyNone) = false := by
    rw [hstable, show matchWord inp s.pos wPyNone = false from
      matchWord_false_of_head hch (by rcases hc with rfl | rfl <;> decide)]
    simp
  have h11 : (opts.convertUndefined &&
      matchWord inp (skipWSPos inp opts s.pos) wUndefined) = false := by
    rw [hstable, show matchWord inp s.pos wUndefined = false from
      matchWord_false_of_head hch (by rcases hc with rfl | rfl <;> decide)]
    simp
  have h12 : matchWord inp (skipWSPos inp opts s.pos) wNaN = false := by
    rw [hstable]
    exact matchWord_false_of_head hch (by rcases hc with rfl | rfl <;> decide)
  have h13 : matchWord inp (skipWSPos inp opts s.pos) wInfinity = false := by
    rw [hstable]
    exact matchWord_false_of_head hch (by rcases hc with rfl | rfl <;> decide)
  have h14 : (c = rbrace || c = ']') = true := by
    rcases hc with rfl | rfl <;> simp
  rw [stepv_eq_closer inp opts m s hf hch' h1 h2 h3 h4 h5 h6 h7 h8 h9 h10 h11 h12 h13 h14,
    hstable]

/-- C10: an input that is optional whitespace followed by one top-level
container-closing byte parses silently: the dispatcher returns Absent
without logging, and `parse_smart` reports `ok = true`, no results and no
errors. -/
theorem C10_top_level_closer (w : List Char) (c : Char) (opts : Options)
    (hw : w.all isJsWs = true) (hc : c = rbrace ∨ c = ']') :
    parseSmartL (w ++ [c]) opts = some ⟨true, [], 0, [], false⟩ := by
  have hcw : isJsWs c = false := by rcases hc with rfl | rfl <;> decide
  have hcs : ¬ c = '/' := by rcases hc with rfl | rfl <;> decide
  have hlen : (w ++ [c]).length = w.length + 1 := by simp
  have hskip : ∀ p, p ≤ w.length → skipWSPos (w ++ [c]) opts p = w.length := by
    intro p hp
    exact skipWSAux_ws_prefix (w ++ [c]) opts w c rfl hw hcw hcs
      (w ++ [c]).length p hp (Nat.sub_le _ _)
  have hch : chAt (w ++ [c]) w.length = some c := List.get?_concat_length w c
  have hguard : ((w ++ [c]).isEmpty || (w ++ [c]).all isJsWs) = false := by
    simp [hcw]
  have hcf : ∃ m, canonFuel (w ++ [c]) = m + 1 := by
    rw [canonFuel]
    exact ⟨8 * ((w ++ [c]).length + 2) - 1, by omega⟩
  obtain ⟨m, hm⟩ := hcf
  have hpF : parseF (w ++ [c]) opts = some (.absent, ⟨w.length, [], 0, 0, false⟩) := by
    rw [parseF]
    dsimp only
    by_cases hbom : chAt (w ++ [c]) 0 = some (Char.ofNat 0xfeff)
    · have hw1 : 1 ≤ w.length := by
        rcases Nat.eq_zero_or_pos w.length with h0 | h1
        · exfalso
          have hwnil : w = [] := List.length_eq_zero.mp h0
          rw [hwnil] at hbom
          have : chAt ([] ++ [c]) 0 = some c := rfl
          rw [this] at hbom
          injection hbom with hbom
          rcases hc with rfl | rfl <;> simp_all <;> cases hbom
        · exact h1
      rw [if_pos hbom]
      have hsk1 : skipWSPos (w ++ [c]) opts 1 = w.length := hskip 1 hw1
      rw [hsk1]
      rw [if_neg (by simp only [isEof, St.withPos_pos, decide_eq_true_eq, hlen]; omega)]
      rw [hm]
      rw [show ((⟨1, [], 0, 0, false⟩ : St).withPos w.length) =
        (⟨w.length, [], 0, 0, false⟩ : St) from rfl]
      rw [stepv_closer_run (w ++ [c]) opts m ⟨w.length, [], 0, 0, false⟩ rfl
        (hskip w.length (Nat.le_refl _)) hch hc]
      rfl
    · rw [if_neg hbom]
      have hsk0 : skipWSPos (w ++ [c]) opts 0 = w.length := hskip 0 (Nat.zero_le _)
      rw [hsk0]
      rw [if_neg (by simp only [isEof, St.withPos_pos, decide_eq_true_eq, hlen]; omega)]
      rw [hm]
      rw [show ((⟨0, [], 0, 0, false⟩ : St).withPos w.length) =
        (⟨w.length, [], 0, 0, false⟩ : St) from rfl]
      rw [stepv_closer_run (w ++ [c]) opts m ⟨w.length, [], 0, 0, false⟩ rfl
        (hskip w.length (Nat.le_refl _)) hch hc]
      rfl
  rw [parseSmartL, if_neg (by rw [hguard]; simp), hpF]
  rfl

/-- The silent top-level closer at the concrete input `"  \x7d"`. -/
theorem C10_witness :
    parseSmartL ([' ', ' '] ++ [rbrace]) defaultOptions =
      some ⟨true, [], 0, [], false⟩ :=
  C10_top_level_closer [' ', ' '] rbrace defaultOptions rfl (Or.inl rfl)

/-- The key list after `obj[key] = value`: unchanged when the key exists
(overwrite keeps its position), else the key appends. -/
theorem setKey_keys (fs : List (List Char × Value)) (k : List Char) (v : Value) :
    (setKey fs k v).map Prod.fst =
      if k ∈ fs.map Prod.fst then fs.map Prod.fst else fs.map Prod.fst ++ [k] := by
  induction fs with
  | nil => simp [setKey]
  | cons kv t ih =>
    obtain ⟨k', v'⟩ := kv
    rw [setKey]
    by_cases hk : k' = k
    · subst hk
      rw [if_pos rfl, List.map_cons, List.map_cons, if_pos (List.mem_cons_self _ _)]
    · rw [if_neg hk]
      simp only [List.map_cons, ih]
      by_cases hmem : k ∈ t.map Prod.fst
      · rw [if_pos hmem, if_pos (by simp [hmem])]
      · rw [if_neg hmem,
          if_neg (by simp only [List.mem_cons, not_or]; exact ⟨Ne.symm hk, hmem⟩),
          List.cons_append]

/-- `obj[key] = value` keeps the keys pairwise distinct. -/
theorem setKey_nodup (fs : List (List Char × Value)) (k : List Char) (v : Value)
    (h : (fs.map Prod.fst).Nodup) : ((setKey fs k v).map Prod.fst).Nodup := by
  rw [setKey_keys]
  split
  · exact h
  · rename_i hnm
    rw [← List.concat_eq_append]
    exact List.Nodup.concat hnm h

/-- Every member of the updated field list is the new binding or an old one. -/
theorem setKey_mem (fs : List (List Char × Value)) (k : List Char) (v : Value) :
    ∀ kv ∈ setKey fs k v, kv = (k, v) ∨ kv ∈ fs := by
  induction fs with
  | nil =>
    intro kv hkv
    rw [setKey] at hkv
    simp at hkv
    exact Or.inl hkv
  | cons kv0 t ih =>
    obtain ⟨k', v'⟩ := kv0
    intro kv hkv
    rw [setKey] at hkv
    by_cases hk : k' = k
    · rw [if_pos hk] at hkv
      rcases List.mem_cons.mp hkv with h | h
      · exact Or.inl h
      · exact Or.inr (List.mem_cons_of_mem _ h)
    · rw [if_neg hk] at hkv
      rcases List.mem_cons.mp hkv with h | h
      · exact Or.inr (by simp [h])
      · rcases ih kv h with h2 | h2
        · exact Or.inl h2
        · exact Or.inr (List.mem_cons_of_mem _ h2)

/-- Member values after `obj[key] = value` stay good when the new value is. -/
theorem setKey_accGood (fs : List (List Char × Value)) (k : List Char) (v : Value)
    (hfs : ∀ kv ∈ fs, goodVal kv.2) (hv : goodVal v) :
    ∀ kv ∈ setKey fs k v, goodVal kv.2 := by
  intro kv hkv
  rcases setKey_mem fs k v kv hkv with h | h
  · rw [h]
    exact hv
  · exact hfs kv h

theorem setKeyJs_nodup (fs : List (List Char × Value)) (k : List Char) (v : Value)
    (h : (fs.map Prod.fst).Nodup) : ((setKeyJs fs k v).map Prod.fst).Nodup := by
  rw [setKeyJs]
  split
  · exact h
  · exact setKey_nodup fs k v h

theorem setKeyJs_accGood (fs : List (List Char × Value)) (k : List Char) (v : Value)
    (hvals : ∀ kv ∈ fs, goodVal kv.2) (hv : goodVal v) :
    ∀ kv ∈ setKeyJs fs k v, goodVal kv.2 := by
  rw [setKeyJs]
  split
  · exact hvals
  · exact setKey_accGood fs k v hvals hv

theorem setKeyJs_of_ne (fs : List (List Char × Value)) (v : Value) {k : List Char}
    (h : ¬ k = "__proto__".data) : setKeyJs fs k v = setKey fs k v := by
  rw [setKeyJs, if_neg h]

/-- Last write wins: looking up the just-written key gives the new value. -/
theorem getKey_setKey (fs : List (List Char × Value)) (k : List Char) (v : Value) :
    getKey (setKey fs k v) k = some v := by
  induction fs with
  | nil => simp [setKey, getKey]
  | cons kv0 t ih =>
    obtain ⟨k', v'⟩ := kv0
    rw [setKey]
    by_cases hk : k' = k
    · rw [if_pos hk, getKey, if_pos rfl]
    · rw [if_neg hk, getKey, if_neg hk]
      exact ih

/-- Writing one key leaves every other key's binding unchanged. -/
theorem getKey_setKey_other (fs : List (List Char × Value)) (k k' : List Char) (v : Value)
    (hne : ¬ k' = k) : getKey (setKey fs k v) k' = getKey fs k' := by
  induction fs with
  | nil => simp [setKey, getKey, Ne.symm hne]
  | cons kv0 t ih =>
    obtain ⟨k0, v0⟩ := kv0
    rw [setKey]
    by_cases hk : k0 = k
    · subst hk
      rw [if_pos rfl, getKey, if_neg (Ne.symm hne), getKey, if_neg (Ne.symm hne)]
    · rw [if_neg hk, getKey, getKey]
      by_cases h0 : k0 = k'
      · rw [if_pos h0, if_pos h0]
      · rw [if_neg h0, if_neg h0]
        exact ih

/-- `parseNumber` produces a number lexeme or Null, never a container or
the Absent sentinel. -/
theorem parseNumber_val (inp : List Char) (opts : Options) (s : St) :
    ∃ l, (parseNumber inp opts s).1 = .num l := by
  rw [parseNumber]
  split
  · exact ⟨['0'], rfl⟩
  · exact ⟨_, rfl⟩

/-- The object reader's Absent-to-Null substitution yields a good value. -/
theorem goodVal_filter (v : Value) (h : v = .absent ∨ goodVal v) :
    goodVal (if v.isAbsent = true then Value.null else v) := by
  by_cases ha : v.isAbsent = true
  · rw [if_pos ha]
    exact ⟨NoAbsent.null, NodupKeys.null⟩
  · rw [if_neg ha]
    rcases h with rfl | hg
    · simp at ha
    · exact hg

/-- The array reader's Absent drop keeps the element list good. -/
theorem elemsGood_filter (es : List Value) (v : Value)
    (hes : ∀ x ∈ es, goodVal x) (h : v = .absent ∨ goodVal v) :
    ∀ x ∈ (if v.isAbsent = true then es else es ++ [v]), goodVal x := by
  by_cases ha : v.isAbsent = true
  · rw [if_pos ha]
    exact hes
  · rw [if_neg ha]
    intro x hx
    rcases List.mem_append.mp hx with hx | hx
    · exact hes x hx
    · rw [List.mem_singleton.mp hx]
      rcases h with rfl | hg
      · simp at ha
      · exact hg

/-- A good object value from a good accumulator. -/
theorem goodVal_obj (fs : List (List Char × Value))
    (h1 : (fs.map Prod.fst).Nodup) (h2 : ∀ kv ∈ fs, goodVal kv.2) :
    goodVal (.obj fs) :=
  ⟨NoAbsent.obj (fun kv hkv => (h2 kv hkv).1),
   NodupKeys.obj h1 (fun kv hkv => (h2 kv hkv).2)⟩

/-- A good array value from a good accumulator. -/
theorem goodVal_arr (es : List Value) (h : ∀ x ∈ es, goodVal x) :
    goodVal (.arr es) :=
  ⟨NoAbsent.arr (fun x hx => (h x hx).1), NodupKeys.arr (fun x hx => (h x hx).2)⟩

set_option maxHeartbeats 1000000 in
/-- Values handed back by the interpreter are the Absent sentinel or good:
no Absent below the surface, and distinct keys in every object node. -/
theorem step_good (inp : List Char) (opts : Options) :
    ∀ (f : Nat) (req : Req) (v : Value) (s : St),
    step inp opts f req = some (v, s) → Req.accGood req →
    (v = .absent ∨ goodVal v) := by
  intro f
  induction f with
  | zero =>
    intro req v s h _
    rw [step] at h
    cases h
  | succ n ih =>
    intro req v s h hacc
    cases req with
    | value s0 =>
      by_cases hf1 : s0.fatal = true
      · rw [stepv_eq_fatal inp opts n s0 hf1] at h
        simp only [Option.some.injEq, Prod.mk.injEq] at h
        rw [← h.1]
        exact Or.inr ⟨NoAbsent.null, NodupKeys.null⟩
      · replace hf1 : s0.fatal = false := by simpa using hf1
        cases hch : chAt inp (skipWSPos inp opts s0.pos) with
        | none =>
          rw [stepv_eq_eof inp opts n s0 hf1 hch] at h
          simp only [Option.some.injEq, Prod.mk.injEq] at h
          rw [← h.1]
          exact Or.inr ⟨NoAbsent.null, NodupKeys.null⟩
        | some c =>
          by_cases h1 : c = lbrace
          · rw [stepv_eq_object inp opts n s0 hf1 hch h1] at h
            exact ih _ _ _ h trivial
          · by_cases h2 : c = '['
            · rw [stepv_eq_array inp opts n s0 hf1 hch h1 h2] at h
              exact ih _ _ _ h trivial
            · by_cases h3 : (c = '"' || c = '\'') = true
              · rw [stepv_eq_string inp opts n s0 hf1 hch h1 h2 h3] at h
                simp only [Option.some.injEq, Prod.mk.injEq] at h
                rw [← h.1]
                exact Or.inr ⟨NoAbsent.str _, NodupKeys.str _⟩
              · replace h3 : (c = '"' || c = '\'') = false := by simpa using h3
                by_cases h4 : (c = '-' || isDigit c) = true
                · rw [stepv_eq_number inp opts n s0 hf1 hch h1 h2 h3 h4] at h
                  simp only [Option.some.injEq, Prod.mk.injEq] at h
                  rw [← h.1]
                  obtain ⟨l, hv⟩ :=
                    parseNumber_val inp opts (s0.withPos (skipWSPos inp opts s0.pos))
                  rw [hv]
                  exact Or.inr ⟨NoAbsent.num l, NodupKeys.num l⟩
                · replace h4 : (c = '-' || isDigit c) = false := by simpa using h4
                  by_cases h5 : matchWord inp (skipWSPos inp opts s0.pos) wTrue = true
                  · rw [stepv_eq_true inp opts n s0 hf1 hch h1 h2 h3 h4 h5] at h
                    simp only [Option.some.injEq, Prod.mk.injEq] at h
                    rw [← h.1]
                    exact Or.inr ⟨NoAbsent.bool true, NodupKeys.bool true⟩
                  · replace h5 : matchWord inp (skipWSPos inp opts s0.pos) wTrue = false := by
                      simpa using h5
                    by_cases h6 : matchWord inp (skipWSPos inp opts s0.pos) wFalse = true
                    · rw [stepv_eq_false inp opts n s0 hf1 hch h1 h2 h3 h4 h5 h6] at h
                      simp only [Option.some.injEq, Prod.mk.injEq] at h
                      rw [← h.1]
                      exact Or.inr ⟨NoAbsent.bool false, NodupKeys.bool false⟩
                    · replace h6 : matchWord inp (skipWSPos inp opts s0.pos) wFalse = false := by
                        simpa using h6
                      by_cases h7 : matchWord inp (skipWSPos inp opts s0.pos) wNull = true
                      · rw [stepv_eq_null inp opts n s0 hf1 hch h1 h2 h3 h4 h5 h6 h7] at h
                        simp only [Option.some.injEq, Prod.mk.injEq] at h
                        rw [← h.1]
                        exact Or.inr ⟨NoAbsent.null, NodupKeys.null⟩
                      · replace h7 : matchWord inp (skipWSPos inp opts s0.pos) wNull
                            = false := by simpa using h7
                        by_cases h8 : (opts.convertPythonTokens &&
                            matchWord inp (skipWSPos inp opts s0.pos) wPyTrue) = true
                        · rw [stepv_eq_pytrue inp opts n s0 hf1 hch h1 h2 h3 h4 h5 h6 h7 h8] at h
                          simp only [Option.some.injEq, Prod.mk.injEq] at h
                          rw [← h.1]
                          exact Or.inr ⟨NoAbsent.bool true, NodupKeys.bool true⟩
                        · replace h8 : (opts.convertPythonTokens &&
                              matchWord inp (skipWSPos inp opts s0.pos) wPyTrue) = false := by
                            simpa using h8
                          by_cases h9 : (opts.convertPythonTokens &&
                              matchWord inp (skipWSPos inp opts s0.pos) wPyFalse) = true
                          · rw [stepv_eq_pyfalse inp opts n s0 hf1 hch h1 h2 h3 h4 h5 h6 h7
                              h8 h9] at h
                            simp only [Option.some.injEq, Prod.mk.injEq] at h
                            rw [← h.1]
                            exact Or.inr ⟨NoAbsent.bool false, NodupKeys.bool false⟩
                          · replace h9 : (opts.convertPythonTokens &&
                                matchWord inp (skipWSPos inp opts s0.pos) wPyFalse) = false := by
                              simpa using h9
                            by_cases h10 : (opts.convertPythonTokens &&
                                matchWord inp (skipWSPos inp opts s0.pos) wPyNone) = true
                            · rw [stepv_eq_pynone inp opts n s0 hf1 hch h1 h2 h3 h4 h5 h6 h7
                                h8 h9 h10] at h
                              simp only [Option.some.injEq, Prod.mk.injEq] at h
                              rw [← h.1]
                              exact Or.inr ⟨NoAbsent.null, NodupKeys.null⟩
                            · replace h10 : (opts.convertPythonTokens &&
                                  matchWord inp (skipWSPos inp opts s0.pos) wPyNone)
                                    = false := by simpa using h10
                              by_cases h11 : (opts.convertUndefined &&
                                  matchWord inp (skipWSPos inp opts s0.pos) wUndefined) = true
                              · rw [stepv_eq_undefined inp opts n s0 hf1 hch h1 h2 h3 h4 h5 h6
                                  h7 h8 h9 h10 h11] at h
                                simp only [Option.some.injEq, Prod.mk.injEq] at h
                                rw [← h.1]
                                exact Or.inr ⟨NoAbsent.null, NodupKeys.null⟩
                              · replace h11 : (opts.convertUndefined &&
                                    matchWord inp (skipWSPos inp opts s0.pos) wUndefined)
                                      = false := by simpa using h11
                                by_cases h12 :
                                    matchWord inp (skipWSPos inp opts s0.pos) wNaN = true
                                · rw [stepv_eq_nan inp opts n s0 hf1 hch h1 h2 h3 h4 h5 h6 h7
                                    h8 h9 h10 h11 h12] at h
                                  simp only [Option.some.injEq, Prod.mk.injEq] at h
                                  rw [← h.1]
                                  exact Or.inr ⟨NoAbsent.null, NodupKeys.null⟩
                                · replace h12 : matchWord inp (skipWSPos inp opts s0.pos) wNaN
                                      = false := by simpa using h12
                                  by_cases h13 : matchWord inp (skipWSPos inp opts s0.pos)
                                      wInfinity = true
                                  · rw [stepv_eq_infinity inp opts n s0 hf1 hch h1 h2 h3 h4 h5
                                      h6 h7 h8 h9 h10 h11 h12 h13] at h
                                    simp only [Option.some.injEq, Prod.mk.injEq] at h
                                    rw [← h.1]
                                    exact Or.inr ⟨NoAbsent.null, NodupKeys.null⟩
                                  · replace h13 : matchWord inp (skipWSPos inp opts s0.pos)
                                        wInfinity = false := by simpa using h13
                                    by_cases h14 : (c = rbrace || c = ']') = true
                                    · rw [stepv_eq_closer inp opts n s0 hf1 hch h1 h2 h3 h4 h5
                                        h6 h7 h8 h9 h10 h11 h12 h13 h14] at h
                                      simp only [Option.some.injEq, Prod.mk.injEq] at h
                                      rw [← h.1]
                                      exact Or.inl rfl
                                    · replace h14 : (c = rbrace || c = ']') = false := by
                                        simpa using h14
                                      by_cases h15 : (c = ',' || c = ':') = true
                                      · rw [stepv_eq_stray inp opts n s0 hf1 hch h1 h2 h3 h4 h5
                                          h6 h7 h8 h9 h10 h11 h12 h13 h14 h15] at h
                                        split at h
                                        · simp only [Option.some.injEq, Prod.mk.injEq] at h
                                          rw [← h.1]
                                          exact Or.inr ⟨NoAbsent.null, NodupKeys.null⟩
                                        · split at h
                                          · simp only [Option.some.injEq, Prod.mk.injEq] at h
                                            rw [← h.1]
                                            exact Or.inr ⟨NoAbsent.null, NodupKeys.null⟩
                                          · split at h
                                            · cases h
                                            · rename_i rv s3 heq
                                              simp only [Option.some.injEq,
                                                Prod.mk.injEq] at h
                                              rw [← h.1]
                                              exact ih _ _ _ heq trivial
                                      · replace h15 : (c = ',' || c = ':') = false := by
                                          simpa using h15
                                        rw [stepv_eq_unknown inp opts n s0 hf1 hch h1 h2 h3 h4
                                          h5 h6 h7 h8 h9 h10 h11 h12 h13 h14 h15] at h
                                        split at h
                                        · simp only [Option.some.injEq, Prod.mk.injEq] at h
                                          rw [← h.1]
                                          exact Or.inr ⟨NoAbsent.null, NodupKeys.null⟩
                                        · split at h
                                          · simp only [Option.some.injEq, Prod.mk.injEq] at h
                                            rw [← h.1]
                                            exact Or.inr ⟨NoAbsent.null, NodupKeys.null⟩
                                          · split at h
                                            · cases h
                                            · rename_i rv s3 heq
                                              simp only [Option.some.injEq,
                                                Prod.mk.injEq] at h
                                              rw [← h.1]
                                              exact ih _ _ _ heq trivial
    | object s0 =>
      rw [step] at h
      split at h
      · simp only [Option.some.injEq, Prod.mk.injEq] at h
        rw [← h.1]
        exact Or.inr ⟨NoAbsent.null, NodupKeys.null⟩
      · dsimp only at h
        split at h
        · split at h
          · simp only [Option.some.injEq, Prod.mk.injEq] at h
            rw [← h.1]
            exact Or.inr ⟨NoAbsent.null, NodupKeys.null⟩
          · simp only [Option.some.injEq, Prod.mk.injEq] at h
            rw [← h.1]
            exact Or.inr ⟨NoAbsent.null, NodupKeys.null⟩
        · split at h
          · cases h
          · rename_i v1 s1 heq
            have hsub := ih _ _ _ heq ⟨List.nodup_nil, by simp⟩
            obtain ⟨fs, rfl⟩ := (step_evolve inp opts n _ _ heq).2.2.2.2.1
            split at h
            · simp only [Option.some.injEq, Prod.mk.injEq] at h
              rw [← h.1]
              exact hsub
            · dsimp only at h
              split at h <;> simp only [Option.some.injEq, Prod.mk.injEq] at h <;>
                rw [← h.1] <;> exact hsub
    | array s0 =>
      rw [step] at h
      split at h
      · simp only [Option.some.injEq, Prod.mk.injEq] at h
        rw [← h.1]
        exact Or.inr ⟨NoAbsent.null, NodupKeys.null⟩
      · dsimp only at h
        split at h
        · split at h
          · simp only [Option.some.injEq, Prod.mk.injEq] at h
            rw [← h.1]
            exact Or.inr ⟨NoAbsent.null, NodupKeys.null⟩
          · simp only [Option.some.injEq, Prod.mk.injEq] at h
            rw [← h.1]
            exact Or.inr ⟨NoAbsent.null, NodupKeys.null⟩
        · split at h
          · cases h
          · rename_i v1 s1 heq
            have hsub := ih _ _ _ heq (by intro x hx; cases hx)
            obtain ⟨es, rfl⟩ := (step_evolve inp opts n _ _ heq).2.2.2.2.1
            split at h
            · simp only [Option.some.injEq, Prod.mk.injEq] at h
              rw [← h.1]
              exact hsub
            · dsimp only at h
              split at h <;> simp only [Option.some.injEq, Prod.mk.injEq] at h <;>
                rw [← h.1] <;> exact hsub
    | objLoop fields s0 =>
      obtain ⟨hnd, hvals⟩ := hacc
      have hgobj : v = Value.obj fields → (v = .absent ∨ goodVal v) := by
        intro hv
        rw [hv]
        exact Or.inr (goodVal_obj fields hnd hvals)
      rw [step] at h
      split at h
      · simp only [Option.some.injEq, Prod.mk.injEq] at h
        exact hgobj h.1.symm
      · split at h
        · simp only [Option.some.injEq, Prod.mk.injEq] at h
          exact hgobj h.1.symm
        · rename_i c0
          dsimp only at h
          split at h
          · simp only [Option.some.injEq, Prod.mk.injEq] at h
            exact hgobj h.1.symm
          · split at h
            · simp only [Option.some.injEq, Prod.mk.injEq] at h
              exact hgobj h.1.symm
            · rename_i c
              split at h
              · exact ih _ _ _ h ⟨hnd, hvals⟩
              · split at h
                · simp only [Option.some.injEq, Prod.mk.injEq] at h
                  exact hgobj h.1.symm
                · split at h
                  · split at h
                    · simp only [Option.some.injEq, Prod.mk.injEq] at h
                      exact hgobj h.1.symm
                    · exact ih _ _ _ h ⟨hnd, hvals⟩
                  · split at h
                    · split at h
                      · simp only [Option.some.injEq, Prod.mk.injEq] at h
                        exact hgobj h.1.symm
                      · exact ih _ _ _ h ⟨hnd, hvals⟩
                    · split at h
                      · split at h
                        · simp only [Option.some.injEq, Prod.mk.injEq] at h
                          exact hgobj h.1.symm
                        · exact ih _ _ _ h ⟨hnd, hvals⟩
                      · split at h
                        · simp only [Option.some.injEq, Prod.mk.injEq] at h
                          exact hgobj h.1.symm
                        · exact ih _ _ _ h ⟨hnd, hvals⟩
    | objMember fields key s0 =>
      obtain ⟨hnd, hvals⟩ := hacc
      have hgobj : v = Value.obj fields → (v = .absent ∨ goodVal v) := by
        intro hv
        rw [hv]
        exact Or.inr (goodVal_obj fields hnd hvals)
      rw [step] at h
      split at h
      · simp only [Option.some.injEq, Prod.mk.injEq] at h
        exact hgobj h.1.symm
      · dsimp only at h
        split at h <;> dsimp only at h
        · split at h
          · simp only [Option.some.injEq, Prod.mk.injEq] at h
            exact hgobj h.1.symm
          · split at h
            · exact ih _ _ _ h ⟨hnd, hvals⟩
            · split at h
              · simp only [Option.some.injEq, Prod.mk.injEq] at h
                exact hgobj h.1.symm
              · split at h
                · exact ih _ _ _ h ⟨setKeyJs_nodup _ _ _ hnd,
                    setKeyJs_accGood _ _ _ hvals ⟨NoAbsent.null, NodupKeys.null⟩⟩
                · exact ih _ _ _ h ⟨hnd, hvals⟩
        · split at h
          · simp only [Option.some.injEq, Prod.mk.injEq] at h
            exact hgobj h.1.symm
          · split at h
            · exact ih _ _ _ h ⟨hnd, hvals⟩
            · split at h
              · simp only [Option.some.injEq, Prod.mk.injEq] at h
                exact hgobj h.1.symm
              · split at h
                · exact ih _ _ _ h ⟨setKeyJs_nodup _ _ _ hnd,
                    setKeyJs_accGood _ _ _ hvals ⟨NoAbsent.null, NodupKeys.null⟩⟩
                · exact ih _ _ _ h ⟨hnd, hvals⟩
    | objValue fields key s0 =>
      obtain ⟨hnd, hvals⟩ := hacc
      have hgobj : v = Value.obj fields → (v = .absent ∨ goodVal v) := by
        intro hv
        rw [hv]
        exact Or.inr (goodVal_obj fields hnd hvals)
      rw [step] at h
      split at h
      · simp only [Option.some.injEq, Prod.mk.injEq] at h
        exact hgobj h.1.symm
      · dsimp only at h
        split at h
        · split at h
          · simp only [Option.some.injEq, Prod.mk.injEq] at h
            exact hgobj h.1.symm
          · simp only [Option.some.injEq, Prod.mk.injEq] at h
            rw [← h.1]
            exact Or.inr (goodVal_obj _ (setKeyJs_nodup _ _ _ hnd)
              (setKeyJs_accGood _ _ _ hvals ⟨NoAbsent.null, NodupKeys.null⟩))
        · split at h
          · cases h
          · rename_i v1 s1 heq
            have hsub := ih _ _ _ heq trivial
            have hnd2 := setKeyJs_nodup fields key
              (if v1.isAbsent = true then Value.null else v1) hnd
            have hvals2 := setKeyJs_accGood fields key
              (if v1.isAbsent = true then Value.null else v1) hvals (goodVal_filter v1 hsub)
            split at h
            · simp only [Option.some.injEq, Prod.mk.injEq] at h
              exact hgobj h.1.symm
            · split at h
              · exact ih _ _ _ h ⟨hnd2, hvals2⟩
              · split at h
                · exact ih _ _ _ h ⟨hnd2, hvals2⟩
                · split at h
                  · simp only [Option.some.injEq, Prod.mk.injEq] at h
                    rw [← h.1]
                    exact Or.inr (goodVal_obj _ hnd2 hvals2)
                  · split at h
                    · simp only [Option.some.injEq, Prod.mk.injEq] at h
                      rw [← h.1]
                      exact Or.inr (goodVal_obj _ hnd2 hvals2)
                    · exact ih _ _ _ h ⟨hnd2, hvals2⟩
    | arrLoop elems s0 =>
      have hgarr : v = Value.arr elems → (v = .absent ∨ goodVal v) := by
        intro hv
        rw [hv]
        exact Or.inr (goodVal_arr elems hacc)
      by_cases hf1 : s0.fatal = true
      · rw [step, if_pos hf1] at h
        simp only [Option.some.injEq, Prod.mk.injEq] at h
        exact hgarr h.1.symm
      · rw [step, if_neg hf1] at h
        cases hc0 : chAt inp s0.pos with
        | none =>
          rw [hc0] at h
          dsimp only at h
          simp only [Option.some.injEq, Prod.mk.injEq] at h
          exact hgarr h.1.symm
        | some c0 =>
          rw [hc0] at h
          dsimp only at h
          by_cases hcb : c0 = ']'
          · rw [if_pos hcb] at h
            simp only [Option.some.injEq, Prod.mk.injEq] at h
            exact hgarr h.1.symm
          · rw [if_neg hcb] at h
            cases hcw : chAt inp ((s0.withPos (skipWSPos inp opts s0.pos)).pos) with
            | none =>
              rw [hcw] at h
              dsimp only at h
              simp only [Option.some.injEq, Prod.mk.injEq] at h
              exact hgarr h.1.symm
            | some c =>
              rw [hcw] at h
              dsimp only at h
              split at h
              · exact ih _ _ _ h hacc
              · split at h
                · simp only [Option.some.injEq, Prod.mk.injEq] at h
                  exact hgarr h.1.symm
                · split at h
                  · split at h
                    · simp only [Option.some.injEq, Prod.mk.injEq] at h
                      exact hgarr h.1.symm
                    · exact ih _ _ _ h hacc
                  · split at h
                    · simp only [Option.some.injEq, Prod.mk.injEq] at h
                      exact hgarr h.1.symm
                    · split at h
                      · cases h
                      · rename_i v1 s1 heq
                        have hsub := ih _ _ _ heq trivial
                        have helems := elemsGood_filter elems v1 hacc hsub
                        have hgarr2 : ∀ t : St,
                            v = Value.arr (if v1.isAbsent = true then elems
                              else elems ++ [v1]) →
                            (v = .absent ∨ goodVal v) := by
                          intro t hv
                          rw [hv]
                          exact Or.inr (goodVal_arr _ helems)
                        split at h
                        · simp only [Option.some.injEq, Prod.mk.injEq] at h
                          exact hgarr h.1.symm
                        · split at h
                          · exact ih _ _ _ h helems
                          · split at h
                            · exact ih _ _ _ h helems
                            · split at h
                              · simp only [Option.some.injEq, Prod.mk.injEq] at h
                                exact hgarr2 s h.1.symm
                              · split at h
                                · simp only [Option.some.injEq, Prod.mk.injEq] at h
                                  exact hgarr2 s h.1.symm
                                · exact ih _ _ _ h helems

/-- Every value `parse_smart` hands back is good: Absent-free and with
distinct keys in every object node. -/
theorem parseSmart_results_good (inp : List Char) (opts : Options) (o : Outcome)
    (h : parseSmartL inp opts = some o) :
    ∀ v ∈ o.results, NoAbsent v ∧ NodupKeys v := by
  rw [parseSmartL] at h
  split at h
  · simp only [Option.some.injEq] at h
    rw [← h]
    intro v hv
    cases hv
  · split at h
    · cases h
    · rename_i v0 s0 heq
      split at h
      · simp only [Option.some.injEq] at h
        rw [← h]
        intro v hv
        cases hv
      · simp only [Option.some.injEq] at h
        rw [← h]
        intro v hv
        dsimp only at hv
        split at hv
        · cases hv
        · rename_i hflt
          rw [List.mem_singleton.mp hv]
          have hgood : v0 = .absent ∨ goodVal v0 := by
            rw [parseF] at heq
            dsimp only at heq
            split at heq <;> split at heq
            · simp only [Option.some.injEq, Prod.mk.injEq] at heq
              rw [← heq.1]
              exact Or.inr ⟨NoAbsent.null, NodupKeys.null⟩
            · exact step_good inp opts _ _ _ _ heq trivial
            · simp only [Option.some.injEq, Prod.mk.injEq] at heq
              rw [← heq.1]
              exact Or.inr ⟨NoAbsent.null, NodupKeys.null⟩
            · exact step_good inp opts _ _ _ _ heq trivial
          rcases hgood with rfl | hg
          · simp at hflt
          · exact hg

/-- C8: the Absent sentinel never appears in a returned value tree: any
value the interpreter hands back over a sentinel-free accumulator is
Absent or wholly Absent-free; the object reader's substitution stores Null
for an Absent member and the array reader's filter drops an Absent
element; and every value in `parse_smart`'s `results` is Absent-free. -/
theorem C8_absent_never_returned (inp : List Char) (opts : Options) :
    (∀ (f : Nat) (req : Req) (v : Value) (s : St),
      step inp opts f req = some (v, s) → Req.accGood req →
      (v = .absent ∨ NoAbsent v)) ∧
    (∀ (key : List Char) (fields : List (List Char × Value)) (v : Value),
      v.isAbsent = true →
      setKeyJs fields key (if v.isAbsent = true then .null else v) =
        setKeyJs fields key .null) ∧
    (∀ (es : List Value) (v : Value), v.isAbsent = true →
      (if v.isAbsent = true then es else es ++ [v]) = es) ∧
    (∀ o : Outcome, parseSmartL inp opts = some o → ∀ v ∈ o.results, NoAbsent v) := by
  refine ⟨?_, ?_, ?_, ?_⟩
  · intro f req v s h hg
    rcases step_good inp opts f req v s h hg with h0 | h0
    · exact Or.inl h0
    · exact Or.inr h0.1
  · intro key fields v hv
    rw [if_pos hv]
  · intro es v hv
    rw [if_pos hv]
  · intro o ho v hv
    exact (parseSmart_results_good inp opts o ho v hv).1

/-- Absent invisibility at the concrete input `\x7ba:\x7d`, where the
dispatcher does return Absent for the member value and Null is stored. -/
theorem C8_witness :
    ∀ v ∈ (Outcome.mk false [.obj [(['a'], .null)]] 1
      ["[pos 2] Unquoted key \"a\" at pos 2"] false).results, NoAbsent v :=
  (C8_absent_never_returned ("\x7ba:\x7d".data) defaultOptions).2.2.2
    ⟨false, [.obj [(['a'], .null)]], 1, ["[pos 2] Unquoted key \"a\" at pos 2"], false⟩
    rfl

/-- C4 counterexample: the observable key order of a JS object is not
first-insertion order when a key is an array index — for
`\x7b"1":0,"0":0\x7d` the creation order is `1, 0` but the observable
order (`OrdinaryOwnPropertyKeys`, as `Object.keys`/`JSON.stringify`
enumerate) is `0, 1` — and a key can fail to appear at all: assigning
`__proto__` on a plain object creates no own property, so
`\x7b"__proto__":1\x7d` parses to an object with no keys. -/
theorem C4_counterexample :
    parseSmartL ("\x7b\"1\":0,\"0\":0\x7d".data) defaultOptions =
      some ⟨true, [.obj [(['1'], .num ['0']), (['0'], .num ['0'])]], 0, [], false⟩ ∧
    [(['1'], Value.num ['0']), (['0'], Value.num ['0'])].map Prod.fst = [['1'], ['0']] ∧
    jsKeyOrder [(['1'], Value.num ['0']), (['0'], Value.num ['0'])] = [['0'], ['1']] ∧
    parseSmartL ("\x7b\"__proto__\":1\x7d".data) defaultOptions =
      some ⟨true, [.obj []], 0, [], false⟩ :=
  ⟨rfl, rfl, rfl, rfl⟩

/-- C4 (amended): the parser stores object members through the JS
assignment `obj[key] = value`.  For every key other than `__proto__` the
field lists are ordered mappings in first-insertion order with
last-write-wins — a repeated key keeps its position and only its value
changes, a fresh key appends, lookups of other keys are untouched — and
every object node in `results` has pairwise distinct keys.  Assigning the
key `__proto__` creates no own property at all (the field list is
unchanged), and the *observable* JS key order coincides with insertion
order only when no key is an array index. -/
theorem C4_key_order (inp : List Char) (opts : Options) :
    (∀ (fs : List (List Char × Value)) (k : List Char) (v : Value),
      ¬ k = "__proto__".data →
      (setKeyJs fs k v).map Prod.fst =
        (if k ∈ fs.map Prod.fst then fs.map Prod.fst else fs.map Prod.fst ++ [k])) ∧
    (∀ (fs : List (List Char × Value)) (k : List Char) (v : Value),
      ¬ k = "__proto__".data → getKey (setKeyJs fs k v) k = some v) ∧
    (∀ (fs : List (List Char × Value)) (k k' : List Char) (v : Value),
      ¬ k' = k → ¬ k = "__proto__".data →
      getKey (setKeyJs fs k v) k' = getKey fs k') ∧
    (∀ (fs : List (List Char × Value)) (v : Value),
      setKeyJs fs ("__proto__".data) v = fs) ∧
    (∀ fs : List (List Char × Value),
      (∀ k ∈ fs.map Prod.fst, isArrayIndexKey k = false) →
      jsKeyOrder fs = fs.map Prod.fst) ∧
    (∀ o : Outcome, parseSmartL inp opts = some o → ∀ v ∈ o.results, NodupKeys v) := by
  refine ⟨?_, ?_, ?_, ?_, ?_, ?_⟩
  · intro fs k v hp
    rw [setKeyJs_of_ne fs v hp]
    exact setKey_keys fs k v
  · intro fs k v hp
    rw [setKeyJs_of_ne fs v hp]
    exact getKey_setKey fs k v
  · intro fs k k' v hne hp
    rw [setKeyJs_of_ne fs v hp]
    exact getKey_setKey_other fs k k' v hne
  · intro fs v
    rw [setKeyJs, if_pos rfl]
  · intro fs hno
    rw [jsKeyOrder]
    have h1 : (fs.map Prod.fst).filter isArrayIndexKey = [] := by
      rw [List.filter_eq_nil]
      intro a ha
      simp [hno a ha]
    have h2 : ((fs.map Prod.fst).filter fun k => !isArrayIndexKey k) = fs.map Prod.fst := by
      rw [List.filter_eq_self]
      intro a ha
      simp [hno a ha]
    rw [h1, h2]
    rfl
  · intro o ho v hv
    exact (parseSmart_results_good inp opts o ho v hv).2

/-- Insertion-order bookkeeping exercised concretely: overwriting `a` in
`a, b` keeps its position and value-update, assigning `__proto__` stores
nothing, and the duplicate-free key invariant holds of a parsed object. -/
theorem C4_witness :
    (setKeyJs [(['a'], Value.null), (['b'], Value.null)] ['a']
        (Value.num ['1'])).map Prod.fst =
      (if ['a'] ∈ [(['a'], Value.null), (['b'], Value.null)].map Prod.fst
        then [(['a'], Value.null), (['b'], Value.null)].map Prod.fst
        else [(['a'], Value.null), (['b'], Value.null)].map Prod.fst ++ [['a']]) ∧
    setKeyJs [(['a'], Value.null)] ("__proto__".data) (Value.num ['1']) =
      [(['a'], Value.null)] ∧
    ∀ v ∈ (Outcome.mk true [.obj [(['1'], .num ['0']), (['0'], .num ['0'])]]
      0 [] false).results, NodupKeys v :=
  ⟨(C4_key_order [] defaultOptions).1 [(['a'], Value.null), (['b'], Value.null)]
      ['a'] (Value.num ['1']) (by decide),
   (C4_key_order [] defaultOptions).2.2.2.1 [(['a'], Value.null)] (Value.num ['1']),
   (C4_key_order ("\x7b\"1\":0,\"0\":0\x7d".data) defaultOptions).2.2.2.2.2
     ⟨true, [.obj [(['1'], .num ['0']), (['0'], .num ['0'])]], 0, [], false⟩ rfl⟩

/-- C9: on the sentinel quote the reader applies the unescaped-quote
heuristic: the quote terminates the string (and is consumed) iff the next
non-whitespace character after it is end-of-input or one of
`, : \x7d ] \x7b [`; otherwise the "Unescaped quote in string at pos N"
diagnostic is logged and — unless the strict-mode exception fires — the
quote is appended to the value as a literal character and reading
continues past it. -/
theorem C9_unescaped_quote (inp : List Char) (opts : Options) (q : Char)
    (f : Nat) (acc : List Char) (s : St)
    (hch : chAt inp s.pos = some q) (hq : ¬ q = '\\') :
    ((match chAt inp (wsScan inp inp.length (s.pos + 1)) with
      | none => true
      | some nx => nx = ',' || nx = ':' || nx = rbrace || nx = ']' ||
          nx = lbrace || nx = '[') = true →
      parseStringGo inp opts q (f+1) acc s = (acc, s.withPos (s.pos + 1))) ∧
    ((match chAt inp (wsScan inp inp.length (s.pos + 1)) with
      | none => true
      | some nx => nx = ',' || nx = ':' || nx = rbrace || nx = ']' ||
          nx = lbrace || nx = '[') = false →
      parseStringGo inp opts q (f+1) acc s =
        (if (s.push opts ("Unescaped quote in string at pos " ++
              Nat.repr s.pos)).fatal = true then
          (acc, s.push opts ("Unescaped quote in string at pos " ++ Nat.repr s.pos))
        else
          parseStringGo inp opts q f (acc ++ [q])
            ((s.push opts ("Unescaped quote in string at pos " ++
              Nat.repr s.pos)).withPos
              ((s.push opts ("Unescaped quote in string at pos " ++
                Nat.repr s.pos)).pos + 1)))) := by
  constructor
  · intro hlook
    rw [parseStringGo, hch]
    dsimp only
    rw [if_neg hq, if_pos rfl, if_pos hlook]
  · intro hlook
    rw [parseStringGo, hch]
    dsimp only
    rw [if_neg hq, if_pos rfl, if_neg (by simp [hlook])]

/-- The heuristic at two concrete inputs: `":` (follower `:` terminates
the string) and `"b` (follower `b` turns the quote into a literal). -/
theorem C9_witness :
    parseStringGo ['"', ':'] defaultOptions '"' 3 ['x'] ⟨0, [], 0, 0, false⟩ =
      (['x'], (⟨0, [], 0, 0, false⟩ : St).withPos (0 + 1)) ∧
    parseStringGo ['"', 'b'] defaultOptions '"' 3 [] ⟨0, [], 0, 0, false⟩ =
      (if ((⟨0, [], 0, 0, false⟩ : St).push defaultOptions
            ("Unescaped quote in string at pos " ++ Nat.repr 0)).fatal = true then
        ([], (⟨0, [], 0, 0, false⟩ : St).push defaultOptions
          ("Unescaped quote in string at pos " ++ Nat.repr 0))
      else
        parseStringGo ['"', 'b'] defaultOptions '"' 2 ([] ++ ['"'])
          (((⟨0, [], 0, 0, false⟩ : St).push defaultOptions
            ("Unescaped quote in string at pos " ++ Nat.repr 0)).withPos
            (((⟨0, [], 0, 0, false⟩ : St).push defaultOptions
              ("Unescaped quote in string at pos " ++ Nat.repr 0)).pos + 1))) :=
  ⟨(C9_unescaped_quote ['"', ':'] defaultOptions '"' 2 ['x'] ⟨0, [], 0, 0, false⟩
      rfl (by decide)).1 rfl,
   (C9_unescaped_quote ['"', 'b'] defaultOptions '"' 2 [] ⟨0, [], 0, 0, false⟩
      rfl (by decide)).2 rfl⟩

/-!
## C1: strict JSON fidelity

The development below relates the parser to the reference strict JSON
decoder: whitespace-scan agreement, token-level simulations for strings
and numbers, quietness of the array heuristic on strict JSON, and the
mutual simulation of the container loops, assembled into the fidelity
theorem.
-/

/-! ## Character-class bridges -/

theorem char_toNat_le {a b : Char} (h : a ≤ b) : a.toNat ≤ b.toNat := by
  exact_mod_cast h

theorem ne_of_pred {P : Char → Bool} {c x : Char} (h : P c = true) (hx : P x = false) :
    ¬ c = x := fun he => by subst he; rw [h] at hx; exact Bool.noConfusion hx

theorem isJsWs_false_of_isDigit {c : Char} (h : isDigit c = true) : isJsWs c = false := by
  simp only [isDigit, Bool.and_eq_true, decide_eq_true_eq] at h
  have h0 := char_toNat_le h.1
  have h9 := char_toNat_le h.2
  have e0 : ('0').toNat = 48 := rfl
  have e9 : ('9').toNat = 57 := rfl
  rw [e0] at h0; rw [e9] at h9
  rw [Bool.eq_false_iff]
  intro ht
  simp only [isJsWs, Bool.or_eq_true, Bool.and_eq_true, decide_eq_true_eq] at ht
  omega

theorem isIdentStart_false_of_isDigit {c : Char} (h : isDigit c = true) :
    isIdentStart c = false := by
  have hd := h
  simp only [isDigit, Bool.and_eq_true, decide_eq_true_eq] at h
  have h0 := char_toNat_le h.1
  have h9 := char_toNat_le h.2
  have e0 : ('0').toNat = 48 := rfl
  have e9 : ('9').toNat = 57 := rfl
  rw [e0] at h0; rw [e9] at h9
  rw [Bool.eq_false_iff]
  intro ht
  simp only [isIdentStart, Bool.or_eq_true, Bool.and_eq_true, decide_eq_true_eq] at ht
  rcases ht with ((⟨hl, hr⟩ | ⟨hl, hr⟩) | he) | he
  · have := char_toNat_le hl
    have ea : ('a').toNat = 97 := rfl
    rw [ea] at this
    omega
  · have := char_toNat_le hr
    have eZ : ('Z').toNat = 90 := rfl
    have hA := char_toNat_le hl
    have eA : ('A').toNat = 65 := rfl
    rw [eZ] at this; rw [eA] at hA
    omega
  · exact absurd hd (by subst he; decide)
  · exact absurd hd (by subst he; decide)

theorem isJsonWs_cases {c : Char} (h : isJsonWs c = true) :
    c = ' ' ∨ c = '\t' ∨ c = '\n' ∨ c = '\r' := by
  simp only [isJsonWs, Bool.or_eq_true, decide_eq_true_eq] at h
  tauto

theorem isJsWs_of_isJsonWs {c : Char} (h : isJsonWs c = true) : isJsWs c = true := by
  rcases isJsonWs_cases h with he | he | he | he <;> (subst he; decide)

theorem hexDigit_plain {c : Char} (h : isHexDigit c = true) :
    (¬ c = '\\') ∧ (¬ c = '"') ∧ ((c = '\n' || c = '\r') = false) := by
  refine ⟨ne_of_pred h (by decide), ne_of_pred h (by decide), ?_⟩
  rw [Bool.eq_false_iff]
  intro ht
  simp only [Bool.or_eq_true, decide_eq_true_eq] at ht
  rcases ht with he | he <;> (subst he; exact absurd h (by decide))

/-! ## Fuel congruence of the scan loops -/

theorem jsonWsEnd_none (inp : List Char) {p : Nat} (hc : chAt inp p = none) :
    ∀ f, jsonWsEnd inp f p = p := by
  intro f
  cases f with
  | zero => rfl
  | succ n => rw [jsonWsEnd, hc]

theorem jsonWsEnd_eof (inp : List Char) {p : Nat} (hp : inp.length ≤ p) :
    ∀ f, jsonWsEnd inp f p = p :=
  jsonWsEnd_none inp (chAt_none_of_le hp)

theorem jsonWsEnd_congr (inp : List Char) :
    ∀ (f g p : Nat), inp.length - p ≤ f → inp.length - p ≤ g →
    jsonWsEnd inp f p = jsonWsEnd inp g p := by
  intro f
  induction f with
  | zero =>
    intro g p hf hg
    have hp : inp.length ≤ p := by omega
    rw [jsonWsEnd_eof inp hp 0, jsonWsEnd_eof inp hp g]
  | succ n ih =>
    intro g p hf hg
    cases hc : chAt inp p with
    | none => rw [jsonWsEnd_none inp hc (n+1), jsonWsEnd_none inp hc g]
    | some c =>
      have hlt := le_of_chAt_some hc
      obtain ⟨m, rfl⟩ : ∃ m, g = m + 1 := ⟨g - 1, by omega⟩
      rw [jsonWsEnd, jsonWsEnd, hc]
      dsimp only
      by_cases hw : isJsonWs c = true
      · rw [if_pos hw, if_pos hw]
        exact ih m (p+1) (by omega) (by omega)
      · rw [if_neg hw, if_neg hw]

theorem jsonWsEnd_fuel (inp : List Char) {f p : Nat} (h : inp.length - p ≤ f) :
    jsonWsEnd inp f p = jWs inp p :=
  jsonWsEnd_congr inp f inp.length p h (Nat.sub_le _ _)

theorem wsScan_none (inp : List Char) {p : Nat} (hc : chAt inp p = none) :
    ∀ f, wsScan inp f p = p := by
  intro f
  cases f with
  | zero => rfl
  | succ n => rw [wsScan, hc]

theorem wsScan_congr (inp : List Char) :
    ∀ (f g p : Nat), inp.length - p ≤ f → inp.length - p ≤ g →
    wsScan inp f p = wsScan inp g p := by
  intro f
  induction f with
  | zero =>
    intro g p hf hg
    have hp : inp.length ≤ p := by omega
    rw [wsScan_none inp (chAt_none_of_le hp) 0, wsScan_none inp (chAt_none_of_le hp) g]
  | succ n ih =>
    intro g p hf hg
    cases hc : chAt inp p with
    | none => rw [wsScan_none inp hc (n+1), wsScan_none inp hc g]
    | some c =>
      have hlt := le_of_chAt_some hc
      obtain ⟨m, rfl⟩ : ∃ m, g = m + 1 := ⟨g - 1, by omega⟩
      rw [wsScan, wsScan, hc]
      dsimp only
      by_cases hw : isJsWs c = true
      · rw [if_pos hw, if_pos hw]
        exact ih m (p+1) (by omega) (by omega)
      · rw [if_neg hw, if_neg hw]

theorem skipWSAux_congr (inp : List Char) (opts : Options) :
    ∀ (f g p : Nat), inp.length - p ≤ f → inp.length - p ≤ g →
    skipWSAux inp opts f p = skipWSAux inp opts g p := by
  intro f
  induction f with
  | zero =>
    intro g p hf hg
    have hp : inp.length ≤ p := by omega
    rw [skipWSAux_eof inp opts 0 p hp, skipWSAux_eof inp opts g p hp]
  | succ n ih =>
    intro g p hf hg
    cases hc : chAt inp p with
    | none =>
      have hp := le_of_chAt_none hc
      rw [skipWSAux_eof inp opts (n+1) p hp, skipWSAux_eof inp opts g p hp]
    | some c =>
      have hlt := le_of_chAt_some hc
      obtain ⟨m, rfl⟩ : ∃ m, g = m + 1 := ⟨g - 1, by omega⟩
      rw [skipWSAux, skipWSAux, hc]
      dsimp only
      by_cases hw : isJsWs c = true
      · rw [if_pos hw, if_pos hw]
        exact ih m (p+1) (by omega) (by omega)
      · rw [if_neg hw, if_neg hw]
        by_cases hl : (opts.allowComments && c = '/' && chAt inp (p+1) = some '/') = true
        · rw [if_pos hl, if_pos hl]
          have h2 := le_lineEnd inp inp.length (p+2)
          exact ih m _ (by omega) (by omega)
        · rw [if_neg hl, if_neg hl]
          by_cases hb : (opts.allowComments && c = '/' && chAt inp (p+1) = some '*') = true
          · rw [if_pos hb, if_pos hb]
            have h2 := le_blockEnd inp inp.length (p+2)
            exact ih m _ (by omega) (by omega)
          · rw [if_neg hb, if_neg hb]

theorem skipWSAux_fuel (inp : List Char) (opts : Options) {f p : Nat}
    (h : inp.length - p ≤ f) : skipWSAux inp opts f p = skipWSPos inp opts p :=
  skipWSAux_congr inp opts f inp.length p h (Nat.sub_le _ _)

/-! ## Agreement of the scans on strict-JSON whitespace -/

theorem jWs_first (inp : List Char) {p : Nat} (h : p < jWs inp p) :
    ∃ c, chAt inp p = some c ∧ isJsonWs c = true := by
  rw [jWs] at h
  cases hl : inp.length with
  | zero => rw [hl] at h; exact absurd h (by simp [jsonWsEnd])
  | succ m =>
    rw [hl, jsonWsEnd] at h
    cases hc : chAt inp p with
    | none => rw [hc] at h; exact absurd h (by simp)
    | some c =>
      rw [hc] at h
      dsimp only at h
      by_cases hw : isJsonWs c = true
      · exact ⟨c, rfl, hw⟩
      · rw [if_neg hw] at h
        exact absurd h (by simp)

theorem skipWSPos_eq_jWs (inp : List Char) (opts : Options) :
    ∀ (f p : Nat), inp.length - p ≤ f → JStop inp p →
    skipWSPos inp opts p = jWs inp p := by
  intro f
  induction f with
  | zero =>
    intro p hf _
    have hp : inp.length ≤ p := by omega
    rw [skipWSPos, skipWSAux_eof inp opts _ p hp, jWs, jsonWsEnd_eof inp hp]
  | succ n ih =>
    intro p hf hstop
    cases hc : chAt inp p with
    | none =>
      rw [skipWSPos, skipWSAux_eof inp opts _ p (le_of_chAt_none hc), jWs,
        jsonWsEnd_none inp hc]
    | some c =>
      have hlt := le_of_chAt_some hc
      obtain ⟨m, hm⟩ : ∃ m, inp.length = m + 1 := ⟨inp.length - 1, by omega⟩
      by_cases hw : isJsonWs c = true
      · have hj : jWs inp p = jWs inp (p+1) := by
          rw [jWs, hm, jsonWsEnd, hc]
          dsimp only
          rw [if_pos hw]
          exact jsonWsEnd_congr inp m inp.length (p+1) (by omega) (Nat.sub_le _ _)
        have hs : skipWSPos inp opts p = skipWSPos inp opts (p+1) := by
          rw [skipWSPos, hm, skipWSAux, hc]
          dsimp only
          rw [if_pos (isJsWs_of_isJsonWs hw)]
          exact skipWSAux_congr inp opts m inp.length (p+1) (by omega) (Nat.sub_le _ _)
        rw [hs, hj]
        refine ih (p+1) (by omega) ?_
        simp only [JStop] at hstop ⊢
        rw [← hj]
        exact hstop
      · have hj : jWs inp p = p := by
          rw [jWs, hm, jsonWsEnd, hc]
          dsimp only
          rw [if_neg hw]
        rw [hj]
        simp only [JStop, hj] at hstop
        rcases hstop with hlen | ⟨c', hc', hws, hsl⟩
        · omega
        · rw [hc] at hc'
          injection hc' with hc'
          subst hc'
          rw [skipWSPos]
          exact skipWSAux_stable_here inp opts hc hws
            (by simp [hsl]) (by simp [hsl]) inp.length

theorem wsScan_eq_jWs (inp : List Char) :
    ∀ (f p : Nat), inp.length - p ≤ f → JStop inp p →
    wsScan inp inp.length p = jWs inp p := by
  intro f
  induction f with
  | zero =>
    intro p hf _
    have hp : inp.length ≤ p := by omega
    rw [wsScan_none inp (chAt_none_of_le hp), jWs, jsonWsEnd_eof inp hp]
  | succ n ih =>
    intro p hf hstop
    cases hc : chAt inp p with
    | none => rw [wsScan_none inp hc, jWs, jsonWsEnd_none inp hc]
    | some c =>
      have hlt := le_of_chAt_some hc
      obtain ⟨m, hm⟩ : ∃ m, inp.length = m + 1 := ⟨inp.length - 1, by omega⟩
      by_cases hw : isJsonWs c = true
      · have hj : jWs inp p = jWs inp (p+1) := by
          rw [jWs, hm, jsonWsEnd, hc]
          dsimp only
          rw [if_pos hw]
          exact jsonWsEnd_congr inp m inp.length (p+1) (by omega) (Nat.sub_le _ _)
        have hs : wsScan inp inp.length p = wsScan inp inp.length (p+1) := by
          conv_lhs => rw [hm]
          rw [wsScan, hc]
          dsimp only
          rw [if_pos (isJsWs_of_isJsonWs hw)]
          exact wsScan_congr inp m inp.length (p+1) (by omega) (Nat.sub_le _ _)
        rw [hs, hj]
        refine ih (p+1) (by omega) ?_
        simp only [JStop] at hstop ⊢
        rw [← hj]
        exact hstop
      · have hj : jWs inp p = p := by
          rw [jWs, hm, jsonWsEnd, hc]
          dsimp only
          rw [if_neg hw]
        rw [hj]
        simp only [JStop, hj] at hstop
        rcases hstop with hlen | ⟨c', hc', hws, _⟩
        · omega
        · rw [hc] at hc'
          injection hc' with hc'
          subst hc'
          conv_lhs => rw [hm]
          rw [wsScan, hc]
          dsimp only
          rw [if_neg (by simp [hws])]

/-- The lookahead condition of the string reader holds whenever strict JSON
continues after `p` with whitespace-then-separator/closer or ends. -/
theorem strClose_of_follow (inp : List Char) {p : Nat} (h : FollowOk inp p) :
    chAt inp (wsScan inp inp.length p) = none ∨
    ∃ nx, chAt inp (wsScan inp inp.length p) = some nx ∧
      (nx = ',' || nx = ':' || nx = rbrace || nx = ']' ||
        nx = lbrace || nx = '[') = true := by
  have hstop : JStop inp p := by
    rcases h with hl | hx | hx | hx | hx
    · exact Or.inl hl
    · exact Or.inr ⟨',', hx, by decide, by decide⟩
    · exact Or.inr ⟨':', hx, by decide, by decide⟩
    · exact Or.inr ⟨rbrace, hx, by decide, by decide⟩
    · exact Or.inr ⟨']', hx, by decide, by decide⟩
  rw [wsScan_eq_jWs inp inp.length p (Nat.sub_le _ _) hstop]
  rcases h with hl | hx | hx | hx | hx
  · exact Or.inl (chAt_none_of_le hl)
  · exact Or.inr ⟨',', hx, by decide⟩
  · exact Or.inr ⟨':', hx, by decide⟩
  · exact Or.inr ⟨rbrace, hx, by decide⟩
  · exact Or.inr ⟨']', hx, by decide⟩

/-! ## Token-level facts -/

theorem matchWord_chars {inp : List Char} {p : Nat} {w : List Char}
    (h : matchWord inp p w = true) :
    ∀ i, i < w.length → chAt inp (p + i) = w.get? i := by
  rw [matchWord, List.isPrefixOf_iff_prefix] at h
  obtain ⟨t, ht⟩ := h
  intro i hi
  rw [chAt, ← List.get?_drop, ← ht, List.get?_append hi]

theorem escChar_of_jsonEscChar {e ec : Char} (h : jsonEscChar e = some ec) :
    escChar e = some ec := by
  rw [jsonEscChar] at h
  split_ifs at h with h1 h2 h3 h4 h5 h6 h7 h8
  · subst h1; injection h with h; subst h; rfl
  · subst h2; injection h with h; subst h; rfl
  · subst h3; injection h with h; subst h; rfl
  · subst h4; injection h with h; subst h; rfl
  · subst h5; injection h with h; subst h; rfl
  · subst h6; injection h with h; subst h; rfl
  · subst h7; injection h with h; subst h; rfl
  · subst h8; injection h with h; subst h; rfl

theorem hexScan_four {inp : List Char} {p : Nat} {h1 h2 h3 h4 : Char}
    (e1 : chAt inp p = some h1) (e2 : chAt inp (p+1) = some h2)
    (e3 : chAt inp (p+2) = some h3) (e4 : chAt inp (p+3) = some h4)
    (x1 : isHexDigit h1 = true) (x2 : isHexDigit h2 = true)
    (x3 : isHexDigit h3 = true) (x4 : isHexDigit h4 = true) :
    hexScan inp 4 p = [h1, h2, h3, h4] := by
  rw [show (4:Nat) = 3+1 from rfl, hexScan, e1]
  dsimp only
  rw [if_pos x1]
  rw [show (3:Nat) = 2+1 from rfl, hexScan, e2]
  dsimp only
  rw [if_pos x2]
  rw [show (2:Nat) = 1+1 from rfl, hexScan, e3]
  dsimp only
  rw [if_pos x3]
  rw [show (1:Nat) = 0+1 from rfl, hexScan, e4]
  dsimp only
  rw [if_pos x4]
  rfl

theorem identEnd_span (inp : List Char) :
    ∀ (n f p : Nat), inp.length - p ≤ f →
    (∀ i, i < n → ∃ c, chAt inp (p+i) = some c ∧ isWordChar c = true) →
    (chAt inp (p+n) = none ∨ ∃ c, chAt inp (p+n) = some c ∧ isWordChar c = false) →
    identEnd inp f p = p + n := by
  intro n
  induction n with
  | zero =>
    intro f p hf hall hstop
    rw [Nat.add_zero]
    rcases hstop with hid | ⟨c, hc, hw⟩
    · rw [Nat.add_zero] at hid
      cases f with
      | zero => rfl
      | succ m => rw [identEnd, hid]
    · rw [Nat.add_zero] at hc
      cases f with
      | zero => rfl
      | succ m =>
        rw [identEnd, hc]
        dsimp only
        rw [if_neg (by simp [hw])]
  | succ n ih =>
    intro f p hf hall hstop
    obtain ⟨c, hc, hw⟩ := hall 0 (Nat.succ_pos n)
    rw [Nat.add_zero] at hc
    have hlt := le_of_chAt_some hc
    obtain ⟨m, rfl⟩ : ∃ m, f = m + 1 := ⟨f - 1, by omega⟩
    rw [identEnd, hc]
    dsimp only
    rw [if_pos hw]
    have hrec := ih m (p+1) (by omega)
      (fun i hi => by
        obtain ⟨d, hd, hwd⟩ := hall (i+1) (by omega)
        refine ⟨d, ?_, hwd⟩
        rw [show p + 1 + i = p + (i+1) from by omega]
        exact hd)
      (by
        rcases hstop with hid | ⟨d, hd, hwd⟩
        · left
          rw [show p + 1 + n = p + (n+1) from by omega]
          exact hid
        · right
          refine ⟨d, ?_, hwd⟩
          rw [show p + 1 + n = p + (n+1) from by omega]
          exact hd)
    rw [hrec]
    omega

theorem digitsEnd_span (inp : List Char) :
    ∀ (f p i : Nat), p ≤ i → i < digitsEnd inp f p →
    ∃ c, chAt inp i = some c ∧ isDigit c = true := by
  intro f
  induction f with
  | zero =>
    intro p i hpi hil
    rw [digitsEnd] at hil
    omega
  | succ n ih =>
    intro p i hpi hil
    rw [digitsEnd] at hil
    cases hc : chAt inp p with
    | none =>
      rw [hc] at hil
      dsimp only at hil
      omega
    | some c =>
      rw [hc] at hil
      dsimp only at hil
      by_cases hd : isDigit c = true
      · rw [if_pos hd] at hil
        rcases Nat.eq_or_lt_of_le hpi with rfl | hlt
        · exact ⟨c, hc, hd⟩
        · exact ih (p+1) i hlt hil
      · rw [if_neg hd] at hil
        omega

theorem digitsEnd_le_length (inp : List Char) :
    ∀ (f p : Nat), p ≤ inp.length → digitsEnd inp f p ≤ inp.length := by
  intro f
  induction f with
  | zero => intro p h; exact h
  | succ n ih =>
    intro p h
    rw [digitsEnd]
    cases hc : chAt inp p with
    | none => exact h
    | some c =>
      dsimp only
      have := le_of_chAt_some hc
      split
      · exact ih (p+1) (by omega)
      · exact h

theorem slice_get (inp : List Char) (a n j : Nat) (hj : j < n) :
    ((inp.drop a).take n).get? j = inp.get? (a + j) := by
  rw [List.get?_take hj, List.get?_drop]

theorem takeWhile_append_all {α : Type} (P : α → Bool) :
    ∀ (l1 l2 : List α), (∀ x ∈ l1, P x = true) →
    (l1 ++ l2).takeWhile P = l1 ++ l2.takeWhile P := by
  intro l1
  induction l1 with
  | nil => intro l2 _; rfl
  | cons a t ih =>
    intro l2 hall
    rw [List.cons_append, List.takeWhile_cons, if_pos (hall a (List.mem_cons_self a t)),
      ih l2 (fun x hx => hall x (List.mem_cons_of_mem a hx)), List.cons_append]

theorem dropWhile_append_all {α : Type} (P : α → Bool) :
    ∀ (l1 l2 : List α), (∀ x ∈ l1, P x = true) →
    (l1 ++ l2).dropWhile P = l2.dropWhile P := by
  intro l1
  induction l1 with
  | nil => intro l2 _; rfl
  | cons a t ih =>
    intro l2 hall
    rw [List.cons_append, List.dropWhile_cons, if_pos (hall a (List.mem_cons_self a t)),
      ih l2 (fun x hx => hall x (List.mem_cons_of_mem a hx))]

/-! ## Start characters and bottom-up facts of the decoder -/

theorem jvalue_start (inp : List Char) {jf : Nat} {p : Nat} {r : JRes}
    (h : jstep inp jf (.jvalue p) = some r) :
    ∃ c, chAt inp p = some c ∧ isJsWs c = false ∧ isJsonWs c = false ∧
      ¬ c = '/' ∧ ¬ c = rbrace ∧ ¬ c = ']' ∧ ¬ c = ',' ∧ ¬ c = ':' := by
  cases jf with
  | zero => exact absurd h (by simp [jstep])
  | succ n =>
    rw [jstep] at h
    cases hc : chAt inp p with
    | none => rw [hc] at h; exact Option.noConfusion h
    | some c =>
      rw [hc] at h
      dsimp only at h
      refine ⟨c, rfl, ?_⟩
      by_cases h1 : c = lbrace
      · subst h1; exact ⟨by decide, by decide, by decide, by decide, by decide,
          by decide, by decide⟩
      rw [if_neg h1] at h
      by_cases h2 : c = '['
      · subst h2; exact ⟨by decide, by decide, by decide, by decide, by decide,
          by decide, by decide⟩
      rw [if_neg h2] at h
      by_cases h3 : c = '"'
      · subst h3; exact ⟨by decide, by decide, by decide, by decide, by decide,
          by decide, by decide⟩
      rw [if_neg h3] at h
      by_cases h4 : (c = '-' || isDigit c) = true
      · rcases Bool.or_eq_true _ _ |>.mp h4 with hm | hd
        · replace hm : c = '-' := by simpa using hm
          subst hm
          exact ⟨by decide, by decide, by decide, by decide, by decide,
            by decide, by decide⟩
        · refine ⟨isJsWs_false_of_isDigit hd, ?_, ne_of_pred hd (by decide),
            ne_of_pred hd (by decide), ne_of_pred hd (by decide),
            ne_of_pred hd (by decide), ne_of_pred hd (by decide)⟩
          rw [Bool.eq_false_iff]
          intro hj
          rcases isJsonWs_cases hj with he | he | he | he <;>
            (subst he; exact absurd hd (by decide))
      rw [if_neg h4] at h
      by_cases h5 : matchWord inp p wTrue = true
      · have := matchWord_head h5
        rw [hc] at this
        injection this with this
        subst this
        exact ⟨by decide, by decide, by decide, by decide, by decide,
          by decide, by decide⟩
      rw [if_neg h5] at h
      by_cases h6 : matchWord inp p wFalse = true
      · have := matchWord_head h6
        rw [hc] at this
        injection this with this
        subst this
        exact ⟨by decide, by decide, by decide, by decide, by decide,
          by decide, by decide⟩
      rw [if_neg h6] at h
      by_cases h7 : matchWord inp p wNull = true
      · have := matchWord_head h7
        rw [hc] at this
        injection this with this
        subst this
        exact ⟨by decide, by decide, by decide, by decide, by decide,
          by decide, by decide⟩
      rw [if_neg h7] at h
      exact Option.noConfusion h

theorem jmembers_start (inp : List Char) {jf : Nat}
    {fields : List (List Char × Value)} {d : Nat} {ok : Bool} {p : Nat} {r : JRes}
    (h : jstep inp jf (.jmembers fields d ok p) = some r) :
    chAt inp p = some '"' := by
  cases jf with
  | zero => exact absurd h (by simp [jstep])
  | succ n =>
    rw [jstep] at h
    by_cases hq : chAt inp p = some '"'
    · exact hq
    · rw [if_neg hq] at h
      exact Option.noConfusion h

theorem jelems_start (inp : List Char) {jf : Nat}
    {elems : List Value} {d : Nat} {ok : Bool} {p : Nat} {r : JRes}
    (h : jstep inp jf (.jelems elems d ok p) = some r) :
    ∃ c, chAt inp p = some c ∧ isJsWs c = false ∧ isJsonWs c = false ∧
      ¬ c = '/' ∧ ¬ c = rbrace ∧ ¬ c = ']' ∧ ¬ c = ',' ∧ ¬ c = ':' := by
  cases jf with
  | zero => exact absurd h (by simp [jstep])
  | succ n =>
    rw [jstep] at h
    cases hv : jstep inp n (.jvalue p) with
    | none => rw [hv] at h; exact Option.noConfusion h
    | some rv => exact jvalue_start inp hv

theorem jstep_post (inp : List Char) :
    ∀ (jf : Nat) (req : JReq) (r : JRes), jstep inp jf req = some r →
    r.v.isAbsent = false ∧
    (match req with
     | .jvalue _ => True
     | .jmembers _ d ok _ => d + 1 ≤ r.depth ∧ (r.keysOk = true → ok = true) ∧
        ∃ fs, r.v = Value.obj fs
     | .jelems _ d ok _ => d + 1 ≤ r.depth ∧ (r.keysOk = true → ok = true) ∧
        ∃ es, r.v = Value.arr es) := by
  intro jf
  induction jf with
  | zero => intro req r h; exact absurd h (by simp [jstep])
  | succ n ih =>
    intro req r h
    cases req with
    | jvalue p =>
      rw [jstep] at h
      cases hc : chAt inp p with
      | none => rw [hc] at h; exact Option.noConfusion h
      | some c =>
        rw [hc] at h
        dsimp only at h
        by_cases h1 : c = lbrace
        · rw [if_pos h1] at h
          split at h
          · injection h with h
            subst h
            exact ⟨rfl, trivial⟩
          · exact ⟨(ih _ _ h).1, trivial⟩
        rw [if_neg h1] at h
        by_cases h2 : c = '['
        · rw [if_pos h2] at h
          split at h
          · injection h with h
            subst h
            exact ⟨rfl, trivial⟩
          · exact ⟨(ih _ _ h).1, trivial⟩
        rw [if_neg h2] at h
        by_cases h3 : c = '"'
        · rw [if_pos h3] at h
          cases hs : jdString inp (inp.length + 1) (p+1) [] with
          | none => rw [hs] at h; exact Option.noConfusion h
          | some sp =>
            rw [hs] at h
            obtain ⟨str, pp⟩ := sp
            dsimp only at h
            injection h with h
            subst h
            exact ⟨rfl, trivial⟩
        rw [if_neg h3] at h
        by_cases h4 : (c = '-' || isDigit c) = true
        · rw [if_pos h4] at h
          cases hs : jdNumber inp p with
          | none => rw [hs] at h; exact Option.noConfusion h
          | some sp =>
            rw [hs] at h
            obtain ⟨lex, pp⟩ := sp
            dsimp only at h
            injection h with h
            subst h
            exact ⟨rfl, trivial⟩
        rw [if_neg h4] at h
        by_cases h5 : matchWord inp p wTrue = true
        · rw [if_pos h5] at h
          injection h with h
          subst h
          exact ⟨rfl, trivial⟩
        rw [if_neg h5] at h
        by_cases h6 : matchWord inp p wFalse = true
        · rw [if_pos h6] at h
          injection h with h
          subst h
          exact ⟨rfl, trivial⟩
        rw [if_neg h6] at h
        by_cases h7 : matchWord inp p wNull = true
        · rw [if_pos h7] at h
          injection h with h
          subst h
          exact ⟨rfl, trivial⟩
        rw [if_neg h7] at h
        exact Option.noConfusion h
    | jmembers fields d ok p =>
      rw [jstep] at h
      by_cases hq : chAt inp p = some '"'
      · rw [if_pos hq] at h
        cases hs : jdString inp (inp.length + 1) (p+1) [] with
        | none => rw [hs] at h; exact Option.noConfusion h
        | some sp =>
          rw [hs] at h
          obtain ⟨k, p1⟩ := sp
          dsimp only at h
          by_cases hcol : chAt inp (jWs inp p1) = some ':'
          · rw [if_pos hcol] at h
            cases hv : jstep inp n (.jvalue (jWs inp (jWs inp p1 + 1))) with
            | none => rw [hv] at h; exact Option.noConfusion h
            | some rv =>
              rw [hv] at h
              dsimp only at h
              by_cases hcm : chAt inp (jWs inp rv.pos) = some ','
              · rw [if_pos hcm] at h
                obtain ⟨habs, hdep, hok, hsh⟩ := ih _ _ h
                refine ⟨habs, by omega, ?_, hsh⟩
                intro hk
                have := hok hk
                simp only [Bool.and_eq_true] at this
                exact this.1.1
              · rw [if_neg hcm] at h
                by_cases hrb : chAt inp (jWs inp rv.pos) = some rbrace
                · rw [if_pos hrb] at h
                  injection h with h
                  subst h
                  refine ⟨rfl, by dsimp only; omega, ?_, ⟨_, rfl⟩⟩
                  intro hk
                  dsimp only at hk
                  simp only [Bool.and_eq_true] at hk
                  exact hk.1.1
                · rw [if_neg hrb] at h
                  exact Option.noConfusion h
          · rw [if_neg hcol] at h
            exact Option.noConfusion h
      · rw [if_neg hq] at h
        exact Option.noConfusion h
    | jelems elems d ok p =>
      rw [jstep] at h
      cases hv : jstep inp n (.jvalue p) with
      | none => rw [hv] at h; exact Option.noConfusion h
      | some rv =>
        rw [hv] at h
        dsimp only at h
        by_cases hcm : chAt inp (jWs inp rv.pos) = some ','
        · rw [if_pos hcm] at h
          obtain ⟨habs, hdep, hok, hsh⟩ := ih _ _ h
          refine ⟨habs, by omega, ?_, hsh⟩
          intro hk
          have := hok hk
          simp only [Bool.and_eq_true] at this
          exact this.1
        · rw [if_neg hcm] at h
          by_cases hrb : chAt inp (jWs inp rv.pos) = some ']'
          · rw [if_pos hrb] at h
            injection h with h
            subst h
            refine ⟨rfl, by dsimp only; omega, ?_, ⟨_, rfl⟩⟩
            intro hk
            dsimp only at hk
            simp only [Bool.and_eq_true] at hk
            exact hk.1
          · rw [if_neg hrb] at h
            exact Option.noConfusion h

/-! ## The string reader against the strict string grammar -/

theorem parseStringGo_sim (inp : List Char) (opts : Options) :
    ∀ (f : Nat) (acc str : List Char) (pq : Nat) (s : St),
    jdString inp f s.pos acc = some (str, pq) →
    (chAt inp (wsScan inp inp.length pq) = none ∨
      ∃ nx, chAt inp (wsScan inp inp.length pq) = some nx ∧
        (nx = ',' || nx = ':' || nx = rbrace || nx = ']' ||
          nx = lbrace || nx = '[') = true) →
    parseStringGo inp opts '"' f acc s = (str, s.withPos pq) := by
  intro f
  induction f with
  | zero =>
    intro acc str pq s h _
    exact absurd h (by simp [jdString])
  | succ n ih =>
    intro acc str pq s h hclose
    rw [jdString] at h
    cases hc : chAt inp s.pos with
    | none => rw [hc] at h; exact Option.noConfusion h
    | some c =>
      rw [hc] at h
      dsimp only at h
      rw [parseStringGo, hc]
      dsimp only
      by_cases h1 : c = '"'
      · rw [if_pos h1] at h
        injection h with h
        injection h with ha hb
        subst ha
        subst hb
        subst h1
        rw [if_neg (by decide : ¬('"' : Char) = '\\'), if_pos rfl]
        rcases hclose with hnone | ⟨nx, hnx, hb2⟩
        · rw [hnone]
          exact if_pos rfl
        · rw [hnx]
          dsimp only
          rw [if_pos hb2]
      · rw [if_neg h1] at h
        by_cases h2 : c = '\\'
        · rw [if_pos h2] at h
          subst h2
          rw [if_pos rfl]
          simp only [St.withPos_pos]
          cases he : chAt inp (s.pos + 1) with
          | none => rw [he] at h; exact Option.noConfusion h
          | some e =>
            rw [he] at h
            dsimp only at h
            dsimp only
            cases hesc : jsonEscChar e with
            | some ec =>
              rw [hesc] at h
              rw [escChar_of_jsonEscChar hesc]
              dsimp only
              exact ih (acc ++ [ec]) str pq _ h hclose
            | none =>
              rw [hesc] at h
              by_cases hu : e = 'u'
              · rw [if_pos hu] at h
                subst hu
                rw [show escChar 'u' = none from rfl]
                dsimp only
                rw [if_pos rfl]
                cases ha : chAt inp (s.pos + 2) with
                | none => rw [ha] at h; exact Option.noConfusion h
                | some a =>
                cases hb2 : chAt inp (s.pos + 3) with
                | none => rw [ha, hb2] at h; exact Option.noConfusion h
                | some b =>
                cases hc3 : chAt inp (s.pos + 4) with
                | none => rw [ha, hb2, hc3] at h; exact Option.noConfusion h
                | some c3 =>
                cases hd4 : chAt inp (s.pos + 5) with
                | none => rw [ha, hb2, hc3, hd4] at h; exact Option.noConfusion h
                | some d4 =>
                rw [ha, hb2, hc3, hd4] at h
                dsimp only at h
                by_cases hhex :
                    (isHexDigit a && isHexDigit b && isHexDigit c3 && isHexDigit d4) = true
                · rw [if_pos hhex] at h
                  simp only [Bool.and_eq_true] at hhex
                  obtain ⟨⟨⟨x1, x2⟩, x3⟩, x4⟩ := hhex
                  rw [hexScan_four ha hb2 hc3 hd4 x1 x2 x3 x4]
                  rw [if_pos (by rfl : List.length [a, b, c3, d4] = 4)]
                  exact ih _ str pq _ h hclose
                · rw [if_neg hhex] at h
                  exact Option.noConfusion h
              · rw [if_neg hu] at h
                exact Option.noConfusion h
        · rw [if_neg h2] at h
          by_cases hlo : c.toNat < 0x20
          · rw [if_pos hlo] at h
            exact Option.noConfusion h
          · rw [if_neg hlo] at h
            rw [if_neg h2, if_neg h1]
            have hnl : (c = '\n' || c = '\r') = false := by
              rw [Bool.eq_false_iff]
              intro ht
              simp only [Bool.or_eq_true, decide_eq_true_eq] at ht
              rcases ht with he | he <;> (subst he; exact hlo (by decide))
            rw [if_neg (by simp [hnl])]
            exact ih (acc ++ [c]) str pq _ h hclose

theorem parseString_sim (inp : List Char) (opts : Options) {s : St}
    {str : List Char} {pq : Nat}
    (hq : chAt inp s.pos = some '"')
    (hd : jdString inp (inp.length + 1) (s.pos + 1) [] = some (str, pq))
    (hclose : chAt inp (wsScan inp inp.length pq) = none ∨
      ∃ nx, chAt inp (wsScan inp inp.length pq) = some nx ∧
        (nx = ',' || nx = ':' || nx = rbrace || nx = ']' ||
          nx = lbrace || nx = '[') = true) :
    parseString inp opts s = (str, s.withPos pq) := by
  rw [parseString, hq]
  exact parseStringGo_sim inp opts (inp.length + 1) [] str pq (s.withPos (s.pos + 1)) hd hclose

theorem tentStrScan_of_jd (inp : List Char) :
    ∀ (f : Nat) (p : Nat) (acc str : List Char) (pq : Nat),
    jdString inp f p acc = some (str, pq) →
    ∀ g, inp.length + 1 - p ≤ g → tentStrScan inp '"' g p = some pq := by
  intro f
  induction f with
  | zero =>
    intro p acc str pq h
    exact absurd h (by simp [jdString])
  | succ n ih =>
    intro p acc str pq h g hg
    rw [jdString] at h
    cases hc : chAt inp p with
    | none => rw [hc] at h; exact Option.noConfusion h
    | some c =>
      rw [hc] at h
      dsimp only at h
      have hlt := le_of_chAt_some hc
      obtain ⟨g1, rfl⟩ : ∃ g1, g = g1 + 1 := ⟨g - 1, by omega⟩
      rw [tentStrScan, hc]
      dsimp only
      by_cases h1 : c = '"'
      · rw [if_pos h1] at h
        injection h with h
        injection h with ha hb
        subst h1
        rw [if_neg (by decide : ¬('"' : Char) = '\\'), if_pos rfl, hb]
      · rw [if_neg h1] at h
        by_cases h2 : c = '\\'
        · rw [if_pos h2] at h
          subst h2
          rw [if_pos rfl]
          cases he : chAt inp (p+1) with
          | none => rw [he] at h; exact Option.noConfusion h
          | some e =>
            rw [he] at h
            dsimp only at h
            cases hesc : jsonEscChar e with
            | some ec =>
              rw [hesc] at h
              exact ih (p+2) _ str pq h g1 (by omega)
            | none =>
              rw [hesc] at h
              by_cases hu : e = 'u'
              · rw [if_pos hu] at h
                cases ha : chAt inp (p+2) with
                | none => rw [ha] at h; exact Option.noConfusion h
                | some a =>
                cases hb2 : chAt inp (p+3) with
                | none => rw [ha, hb2] at h; exact Option.noConfusion h
                | some b =>
                cases hc3 : chAt inp (p+4) with
                | none => rw [ha, hb2, hc3] at h; exact Option.noConfusion h
                | some c3 =>
                cases hd4 : chAt inp (p+5) with
                | none => rw [ha, hb2, hc3, hd4] at h; exact Option.noConfusion h
                | some d4 =>
                rw [ha, hb2, hc3, hd4] at h
                dsimp only at h
                by_cases hhex :
                    (isHexDigit a && isHexDigit b && isHexDigit c3 && isHexDigit d4) = true
                · rw [if_pos hhex] at h
                  simp only [Bool.and_eq_true] at hhex
                  obtain ⟨⟨⟨x1, x2⟩, x3⟩, x4⟩ := hhex
                  have hl4 := le_of_chAt_some hd4
                  obtain ⟨g2, rfl⟩ : ∃ g2, g1 = g2 + 1 := ⟨g1 - 1, by omega⟩
                  rw [tentStrScan, ha]
                  dsimp only
                  obtain ⟨na, nb, nc⟩ := hexDigit_plain x1
                  rw [if_neg na, if_neg (by simpa using nb), if_neg (by simp [nc])]
                  obtain ⟨g3, rfl⟩ : ∃ g3, g2 = g3 + 1 := ⟨g2 - 1, by omega⟩
                  rw [tentStrScan, show p + 2 + 1 = p + 3 from by omega, hb2]
                  dsimp only
                  obtain ⟨na2, nb2, nc2⟩ := hexDigit_plain x2
                  rw [if_neg na2, if_neg (by simpa using nb2), if_neg (by simp [nc2])]
                  obtain ⟨g4, rfl⟩ : ∃ g4, g3 = g4 + 1 := ⟨g3 - 1, by omega⟩
                  rw [tentStrScan, show p + 3 + 1 = p + 4 from by omega, hc3]
                  dsimp only
                  obtain ⟨na3, nb3, nc3⟩ := hexDigit_plain x3
                  rw [if_neg na3, if_neg (by simpa using nb3), if_neg (by simp [nc3])]
                  obtain ⟨g5, rfl⟩ : ∃ g5, g4 = g5 + 1 := ⟨g4 - 1, by omega⟩
                  rw [tentStrScan, show p + 4 + 1 = p + 5 from by omega, hd4]
                  dsimp only
                  obtain ⟨na4, nb4, nc4⟩ := hexDigit_plain x4
                  rw [if_neg na4, if_neg (by simpa using nb4), if_neg (by simp [nc4])]
                  rw [show p + 5 + 1 = p + 6 from by omega]
                  exact ih (p+6) _ str pq h g5 (by omega)
                · rw [if_neg hhex] at h
                  exact Option.noConfusion h
              · rw [if_neg hu] at h
                exact Option.noConfusion h
        · rw [if_neg h2] at h
          by_cases hlo : c.toNat < 0x20
          · rw [if_pos hlo] at h
            exact Option.noConfusion h
          · rw [if_neg hlo] at h
            rw [if_neg h2, if_neg h1]
            have hnl : (c = '\n' || c = '\r') = false := by
              rw [Bool.eq_false_iff]
              intro ht
              simp only [Bool.or_eq_true, decide_eq_true_eq] at ht
              rcases ht with he | he <;> (subst he; exact hlo (by decide))
            rw [if_neg (by simp [hnl])]
            exact ih (p+1) _ str pq h g1 (by omega)

/-! ## The number reader against the strict number grammar -/

theorem lt_digitsEnd (inp : List Char) {p : Nat} {c : Char} (hc : chAt inp p = some c)
    (hd : isDigit c = true) : p < digitsEnd inp inp.length p := by
  have hlt := le_of_chAt_some hc
  obtain ⟨m, hm⟩ : ∃ m, inp.length = m + 1 := ⟨inp.length - 1, by omega⟩
  conv_rhs => rw [hm]
  rw [digitsEnd, hc]
  dsimp only
  rw [if_pos hd]
  exact Nat.lt_of_lt_of_le (Nat.lt_succ_self p) (le_digitsEnd inp m (p+1))

theorem numLexemeNaN_false_of (inp : List Char) (p p3 pq : Nat)
    (hp3 : p ≤ p3) (hle : p3 ≤ pq) (hq : pq ≤ inp.length)
    (hM : ∀ i, p ≤ i → i < p3 → ∃ x, chAt inp i = some x ∧ (x = 'e' || x = 'E') = false)
    (hMd : ∃ i, p ≤ i ∧ i < p3 ∧ ∃ x, chAt inp i = some x ∧ isDigit x = true)
    (hE : p3 = pq ∨ (p3 < pq ∧ (∃ x0, chAt inp p3 = some x0 ∧ (x0 = 'e' || x0 = 'E') = true) ∧
      ∃ i, p3 < i ∧ i < pq ∧ ∃ x, chAt inp i = some x ∧ isDigit x = true)) :
    numLexemeNaN ((inp.drop p).take (pq - p)) = false := by
  have hsplit : (inp.drop p).take (pq - p) =
      (inp.drop p).take (p3 - p) ++ (inp.drop p3).take (pq - p3) := by
    rw [show pq - p = (p3 - p) + (pq - p3) from by omega, List.take_add, List.drop_drop,
      show p + (p3 - p) = p3 from by omega]
  have hlenM : ((inp.drop p).take (p3 - p)).length = p3 - p := by
    rw [List.length_take, List.length_drop]
    omega
  have hallM : ∀ x ∈ (inp.drop p).take (p3 - p), (!(x = 'e' || x = 'E')) = true := by
    intro x hx
    obtain ⟨j, hj⟩ := List.mem_iff_get?.mp hx
    obtain ⟨hjl, _⟩ := List.get?_eq_some.mp hj
    rw [hlenM] at hjl
    have hcj : chAt inp (p + j) = some x := by
      rw [chAt, ← slice_get inp p (p3 - p) j hjl]
      exact hj
    obtain ⟨y, hy, hyE⟩ := hM (p+j) (by omega) (by omega)
    rw [hcj] at hy
    injection hy with hy
    subst hy
    simp [hyE]
  rw [numLexemeNaN, hsplit]
  rw [takeWhile_append_all _ _ _ hallM, dropWhile_append_all _ _ _ hallM]
  obtain ⟨i, hi1, hi2, x, hx, hxd⟩ := hMd
  have hany : ((inp.drop p).take (p3 - p)).any isDigit = true := by
    rw [List.any_eq_true]
    refine ⟨x, ?_, hxd⟩
    have hgx : ((inp.drop p).take (p3 - p)).get? (i - p) = some x := by
      rw [slice_get inp p (p3 - p) (i - p) (by omega), show p + (i - p) = i from by omega]
      exact hx
    exact List.get?_mem hgx
  have hanyM : (((inp.drop p).take (p3 - p)) ++
      ((inp.drop p3).take (pq - p3)).takeWhile (fun ch => !(ch = 'e' || ch = 'E'))).any
        isDigit = true := by
    rw [List.any_append, hany, Bool.true_or]
  rw [hanyM]
  rcases hE with rfl | ⟨hlt, ⟨x0, hx0, hx0E⟩, i2, hia, hib, y2, hy2, hy2d⟩
  · rw [show p3 - p3 = 0 from by omega, List.take_zero, List.dropWhile_nil]
    rfl
  · have hlexE : ∃ t, (inp.drop p3).take (pq - p3) = x0 :: t := by
      have h0 : ((inp.drop p3).take (pq - p3)).get? 0 = some x0 := by
        rw [slice_get inp p3 (pq - p3) 0 (by omega), Nat.add_zero]
        exact hx0
      cases hl : (inp.drop p3).take (pq - p3) with
      | nil => rw [hl] at h0; exact Option.noConfusion h0
      | cons a t =>
        rw [hl] at h0
        injection h0 with h0
        exact ⟨t, by rw [h0]⟩
    obtain ⟨t, ht⟩ := hlexE
    rw [ht, List.dropWhile_cons, if_neg (by simp [hx0E])]
    have hany2 : (x0 :: t).any isDigit = true := by
      rw [List.any_eq_true]
      refine ⟨y2, ?_, hy2d⟩
      rw [← ht]
      have hgy : ((inp.drop p3).take (pq - p3)).get? (i2 - p3) = some y2 := by
        rw [slice_get inp p3 (pq - p3) (i2 - p3) (by omega),
          show p3 + (i2 - p3) = i2 from by omega]
        exact hy2
      exact List.get?_mem hgy
    rw [hany2]
    rfl

theorem jdNumber_sim (inp : List Char) {p : Nat} {lex : List Char} {pq : Nat}
    (h : jdNumber inp p = some (lex, pq)) :
    numEnd inp p = pq ∧ lex = (inp.drop p).take (pq - p) ∧
    numLexemeNaN lex = false ∧ p < pq ∧ pq ≤ inp.length := by
  rw [jdNumber] at h
  dsimp only at h
  have hsg : ∃ P1, p ≤ P1 ∧ P1 ≤ p + 1 ∧
      (∀ i, p ≤ i → i < P1 → ∃ x, chAt inp i = some x ∧ (x = 'e' || x = 'E') = false) ∧
      (if chAt inp p = some '-' then p + 1 else p) = P1 := by
    by_cases hs : chAt inp p = some '-'
    · refine ⟨p+1, by omega, by omega, ?_, if_pos hs⟩
      intro i h1 h2
      have hip : i = p := by omega
      subst hip
      exact ⟨'-', hs, by decide⟩
    · exact ⟨p, Nat.le_refl p, by omega, fun i h1 h2 => absurd h1 (by omega), if_neg hs⟩
  obtain ⟨P1, h1a, h1b, h1c, heq1⟩ := hsg
  rw [heq1] at h
  cases hc : chAt inp P1 with
  | none => rw [hc] at h; exact Option.noConfusion h
  | some c =>
    rw [hc] at h
    dsimp only at h
    by_cases hcd : isDigit c = true
    · rw [if_neg (by simp [hcd])] at h
      have hst2 : ∃ P2, P1 < P2 ∧ P2 ≤ inp.length ∧
          (∀ i, P1 ≤ i → i < P2 → ∃ x, chAt inp i = some x ∧ isDigit x = true) ∧
          ((if c = '0' then P1 + 1 else digitsEnd inp inp.length P1) = P2) ∧
          ((if chAt inp P1 = some '0' then P1 + 1 else digitsEnd inp inp.length P1) = P2) := by
        by_cases hz : c = '0'
        · refine ⟨P1 + 1, by omega, by have hlb := le_of_chAt_some hc; omega, ?_,
            if_pos hz, if_pos (by rw [hc, hz])⟩
          intro i hi1 hi2
          have hip : i = P1 := by omega
          subst hip
          exact ⟨c, hc, hcd⟩
        · refine ⟨digitsEnd inp inp.length P1, lt_digitsEnd inp hc hcd,
            digitsEnd_le_length inp inp.length P1 (by have := le_of_chAt_some hc; omega),
            fun i hi1 hi2 => digitsEnd_span inp inp.length P1 i hi1 hi2,
            if_neg hz, if_neg (by rw [hc]; simp only [Option.some.injEq]; exact hz)⟩
      obtain ⟨P2, h2a, h2b, h2c, heq2, heq2n⟩ := hst2
      rw [heq2] at h
      have hMbase : ∀ i, p ≤ i → i < P2 → ∃ x, chAt inp i = some x ∧
          (x = 'e' || x = 'E') = false := by
        intro i hi1 hi2
        by_cases hiP : i < P1
        · exact h1c i hi1 hiP
        · obtain ⟨x, hx, hxd⟩ := h2c i (by omega) hi2
          exact ⟨x, hx, by simp [ne_of_pred hxd (by decide : isDigit 'e' = false),
            ne_of_pred hxd (by decide : isDigit 'E' = false)]⟩
      have hMdig : ∃ i, p ≤ i ∧ i < P2 ∧ ∃ x, chAt inp i = some x ∧ isDigit x = true :=
        ⟨P1, by omega, by omega, c, hc, hcd⟩
      by_cases hfr : chAt inp P2 = some '.'
      · rw [if_pos hfr] at h
        cases hd1 : chAt inp (P2 + 1) with
        | none => rw [hd1] at h; dsimp only at h; exact Option.noConfusion h
        | some d =>
          rw [hd1] at h
          dsimp only at h
          by_cases hdd : isDigit d = true
          · rw [if_pos hdd] at h
            dsimp only at h
            have h3a : P2 + 1 ≤ digitsEnd inp inp.length (P2 + 1) :=
              le_digitsEnd inp inp.length (P2 + 1)
            have h3b : P2 + 1 < digitsEnd inp inp.length (P2 + 1) + 1 := by omega
            have h3lt : P2 + 1 < digitsEnd inp inp.length (P2 + 1) := lt_digitsEnd inp hd1 hdd
            have h3len : digitsEnd inp inp.length (P2 + 1) ≤ inp.length :=
              digitsEnd_le_length inp inp.length (P2 + 1)
                (by have := le_of_chAt_some hd1; omega)
            have hM3 : ∀ i, p ≤ i → i < digitsEnd inp inp.length (P2 + 1) →
                ∃ x, chAt inp i = some x ∧ (x = 'e' || x = 'E') = false := by
              intro i hi1 hi2
              by_cases hiP : i < P2
              · exact hMbase i hi1 hiP
              · by_cases hiQ : i = P2
                · subst hiQ
                  exact ⟨'.', hfr, by decide⟩
                · obtain ⟨x, hx, hxd⟩ :=
                    digitsEnd_span inp inp.length (P2+1) i (by omega) hi2
                  exact ⟨x, hx, by simp [ne_of_pred hxd (by decide : isDigit 'e' = false),
                    ne_of_pred hxd (by decide : isDigit 'E' = false)]⟩
            -- exponent stage at P3 := digitsEnd inp inp.length (P2+1)
            by_cases hee : (chAt inp (digitsEnd inp inp.length (P2+1)) = some 'e' ||
                chAt inp (digitsEnd inp inp.length (P2+1)) = some 'E') = true
            · rw [if_pos hee] at h
              generalize hQ : (if (chAt inp (digitsEnd inp inp.length (P2+1) + 1) = some '+' ||
                  chAt inp (digitsEnd inp inp.length (P2+1) + 1) = some '-') = true
                then digitsEnd inp inp.length (P2+1) + 2
                else digitsEnd inp inp.length (P2+1) + 1) = Q at h
              have hQb : digitsEnd inp inp.length (P2+1) + 1 ≤ Q ∧
                  Q ≤ digitsEnd inp inp.length (P2+1) + 2 := by
                rw [← hQ]
                split <;> omega
              cases hdq : chAt inp Q with
              | none => rw [hdq] at h; dsimp only at h; exact Option.noConfusion h
              | some dq =>
                rw [hdq] at h
                dsimp only at h
                by_cases hdqd : isDigit dq = true
                · rw [if_pos hdqd] at h
                  dsimp only at h
                  injection h with h
                  injection h with hl hp4
                  have hqlt : Q < digitsEnd inp inp.length Q := lt_digitsEnd inp hdq hdqd
                  have hqlen : digitsEnd inp inp.length Q ≤ inp.length :=
                    digitsEnd_le_length inp inp.length Q
                      (by have := le_of_chAt_some hdq; omega)
                  subst hp4
                  refine ⟨?_, hl.symm, ?_, by omega, hqlen⟩
                  · rw [numEnd]
                    dsimp only
                    rw [heq1, heq2n, if_pos hfr, if_pos hee, hQ]
                  · rw [← hl]
                    refine numLexemeNaN_false_of inp p (digitsEnd inp inp.length (P2+1))
                      (digitsEnd inp inp.length Q) (by omega) (by omega) hqlen hM3
                      ⟨P1, by omega, by omega, c, hc, hcd⟩ ?_
                    right
                    refine ⟨by omega, ?_, Q, by omega, by omega, dq, hdq, hdqd⟩
                    rcases Bool.or_eq_true _ _ |>.mp hee with he | he
                    · exact ⟨'e', by simpa using he, by decide⟩
                    · exact ⟨'E', by simpa using he, by decide⟩
                · rw [if_neg hdqd] at h
                  dsimp only at h
                  exact Option.noConfusion h
            · rw [if_neg hee] at h
              dsimp only at h
              injection h with h
              injection h with hl hp4
              subst hp4
              refine ⟨?_, hl.symm, ?_, by omega, h3len⟩
              · rw [numEnd]
                dsimp only
                rw [heq1, heq2n, if_pos hfr, if_neg hee]
              · rw [← hl]
                exact numLexemeNaN_false_of inp p (digitsEnd inp inp.length (P2+1))
                  (digitsEnd inp inp.length (P2+1)) (by omega) (by omega) h3len hM3
                  ⟨P1, by omega, by omega, c, hc, hcd⟩ (Or.inl rfl)
          · rw [if_neg hdd] at h
            dsimp only at h
            exact Option.noConfusion h
      · rw [if_neg hfr] at h
        dsimp only at h
        -- exponent stage at P3 := P2
        by_cases hee : (chAt inp P2 = some 'e' || chAt inp P2 = some 'E') = true
        · rw [if_pos hee] at h
          generalize hQ : (if (chAt inp (P2 + 1) = some '+' ||
              chAt inp (P2 + 1) = some '-') = true
            then P2 + 2 else P2 + 1) = Q at h
          have hQb : P2 + 1 ≤ Q ∧ Q ≤ P2 + 2 := by
            rw [← hQ]
            split <;> omega
          cases hdq : chAt inp Q with
          | none => rw [hdq] at h; dsimp only at h; exact Option.noConfusion h
          | some dq =>
            rw [hdq] at h
            dsimp only at h
            by_cases hdqd : isDigit dq = true
            · rw [if_pos hdqd] at h
              dsimp only at h
              injection h with h
              injection h with hl hp4
              have hqlt : Q < digitsEnd inp inp.length Q := lt_digitsEnd inp hdq hdqd
              have hqlen : digitsEnd inp inp.length Q ≤ inp.length :=
                digitsEnd_le_length inp inp.length Q
                  (by have := le_of_chAt_some hdq; omega)
              subst hp4
              refine ⟨?_, hl.symm, ?_, by omega, hqlen⟩
              · rw [numEnd]
                dsimp only
                rw [heq1, heq2n, if_neg hfr, if_pos hee, hQ]
              · rw [← hl]
                refine numLexemeNaN_false_of inp p P2 (digitsEnd inp inp.length Q)
                  (by omega) (by omega) hqlen hMbase hMdig ?_
                right
                refine ⟨by omega, ?_, Q, by omega, by omega, dq, hdq, hdqd⟩
                rcases Bool.or_eq_true _ _ |>.mp hee with he | he
                · exact ⟨'e', by simpa using he, by decide⟩
                · exact ⟨'E', by simpa using he, by decide⟩
            · rw [if_neg hdqd] at h
              dsimp only at h
              exact Option.noConfusion h
        · rw [if_neg hee] at h
          dsimp only at h
          injection h with h
          injection h with hl hp4
          subst hp4
          refine ⟨?_, hl.symm, ?_, by omega, h2b⟩
          · rw [numEnd]
            dsimp only
            rw [heq1, heq2n, if_neg hfr, if_neg hee]
          · rw [← hl]
            exact numLexemeNaN_false_of inp p P2 P2 (by omega) (by omega) h2b
              hMbase hMdig (Or.inl rfl)
    · rw [if_pos (by simp [hcd])] at h
      exact Option.noConfusion h

/-! ## Helper facts used at loop boundaries -/

theorem skipWS_to (inp : List Char) (opts : Options) {q : Nat} {ch : Char}
    (hP : chAt inp (jWs inp q) = some ch)
    (hws : isJsWs ch = false) (hsl : ¬ ch = '/') :
    skipWSPos inp opts q = jWs inp q :=
  skipWSPos_eq_jWs inp opts inp.length q (Nat.sub_le _ _) (Or.inr ⟨ch, hP, hws, hsl⟩)

theorem skipWS_idem_to (inp : List Char) (opts : Options) {q : Nat} {ch : Char}
    (hP : chAt inp (jWs inp q) = some ch)
    (hws : isJsWs ch = false) (hsl : ¬ ch = '/') :
    skipWSPos inp opts (jWs inp q) = jWs inp q := by
  conv_lhs => rw [← skipWS_to inp opts hP hws hsl]
  rw [skipWSPos_skipWSPos, skipWS_to inp opts hP hws hsl]

theorem loop_entry_char (inp : List Char) {q : Nat} {ch : Char}
    (hP : chAt inp (jWs inp q) = some ch) :
    ∃ c0, chAt inp q = some c0 ∧ (isJsonWs c0 = true ∨ c0 = ch) := by
  rcases Nat.eq_or_lt_of_le (le_jsonWsEnd inp inp.length q) with heq | hlt
  · refine ⟨ch, ?_, Or.inr rfl⟩
    rw [jWs] at hP
    rw [← heq] at hP
    exact hP
  · obtain ⟨c0, hc0, hj⟩ := jWs_first inp hlt
    exact ⟨c0, hc0, Or.inl hj⟩

/-! ## The array heuristic is quiet on strict JSON -/

theorem kvWord_colon_false (inp : List Char) {p n : Nat} {w : List Char}
    (hw : matchWord inp p w = true) (hlen : w.length = n)
    (hwc : ∀ x ∈ w, isWordChar x = true)
    (hfol : chAt inp (jWs inp (p + n)) = some ',' ∨
      chAt inp (jWs inp (p + n)) = some ']') :
    decide (chAt inp (wsScan inp inp.length (identEnd inp inp.length p)) = some ':') =
      false := by
  have hspan : identEnd inp inp.length p = p + n := by
    refine identEnd_span inp n inp.length p (Nat.sub_le _ _) ?_ ?_
    · intro i hi
      have hci := matchWord_chars hw i (by omega)
      cases hg : List.get? w i with
      | none =>
        have := List.get?_eq_none.mp hg
        omega
      | some x =>
        rw [hg] at hci
        exact ⟨x, hci, hwc x (List.get?_mem hg)⟩
    · have hle := le_jsonWsEnd inp inp.length (p + n)
      rcases Nat.eq_or_lt_of_le hle with heq | hlt2
      · rcases hfol with hf | hf
        · right
          refine ⟨',', ?_, by decide⟩
          rw [jWs] at hf
          rw [← heq] at hf
          exact hf
        · right
          refine ⟨']', ?_, by decide⟩
          rw [jWs] at hf
          rw [← heq] at hf
          exact hf
      · obtain ⟨x, hx, hxj⟩ := jWs_first inp hlt2
        right
        refine ⟨x, hx, ?_⟩
        rcases isJsonWs_cases hxj with he | he | he | he <;> (subst he; decide)
  rw [hspan]
  have hstop : JStop inp (p + n) := by
    rcases hfol with hf | hf
    · exact Or.inr ⟨',', hf, by decide, by decide⟩
    · exact Or.inr ⟨']', hf, by decide, by decide⟩
  rw [wsScan_eq_jWs inp inp.length (p+n) (Nat.sub_le _ _) hstop]
  rcases hfol with hf | hf <;> (rw [hf]; decide)

theorem kvAhead_false (inp : List Char) {jf p : Nat} {r : JRes}
    (hv : jstep inp jf (.jvalue p) = some r)
    (hfol : chAt inp (jWs inp r.pos) = some ',' ∨
      chAt inp (jWs inp r.pos) = some ']') :
    looksLikeKeyValueAhead inp p = false := by
  cases jf with
  | zero => exact absurd hv (by simp [jstep])
  | succ m =>
    rw [jstep] at hv
    cases hc : chAt inp p with
    | none => rw [hc] at hv; exact Option.noConfusion hv
    | some c =>
      rw [hc] at hv
      dsimp only at hv
      rw [looksLikeKeyValueAhead, hc]
      dsimp only
      by_cases h1 : c = lbrace
      · subst h1
        rw [if_neg (by decide), if_neg (by decide)]
      · rw [if_neg h1] at hv
        by_cases h2 : c = '['
        · subst h2
          rw [if_neg (by decide), if_neg (by decide)]
        · rw [if_neg h2] at hv
          by_cases h3 : c = '"'
          · rw [if_pos h3] at hv
            cases hjs : jdString inp (inp.length + 1) (p+1) [] with
            | none => rw [hjs] at hv; exact Option.noConfusion hv
            | some sp =>
              rw [hjs] at hv
              obtain ⟨str, pe⟩ := sp
              dsimp only at hv
              injection hv with hv
              subst hv
              dsimp only at hfol
              subst h3
              rw [if_pos (by decide)]
              rw [tentStrScan_of_jd inp (inp.length + 1) (p+1) [] str pe hjs
                (inp.length + 1) (by omega)]
              dsimp only
              by_cases hle : inp.length ≤ pe
              · rw [if_pos hle]
              · rw [if_neg hle]
                have hstop : JStop inp pe := by
                  rcases hfol with hf | hf
                  · exact Or.inr ⟨',', hf, by decide, by decide⟩
                  · exact Or.inr ⟨']', hf, by decide, by decide⟩
                rw [wsScan_eq_jWs inp inp.length pe (Nat.sub_le _ _) hstop]
                rcases hfol with hf | hf <;> (rw [hf]; decide)
          · rw [if_neg h3] at hv
            by_cases h4 : (c = '-' || isDigit c) = true
            · have hqf : (c = '"' || c = '\'') = false := by
                rcases Bool.or_eq_true _ _ |>.mp h4 with hm | hd
                · replace hm : c = '-' := by simpa using hm
                  subst hm
                  decide
                · rw [Bool.eq_false_iff]
                  intro ht
                  rcases Bool.or_eq_true _ _ |>.mp ht with he | he
                  · replace he : c = '"' := by simpa using he
                    subst he
                    exact absurd hd (by decide)
                  · replace he : c = '\'' := by simpa using he
                    subst he
                    exact absurd hd (by decide)
              rw [if_neg (by simp [hqf])]
              have hif : isIdentStart c = false := by
                rcases Bool.or_eq_true _ _ |>.mp h4 with hm | hd
                · replace hm : c = '-' := by simpa using hm
                  subst hm
                  decide
                · exact isIdentStart_false_of_isDigit hd
              rw [if_neg (by simp [hif])]
            · rw [if_neg h4] at hv
              by_cases h5 : matchWord inp p wTrue = true
              · rw [if_pos h5] at hv
                injection hv with hv
                subst hv
                dsimp only at hfol
                have hc5 := matchWord_head h5
                rw [hc] at hc5
                injection hc5 with hc5
                subst hc5
                rw [if_neg (by decide), if_pos (by decide)]
                exact kvWord_colon_false inp h5 rfl (by decide) hfol
              · rw [if_neg h5] at hv
                by_cases h6 : matchWord inp p wFalse = true
                · rw [if_pos h6] at hv
                  injection hv with hv
                  subst hv
                  dsimp only at hfol
                  have hc6 := matchWord_head h6
                  rw [hc] at hc6
                  injection hc6 with hc6
                  subst hc6
                  rw [if_neg (by decide), if_pos (by decide)]
                  exact kvWord_colon_false inp h6 rfl (by decide) hfol
                · rw [if_neg h6] at hv
                  by_cases h7 : matchWord inp p wNull = true
                  · rw [if_pos h7] at hv
                    injection hv with hv
                    subst hv
                    dsimp only at hfol
                    have hc7 := matchWord_head h7
                    rw [hc] at hc7
                    injection hc7 with hc7
                    subst hc7
                    rw [if_neg (by decide), if_pos (by decide)]
                    exact kvWord_colon_false inp h7 rfl (by decide) hfol
                  · rw [if_neg h7] at hv
                    exact Option.noConfusion hv

set_option maxHeartbeats 1000000 in
theorem simValue_of (inp : List Char) (opts : Options) (pf : Nat)
    (ihm : ∀ k, k < pf → SimMembers inp opts k)
    (ihe : ∀ k, k < pf → SimElems inp opts k) :
    SimValue inp opts pf := by
  intro jf p r s rv s1 hj hk hdep hfol hf hst h
  cases pf with
  | zero => exact absurd h (by simp [step])
  | succ n =>
  cases jf with
  | zero => exact absurd hj (by simp [jstep])
  | succ m =>
  rw [jstep] at hj
  cases hc : chAt inp p with
  | none => rw [hc] at hj; exact Option.noConfusion hj
  | some c =>
  rw [hc] at hj
  dsimp only at hj
  have hch : chAt inp (skipWSPos inp opts s.pos) = some c := by rw [hst]; exact hc
  by_cases h1 : c = lbrace
  · -- object
    rw [if_pos h1] at hj
    rw [stepv_eq_object inp opts n s hf hch h1, hst] at h
    cases n with
    | zero => exact absurd h (by simp [step])
    | succ n2 =>
    rw [step] at h
    rw [if_neg (by simp [hf])] at h
    dsimp only at h
    have hd1 : 1 ≤ r.depth := by
      by_cases hrb : chAt inp (jWs inp (p+1)) = some rbrace
      · rw [if_pos hrb] at hj
        injection hj with hj
        subst hj
        exact Nat.le_refl 1
      · rw [if_neg hrb] at hj
        have hpost := (jstep_post inp m _ r hj).2
        omega
    simp only [St.withNest_nestDepth, St.withPos_nestDepth, St.withNest_pos,
      St.withPos_pos, St.withNest_fatal, St.withPos_fatal] at h
    rw [if_neg (by omega : ¬ opts.maxDepth < s.nestDepth + 1)] at h
    by_cases hrb : chAt inp (jWs inp (p+1)) = some rbrace
    · -- empty object
      rw [if_pos hrb] at hj
      injection hj with hj
      subst hj
      have hsws : skipWSPos inp opts (p+1) = jWs inp (p+1) :=
        skipWS_to inp opts hrb (by decide) (by decide)
      rw [hsws] at h
      split at h
      · exact Option.noConfusion h
      · rename_i v sL heq
        -- evaluate the loop call: it stops at the closing brace at once
        cases n2 with
        | zero => exact absurd heq (by simp [step])
        | succ n3 =>
        rw [step] at heq
        simp only [St.withPos_fatal, St.withNest_fatal] at heq
        rw [if_neg (by simp [hf])] at heq
        simp only [St.withPos_pos] at heq
        rw [hrb] at heq
        dsimp only at heq
        rw [if_pos rfl] at heq
        injection heq with heq
        injection heq with hv hsL
        subst hv
        subst hsL
        simp only [St.withPos_fatal, St.withNest_fatal, hf] at h
        rw [if_neg (by simp)] at h
        simp only [St.withNest_pos, St.withPos_pos] at h
        rw [hrb] at h
        rw [if_pos rfl] at h
        injection h with h
        injection h with hA hB
        subst hA
        subst hB
        refine ⟨rfl, by simp, by simp, by simp, by simp, by simp [hf]⟩
    · -- members
      rw [if_neg hrb] at hj
      have hq := jmembers_start inp hj
      have hsws : skipWSPos inp opts (p+1) = jWs inp (p+1) :=
        skipWS_to inp opts hq (by decide) (by decide)
      rw [hsws] at h
      split at h
      · exact Option.noConfusion h
      · rename_i v sL heq
        have hsm := ihm n2 (by omega) m [] 0 true (jWs inp (p+1)) r
          ((((s.withPos p).withNest (s.nestDepth + 1)).withPos (p + 1)).withPos
            (jWs inp (p+1))) v sL hj hk
          (by simp only [St.withPos_nestDepth, St.withNest_nestDepth]; omega)
          (by simp [hf])
          (skipWS_idem_to inp opts hq (by decide) (by decide))
          ⟨'"', by simpa using hq, by decide⟩
          heq
        obtain ⟨hv, hpos, hrbr, herr, hdp, hnst, hfat⟩ := hsm
        obtain ⟨habs, hpost⟩ := jstep_post inp m _ r hj
        -- shape of the decoded object
        obtain ⟨fsr, hshape⟩ := hpost.2.2
        rw [hfat] at h
        rw [if_neg (by simp)] at h
        rw [hv, hshape] at h
        dsimp only at h
        rw [hrbr] at h
        rw [if_pos rfl] at h
        injection h with h
        injection h with hA hB
        subst hA
        subst hB
        refine ⟨hshape.symm, ?_, ?_, ?_, ?_, ?_⟩
        · simp only [St.withPos_pos, St.withNest_pos]
          omega
        · simpa using herr
        · simpa using hdp
        · simp only [St.withPos_nestDepth, St.withNest_nestDepth]
          rw [hnst]
          simp
        · simp [hfat]
  · rw [if_neg h1] at hj
    by_cases h2 : c = '['
    · -- array
      rw [if_pos h2] at hj
      rw [stepv_eq_array inp opts n s hf hch h1 h2, hst] at h
      cases n with
      | zero => exact absurd h (by simp [step])
      | succ n2 =>
      rw [step] at h
      rw [if_neg (by simp [hf])] at h
      dsimp only at h
      have hd1 : 1 ≤ r.depth := by
        by_cases hrb : chAt inp (jWs inp (p+1)) = some ']'
        · rw [if_pos hrb] at hj
          injection hj with hj
          subst hj
          exact Nat.le_refl 1
        · rw [if_neg hrb] at hj
          have hpost := (jstep_post inp m _ r hj).2
          omega
      simp only [St.withNest_nestDepth, St.withPos_nestDepth, St.withNest_pos,
        St.withPos_pos, St.withNest_fatal, St.withPos_fatal] at h
      rw [if_neg (by omega : ¬ opts.maxDepth < s.nestDepth + 1)] at h
      by_cases hrb : chAt inp (jWs inp (p+1)) = some ']'
      · -- empty array
        rw [if_pos hrb] at hj
        injection hj with hj
        subst hj
        have hsws : skipWSPos inp opts (p+1) = jWs inp (p+1) :=
          skipWS_to inp opts hrb (by decide) (by decide)
        rw [hsws] at h
        split at h
        · exact Option.noConfusion h
        · rename_i v sL heq
          cases n2 with
          | zero => exact absurd heq (by simp [step])
          | succ n3 =>
          rw [step] at heq
          simp only [St.withPos_fatal, St.withNest_fatal] at heq
          rw [if_neg (by simp [hf])] at heq
          simp only [St.withPos_pos] at heq
          rw [hrb] at heq
          dsimp only at heq
          rw [if_pos rfl] at heq
          injection heq with heq
          injection heq with hv hsL
          subst hv
          subst hsL
          simp only [St.withPos_fatal, St.withNest_fatal, hf] at h
          rw [if_neg (by simp)] at h
          simp only [St.withNest_pos, St.withPos_pos] at h
          rw [hrb] at h
          rw [if_pos rfl] at h
          injection h with h
          injection h with hA hB
          subst hA
          subst hB
          refine ⟨rfl, by simp, by simp, by simp, by simp, by simp [hf]⟩
      · -- elements
        rw [if_neg hrb] at hj
        obtain ⟨cv, hcv, hcvw, hcvj, hcvs, hcvrb, hcvrs, hcvcm, hcvcol⟩ :=
          jelems_start inp hj
        have hsws : skipWSPos inp opts (p+1) = jWs inp (p+1) :=
          skipWS_to inp opts hcv hcvw hcvs
        rw [hsws] at h
        split at h
        · exact Option.noConfusion h
        · rename_i v sL heq
          have hse := ihe n2 (by omega) m [] 0 true (jWs inp (p+1)) r
            ((((s.withPos p).withNest (s.nestDepth + 1)).withPos (p + 1)).withPos
              (jWs inp (p+1))) v sL hj hk
            (by simp only [St.withPos_nestDepth, St.withNest_nestDepth]; omega)
            (by simp [hf])
            (skipWS_idem_to inp opts hcv hcvw hcvs)
            ⟨cv, by simpa using hcv, hcvrs⟩
            heq
          obtain ⟨hv, hpos, hrbr, herr, hdp, hnst, hfat⟩ := hse
          obtain ⟨habs, hpost⟩ := jstep_post inp m _ r hj
          obtain ⟨esr, hshape⟩ := hpost.2.2
          rw [hfat] at h
          rw [if_neg (by simp)] at h
          rw [hv, hshape] at h
          dsimp only at h
          rw [hrbr] at h
          rw [if_pos rfl] at h
          injection h with h
          injection h with hA hB
          subst hA
          subst hB
          refine ⟨hshape.symm, ?_, ?_, ?_, ?_, ?_⟩
          · simp only [St.withPos_pos, St.withNest_pos]
            omega
          · simpa using herr
          · simpa using hdp
          · simp only [St.withPos_nestDepth, St.withNest_nestDepth]
            rw [hnst]
            simp
          · simp [hfat]
    · rw [if_neg h2] at hj
      by_cases h3 : c = '"'
      · -- string
        rw [if_pos h3] at hj
        cases hjs : jdString inp (inp.length + 1) (p+1) [] with
        | none => rw [hjs] at hj; exact Option.noConfusion hj
        | some sp =>
          rw [hjs] at hj
          obtain ⟨str, pe⟩ := sp
          dsimp only at hj
          injection hj with hj
          subst hj
          dsimp only at hfol
          rw [stepv_eq_string inp opts n s hf hch h1 h2 (by simp [h3]), hst] at h
          have hps := @parseString_sim inp opts (s.withPos p) str pe
            (by simpa using hc.trans (by rw [h3]))
            (by simpa using hjs)
            (strClose_of_follow inp hfol)
          rw [hps] at h
          dsimp only at h
          injection h with h
          injection h with hA hB
          subst hA
          subst hB
          refine ⟨rfl, by simp, by simp, by simp, by simp, by simp [hf]⟩
      · rw [if_neg h3] at hj
        by_cases h4 : (c = '-' || isDigit c) = true
        · -- number
          rw [if_pos h4] at hj
          cases hjn : jdNumber inp p with
          | none => rw [hjn] at hj; exact Option.noConfusion hj
          | some sp =>
            rw [hjn] at hj
            obtain ⟨lex, pe⟩ := sp
            dsimp only at hj
            injection hj with hj
            subst hj
            obtain ⟨hend, hlex, hnan, hlt', hlen'⟩ := jdNumber_sim inp hjn
            have hq3 : (c = '"' || c = '\'') = false := by
              rcases Bool.or_eq_true _ _ |>.mp h4 with hm | hd
              · replace hm : c = '-' := by simpa using hm
                subst hm
                decide
              · rw [Bool.eq_false_iff]
                intro ht
                rcases Bool.or_eq_true _ _ |>.mp ht with he | he
                · replace he : c = '"' := by simpa using he
                  subst he
                  exact absurd hd (by decide)
                · replace he : c = '\'' := by simpa using he
                  subst he
                  exact absurd hd (by decide)
            rw [stepv_eq_number inp opts n s hf hch h1 h2 hq3 h4, hst] at h
            have hpn : parseNumber inp opts (s.withPos p) =
                (.num lex, (s.withPos p).withPos pe) := by
              rw [parseNumber]
              simp only [St.withPos_pos]
              rw [hend, ← hlex, hnan]
              rw [if_neg (by simp)]
            rw [hpn] at h
            dsimp only at h
            injection h with h
            injection h with hA hB
            subst hA
            subst hB
            refine ⟨rfl, by simp, by simp, by simp, by simp, by simp [hf]⟩
        · rw [if_neg h4] at hj
          by_cases h5 : matchWord inp p wTrue = true
          · rw [if_pos h5] at hj
            injection hj with hj
            subst hj
            rw [stepv_eq_true inp opts n s hf hch h1 h2 (by
              rw [Bool.eq_false_iff]
              intro ht
              rcases Bool.or_eq_true _ _ |>.mp ht with he | he
              · exact h3 (by simpa using he)
              · replace he : c = '\'' := by simpa using he
                have hmh := matchWord_head h5
                rw [hc] at hmh
                injection hmh with hmh
                rw [he] at hmh
                exact absurd hmh (by decide)) (by simpa using h4) (by rw [hst]; exact h5), hst] at h
            injection h with h
            injection h with hA hB
            subst hA
            subst hB
            refine ⟨rfl, by simp, by simp, by simp, by simp, by simp [hf]⟩
          · rw [if_neg h5] at hj
            by_cases h6 : matchWord inp p wFalse = true
            · rw [if_pos h6] at hj
              injection hj with hj
              subst hj
              rw [stepv_eq_false inp opts n s hf hch h1 h2 (by
              rw [Bool.eq_false_iff]
              intro ht
              rcases Bool.or_eq_true _ _ |>.mp ht with he | he
              · exact h3 (by simpa using he)
              · replace he : c = '\'' := by simpa using he
                have hmh := matchWord_head h6
                rw [hc] at hmh
                injection hmh with hmh
                rw [he] at hmh
                exact absurd hmh (by decide)) (by simpa using h4) (by rw [hst]; simpa using h5) (by rw [hst]; exact h6), hst] at h
              injection h with h
              injection h with hA hB
              subst hA
              subst hB
              refine ⟨rfl, by simp, by simp, by simp, by simp, by simp [hf]⟩
            · rw [if_neg h6] at hj
              by_cases h7 : matchWord inp p wNull = true
              · rw [if_pos h7] at hj
                injection hj with hj
                subst hj
                rw [stepv_eq_null inp opts n s hf hch h1 h2 (by
              rw [Bool.eq_false_iff]
              intro ht
              rcases Bool.or_eq_true _ _ |>.mp ht with he | he
              · exact h3 (by simpa using he)
              · replace he : c = '\'' := by simpa using he
                have hmh := matchWord_head h7
                rw [hc] at hmh
                injection hmh with hmh
                rw [he] at hmh
                exact absurd hmh (by decide)) (by simpa using h4) (by rw [hst]; simpa using h5) (by rw [hst]; simpa using h6) (by rw [hst]; exact h7), hst] at h
                injection h with h
                injection h with hA hB
                subst hA
                subst hB
                refine ⟨rfl, by simp, by simp, by simp, by simp, by simp [hf]⟩
              · rw [if_neg h7] at hj
                exact Option.noConfusion hj

set_option maxHeartbeats 1000000 in
theorem simMembers_of (inp : List Char) (opts : Options) (pf : Nat)
    (ihv : ∀ k, k < pf → SimValue inp opts k)
    (ihm : ∀ k, k < pf → SimMembers inp opts k) :
    SimMembers inp opts pf := by
  intro jf fields d ok p r s rv s1 hj hk hdep hf hst hc0 h
  cases pf with
  | zero => exact absurd h (by simp [step])
  | succ n =>
  cases jf with
  | zero => exact absurd hj (by simp [jstep])
  | succ m =>
  -- walk the decoder derivation
  rw [jstep] at hj
  have hq : chAt inp p = some '"' := by
    by_contra hqq
    rw [if_neg hqq] at hj
    exact Option.noConfusion hj
  rw [if_pos hq] at hj
  cases hjs : jdString inp (inp.length + 1) (p+1) [] with
  | none => rw [hjs] at hj; exact Option.noConfusion hj
  | some sp =>
  rw [hjs] at hj
  obtain ⟨k, p1⟩ := sp
  dsimp only at hj
  have hcol : chAt inp (jWs inp p1) = some ':' := by
    by_contra hnc
    rw [if_neg hnc] at hj
    exact Option.noConfusion hj
  rw [if_pos hcol] at hj
  cases hkid : jstep inp m (.jvalue (jWs inp (jWs inp p1 + 1))) with
  | none => rw [hkid] at hj; exact Option.noConfusion hj
  | some rkid =>
  rw [hkid] at hj
  dsimp only at hj
  have hfol4 : chAt inp (jWs inp rkid.pos) = some ',' ∨
      chAt inp (jWs inp rkid.pos) = some rbrace := by
    by_cases hcm : chAt inp (jWs inp rkid.pos) = some ','
    · exact Or.inl hcm
    · right
      by_contra hnb
      rw [if_neg hcm, if_neg hnb] at hj
      exact Option.noConfusion hj
  have hokfacts : goodKey k = true ∧ rkid.keysOk = true ∧ rkid.depth + 1 ≤ r.depth := by
    by_cases hcm : chAt inp (jWs inp rkid.pos) = some ','
    · rw [if_pos hcm] at hj
      have hpostC := (jstep_post inp m _ r hj).2
      have hok2 := hpostC.2.1 hk
      simp only [Bool.and_eq_true] at hok2
      exact ⟨hok2.1.2, hok2.2, by omega⟩
    · rw [if_neg hcm] at hj
      have hrb4 : chAt inp (jWs inp rkid.pos) = some rbrace := by
        by_contra hnb
        rw [if_neg hnb] at hj
        exact Option.noConfusion hj
      rw [if_pos hrb4] at hj
      injection hj with hj
      subst hj
      dsimp only at hk
      simp only [Bool.and_eq_true] at hk
      exact ⟨hk.1.2, hk.2, by dsimp only; omega⟩
  -- walk the parser
  obtain ⟨c0, hc0e, hc0ne⟩ := hc0
  rw [step] at h
  rw [if_neg (by simp [hf])] at h
  rw [hc0e] at h
  dsimp only at h
  rw [if_neg hc0ne] at h
  rw [hst] at h
  simp only [St.withPos_pos] at h
  rw [hq] at h
  dsimp only at h
  rw [if_neg (by decide : ¬('"' : Char) = ','),
    if_neg (by decide : ¬('"' : Char) = rbrace),
    if_neg (by decide : ¬('"' : Char) = ']'),
    if_pos (by decide : (('"' : Char) = '"' || ('"' : Char) = '\'') = true)] at h
  have hps := @parseString_sim inp opts (s.withPos p) k p1
    (by simpa using hq) (by simpa using hjs)
    (strClose_of_follow inp (Or.inr (Or.inr (Or.inl hcol))))
  rw [hps] at h
  dsimp only at h
  rw [if_neg (by simp [hf])] at h
  cases n with
  | zero => exact absurd h (by simp [step])
  | succ n3 =>
  rw [step] at h
  rw [if_neg (by simp [hf])] at h
  dsimp only at h
  simp only [St.withPos_pos] at h
  have hsw1 : skipWSPos inp opts p1 = jWs inp p1 :=
    skipWS_to inp opts hcol (by decide) (by decide)
  rw [hsw1] at h
  have hkh : ¬ (List.head? k = some ',') := by
    have hg := hokfacts.1
    simp only [goodKey, Bool.and_eq_true, decide_eq_true_eq] at hg
    exact hg.1
  rw [if_neg hkh] at h
  dsimp only at h
  rw [if_neg (by simp [hf])] at h
  simp only [St.withPos_pos] at h
  rw [if_pos hcol] at h
  cases n3 with
  | zero => exact absurd h (by simp [step])
  | succ n4 =>
  rw [step] at h
  rw [if_neg (by simp [hf])] at h
  dsimp only at h
  simp only [St.withPos_pos] at h
  obtain ⟨cv, hcv, hcvw, hcvj, hcvs, hcvrb, hcvrs, hcvcm, hcvcol⟩ := jvalue_start inp hkid
  have hsw2 : skipWSPos inp opts (jWs inp p1 + 1) = jWs inp (jWs inp p1 + 1) :=
    skipWS_to inp opts hcv hcvw hcvs
  rw [hsw2] at h
  rw [if_neg (by have := le_of_chAt_some hcv; simp [isEof]; omega)] at h
  split at h
  · exact Option.noConfusion h
  · rename_i v sV heqv
    have hsimv := ihv n4 (by omega) m (jWs inp (jWs inp p1 + 1)) rkid _ v sV hkid
      hokfacts.2.1
      (by simp only [St.withPos_nestDepth]
          have := hokfacts.2.2
          omega)
      (by rcases hfol4 with hcm | hrb
          · exact Or.inr (Or.inl hcm)
          · exact Or.inr (Or.inr (Or.inr (Or.inl hrb))))
      (by simp [hf])
      (skipWS_idem_to inp opts hcv hcvw hcvs)
      heqv
    obtain ⟨hvv, hvpos, hverr, hvdep, hvnst, hvfat⟩ := hsimv
    simp only [St.withPos_errors] at hverr
    simp only [St.withPos_depth] at hvdep
    simp only [St.withPos_nestDepth] at hvnst
    rw [hvfat] at h
    rw [if_neg (by simp)] at h
    have habs : v.isAbsent = false := by
      rw [hvv]
      exact (jstep_post inp m _ rkid hkid).1
    rw [if_neg (by simp [habs] : ¬ v.isAbsent = true)] at h
    rw [hvv, hvpos] at h
    have hg2 := hokfacts.1
    simp only [goodKey, Bool.and_eq_true, decide_eq_true_eq] at hg2
    rw [setKeyJs_of_ne fields rkid.v hg2.2] at h
    have hsw3 : skipWSPos inp opts rkid.pos = jWs inp rkid.pos := by
      rcases hfol4 with hcm | hrb
      · exact skipWS_to inp opts hcm (by decide) (by decide)
      · exact skipWS_to inp opts hrb (by decide) (by decide)
    rw [hsw3] at h
    rcases hfol4 with hcm | hrb
    · -- a comma continues the member loop
      rw [if_pos hcm] at hj
      rw [if_pos hcm] at h
      have hnext := jmembers_start inp hj
      have hswn : skipWSPos inp opts (jWs inp rkid.pos + 1) =
          jWs inp (jWs inp rkid.pos + 1) :=
        skipWS_to inp opts hnext (by decide) (by decide)
      obtain ⟨c0n, hc0n, hc0nw⟩ := loop_entry_char inp hnext
      have hc0nne : ¬ c0n = rbrace := by
        rcases hc0nw with hw | hw
        · rcases isJsonWs_cases hw with he | he | he | he <;> (subst he; decide)
        · subst hw
          decide
      have hsm := ihm n4 (by omega) m _ _ _ _ r _ rv s1 hj hk
        (by simp only [St.withPos_nestDepth]
            rw [hvnst]
            omega)
        (by simp [hvfat])
        (by simp only [St.withPos_pos]
            exact hswn)
        ⟨c0n, by simpa using hc0n, hc0nne⟩
        h
      obtain ⟨hv2, hpos2, hrb2, herr2, hdp2, hnst2, hfat2⟩ := hsm
      refine ⟨hv2, hpos2, hrb2, ?_, ?_, ?_, hfat2⟩
      · rw [herr2]
        simp only [St.withPos_errors]
        exact hverr
      · rw [hdp2]
        simp only [St.withPos_depth]
        exact hvdep
      · rw [hnst2]
        simp only [St.withPos_nestDepth]
        exact hvnst
    · -- the closing brace ends the object
      have hncm : ¬ chAt inp (jWs inp rkid.pos) = some ',' := by
        rw [hrb]
        intro hx
        injection hx with hx
        exact absurd hx (by decide)
      rw [if_neg hncm, if_pos hrb] at hj
      injection hj with hj
      subst hj
      rw [if_neg hncm, if_pos hrb] at h
      cases n4 with
      | zero => exact absurd h (by simp [step])
      | succ n5 =>
      rw [step] at h
      rw [if_neg (by simp [hvfat])] at h
      simp only [St.withPos_pos] at h
      rw [hrb] at h
      dsimp only at h
      rw [if_pos rfl] at h
      injection h with h
      injection h with hA hB
      subst hA
      subst hB
      refine ⟨rfl, by simp, by simpa using hrb, ?_, ?_, ?_, by simp [hvfat]⟩
      · simp only [St.withPos_errors]
        exact hverr
      · simp only [St.withPos_depth]
        exact hvdep
      · simp only [St.withPos_nestDepth]
        exact hvnst

set_option maxHeartbeats 1000000 in
theorem simElems_of (inp : List Char) (opts : Options) (pf : Nat)
    (ihv : ∀ k, k < pf → SimValue inp opts k)
    (ihe : ∀ k, k < pf → SimElems inp opts k) :
    SimElems inp opts pf := by
  intro jf elems d ok p r s rv s1 hj hk hdep hf hst hc0 h
  cases pf with
  | zero => exact absurd h (by simp [step])
  | succ n =>
  cases jf with
  | zero => exact absurd hj (by simp [jstep])
  | succ m =>
  rw [jstep] at hj
  cases hkid : jstep inp m (.jvalue p) with
  | none => rw [hkid] at hj; exact Option.noConfusion hj
  | some rkid =>
  rw [hkid] at hj
  dsimp only at hj
  have hfol4 : chAt inp (jWs inp rkid.pos) = some ',' ∨
      chAt inp (jWs inp rkid.pos) = some ']' := by
    by_cases hcm : chAt inp (jWs inp rkid.pos) = some ','
    · exact Or.inl hcm
    · right
      by_contra hnb
      rw [if_neg hcm, if_neg hnb] at hj
      exact Option.noConfusion hj
  have hokfacts : rkid.keysOk = true ∧ rkid.depth + 1 ≤ r.depth := by
    by_cases hcm : chAt inp (jWs inp rkid.pos) = some ','
    · rw [if_pos hcm] at hj
      have hpostC := (jstep_post inp m _ r hj).2
      have hok2 := hpostC.2.1 hk
      simp only [Bool.and_eq_true] at hok2
      exact ⟨hok2.2, by omega⟩
    · rw [if_neg hcm] at hj
      have hrb4 : chAt inp (jWs inp rkid.pos) = some ']' := by
        by_contra hnb
        rw [if_neg hnb] at hj
        exact Option.noConfusion hj
      rw [if_pos hrb4] at hj
      injection hj with hj
      subst hj
      dsimp only at hk
      simp only [Bool.and_eq_true] at hk
      exact ⟨hk.2, by dsimp only; omega⟩
  obtain ⟨cv, hcv, hcvw, hcvj, hcvs, hcvrb, hcvrs, hcvcm, hcvcol⟩ := jvalue_start inp hkid
  obtain ⟨c0, hc0e, hc0ne⟩ := hc0
  rw [step] at h
  rw [if_neg (by simp [hf])] at h
  rw [hc0e] at h
  dsimp only at h
  rw [if_neg hc0ne] at h
  rw [hst] at h
  simp only [St.withPos_pos] at h
  rw [hcv] at h
  dsimp only at h
  rw [if_neg hcvcm, if_neg hcvrs, if_neg hcvrb] at h
  have hkv : looksLikeKeyValueAhead inp p = false := kvAhead_false inp hkid hfol4
  rw [if_neg (by simp [hkv])] at h
  split at h
  · exact Option.noConfusion h
  · rename_i v sV heqv
    have hsimv := ihv n (by omega) m p rkid _ v sV hkid
      hokfacts.1
      (by simp only [St.withPos_nestDepth]
          have := hokfacts.2
          omega)
      (by rcases hfol4 with hcm | hrs
          · exact Or.inr (Or.inl hcm)
          · exact Or.inr (Or.inr (Or.inr (Or.inr hrs))))
      (by simp [hf])
      (by simp only [St.withPos_pos]
          rw [← hst]
          exact skipWSPos_skipWSPos inp opts s.pos)
      heqv
    obtain ⟨hvv, hvpos, hverr, hvdep, hvnst, hvfat⟩ := hsimv
    simp only [St.withPos_errors] at hverr
    simp only [St.withPos_depth] at hvdep
    simp only [St.withPos_nestDepth] at hvnst
    rw [hvfat] at h
    rw [if_neg (by simp)] at h
    have habs : v.isAbsent = false := by
      rw [hvv]
      exact (jstep_post inp m _ rkid hkid).1
    rw [if_neg (by simp [habs] : ¬ v.isAbsent = true)] at h
    rw [hvv, hvpos] at h
    have hsw3 : skipWSPos inp opts rkid.pos = jWs inp rkid.pos := by
      rcases hfol4 with hcm | hrs
      · exact skipWS_to inp opts hcm (by decide) (by decide)
      · exact skipWS_to inp opts hrs (by decide) (by decide)
    rw [hsw3] at h
    rcases hfol4 with hcm | hrs
    · -- a comma continues the element loop
      rw [if_pos hcm] at hj
      rw [if_pos hcm] at h
      obtain ⟨cn, hcn, hcnw, hcnj, hcns, hcnrb, hcnrs, hcncm, hcncol⟩ := jelems_start inp hj
      have hswn : skipWSPos inp opts (jWs inp rkid.pos + 1) =
          jWs inp (jWs inp rkid.pos + 1) :=
        skipWS_to inp opts hcn hcnw hcns
      obtain ⟨c0n, hc0n, hc0nw⟩ := loop_entry_char inp hcn
      have hc0nne : ¬ c0n = ']' := by
        rcases hc0nw with hw | hw
        · rcases isJsonWs_cases hw with he | he | he | he <;> (subst he; decide)
        · subst hw
          exact hcnrs
      have hse := ihe n (by omega) m _ _ _ _ r _ rv s1 hj hk
        (by simp only [St.withPos_nestDepth]
            rw [hvnst]
            omega)
        (by simp [hvfat])
        (by simp only [St.withPos_pos]
            exact hswn)
        ⟨c0n, by simpa using hc0n, hc0nne⟩
        h
      obtain ⟨hv2, hpos2, hrb2, herr2, hdp2, hnst2, hfat2⟩ := hse
      refine ⟨hv2, hpos2, hrb2, ?_, ?_, ?_, hfat2⟩
      · rw [herr2]
        simp only [St.withPos_errors]
        exact hverr
      · rw [hdp2]
        simp only [St.withPos_depth]
        exact hvdep
      · rw [hnst2]
        simp only [St.withPos_nestDepth]
        exact hvnst
    · -- the closing bracket ends the array
      have hncm : ¬ chAt inp (jWs inp rkid.pos) = some ',' := by
        rw [hrs]
        intro hx
        injection hx with hx
        exact absurd hx (by decide)
      rw [if_neg hncm, if_pos hrs] at hj
      injection hj with hj
      subst hj
      rw [if_neg hncm, if_pos hrs] at h
      cases n with
      | zero => exact absurd h (by simp [step])
      | succ n5 =>
      rw [step] at h
      rw [if_neg (by simp [hvfat])] at h
      simp only [St.withPos_pos] at h
      rw [hrs] at h
      dsimp only at h
      rw [if_pos rfl] at h
      injection h with h
      injection h with hA hB
      subst hA
      subst hB
      refine ⟨rfl, by simp, by simpa using hrs, ?_, ?_, ?_, by simp [hvfat]⟩
      · simp only [St.withPos_errors]
        exact hverr
      · simp only [St.withPos_depth]
        exact hvdep
      · simp only [St.withPos_nestDepth]
        exact hvnst

theorem step_sim (inp : List Char) (opts : Options) :
    ∀ pf, SimValue inp opts pf ∧ SimMembers inp opts pf ∧ SimElems inp opts pf := by
  intro pf
  induction pf using Nat.strong_induction_on with
  | _ pf ih =>
    refine ⟨simValue_of inp opts pf (fun k hkk => (ih k hkk).2.1)
        (fun k hkk => (ih k hkk).2.2),
      simMembers_of inp opts pf (fun k hkk => (ih k hkk).1)
        (fun k hkk => (ih k hkk).2.1),
      simElems_of inp opts pf (fun k hkk => (ih k hkk).1)
        (fun k hkk => (ih k hkk).2.2)⟩

set_option maxHeartbeats 1000000 in
/-- C1: on syntactically valid JSON input whose object keys are plain (no
key begins with a comma or is `__proto__`), whose nesting depth is within
the default `maxDepth` of 100, and whose top-level value is not `null`,
`parse_smart` with default options returns `ok = true`, `errorCount = 0`,
no error messages, and exactly one result that is deep-equal to the value
of the reference strict JSON decode. -/
theorem C1_strict_json_fidelity (inp : List Char) (r : JRes)
    (hdec : jsonDecode inp = some r) (hkeys : r.keysOk = true)
    (hdepth : r.depth ≤ 100) (hnull : r.v.isNull = false) :
    parseSmartL inp defaultOptions = some ⟨true, [r.v], 0, [], false⟩ := by
  rw [jsonDecode] at hdec
  cases hjs : jstep inp (4 * (inp.length + 2)) (.jvalue (jWs inp 0)) with
  | none => rw [hjs] at hdec; exact Option.noConfusion hdec
  | some r0 =>
  rw [hjs] at hdec
  dsimp only at hdec
  by_cases htrail : inp.length ≤ jWs inp r0.pos
  · rw [if_pos htrail] at hdec
    injection hdec with hdec
    subst hdec
    obtain ⟨cv, hcv, hcvw, hcvj, hcvs, hcvrb, hcvrs, hcvcm, hcvcol⟩ := jvalue_start inp hjs
    have hne : (inp.isEmpty || inp.all isJsWs) = false := by
      rw [Bool.eq_false_iff]
      intro ht
      rcases Bool.or_eq_true _ _ |>.mp ht with he | ha
      · have hlen := le_of_chAt_some hcv
        have hlen0 : inp.length = 0 := List.isEmpty_iff_length_eq_zero.mp (by simpa using he)
        omega
      · have hmem : cv ∈ inp := List.get?_mem hcv
        have hws := List.all_eq_true.mp (by simpa using ha) cv hmem
        simp only [hcvw] at hws
        exact Bool.noConfusion hws
    have hbom : ¬ chAt inp 0 = some (Char.ofNat 0xfeff) := by
      intro hb
      have hj0 : jWs inp 0 = 0 := by
        rw [jWs]
        cases hl : inp.length with
        | zero => rfl
        | succ mm =>
          rw [jsonWsEnd, hb]
          dsimp only
          rw [if_neg (by decide : ¬ isJsonWs (Char.ofNat 0xfeff) = true)]
      rw [hj0, hb] at hcv
      injection hcv with hcv
      rw [← hcv] at hcvw
      exact absurd hcvw (by decide)
    rw [parseSmartL, if_neg (by simp only [hne]; exact Bool.noConfusion)]
    rw [parseF]
    dsimp only
    rw [if_neg hbom]
    have hsw0 : skipWSPos inp defaultOptions 0 = jWs inp 0 :=
      skipWS_to inp defaultOptions hcv hcvw hcvs
    rw [hsw0]
    rw [if_neg (by have := le_of_chAt_some hcv; simp [isEof]; omega)]
    have hsome := step_suffices inp defaultOptions (canonFuel inp)
      (.value ((⟨0, [], 0, 0, false⟩ : St).withPos (jWs inp 0)))
      (by simp only [Req.need, Req.rank, Req.st_value, St.withPos_pos, canonFuel]
          omega)
      trivial
    obtain ⟨vs, hrun⟩ := Option.isSome_iff_exists.mp hsome
    obtain ⟨v, sF⟩ := vs
    rw [hrun]
    dsimp only
    have hsim := (step_sim inp defaultOptions (canonFuel inp)).1 (4 * (inp.length + 2))
      (jWs inp 0) r0 ((⟨0, [], 0, 0, false⟩ : St).withPos (jWs inp 0)) v sF hjs hkeys
      (by simp only [St.withPos_nestDepth]
          show r0.depth + 0 ≤ 100
          omega)
      (Or.inl htrail)
      (by simp)
      (skipWS_idem_to inp defaultOptions hcv hcvw hcvs)
      hrun
    obtain ⟨hvv, hvpos, hverr, hvdep, hvnst, hvfat⟩ := hsim
    rw [if_neg (by simp [hvfat])]
    have herr0 : sF.errors = [] := by simpa using hverr
    have habs : r0.v.isAbsent = false := by
      have := (jstep_post inp (4 * (inp.length + 2)) _ r0 hjs).1
      exact this
    rw [hvv, herr0]
    rw [if_neg (by simp [hnull, habs])]
    rfl
  · rw [if_neg htrail] at hdec
    exact Option.noConfusion hdec

/-- C1 counterexample: `{",":1}` is syntactically valid JSON (its single
key is the one-character string `,`), yet `parse_smart` with default
options does not reproduce the strict decode silently: the key-sanitation
pass rewrites the key and logs an error, so `ok` is `false`. -/
theorem C1_counterexample :
    ∃ r, jsonDecode ("\x7b\",\":1\x7d".data) = some r ∧ r.depth ≤ 100 ∧
      r.v.isNull = false ∧
      parseSmartL ("\x7b\",\":1\x7d".data) defaultOptions ≠
        some ⟨true, [r.v], 0, [], false⟩ := by
  refine ⟨⟨.obj [([','], .num ['1'])], 7, 1, false⟩, by rfl, by decide, rfl, ?_⟩
  intro hcontra
  have hok : Option.map Outcome.ok
      (parseSmartL ("\x7b\",\":1\x7d".data) defaultOptions) = some false := by rfl
  rw [hcontra] at hok
  injection hok with hok
  exact Bool.noConfusion hok

/-- C1 witness: a concrete valid JSON input on which the fidelity theorem
applies. -/
theorem C1_witness :
    jsonDecode ("\x7b\"a\":[1,true]\x7d".data) =
      some ⟨.obj [(['a'], .arr [.num ['1'], .bool true])], 14, 2, true⟩ ∧
    parseSmartL ("\x7b\"a\":[1,true]\x7d".data) defaultOptions =
      some ⟨true, [.obj [(['a'], .arr [.num ['1'], .bool true])]], 0, [], false⟩ :=
  ⟨by rfl,
    C1_strict_json_fidelity ("\x7b\"a\":[1,true]\x7d".data)
      ⟨.obj [(['a'], .arr [.num ['1'], .bool true])], 14, 2, true⟩
      (by rfl) rfl (by decide) rfl⟩

end FtParse
